import Mathlib

/-!
# Verification of `sort_python_imports.py`

A shallow embedding of the import-sorting script `src/sort_python_imports.py`
(a Python 2 editor command).  Lines are modelled as lists of characters
(Python 2 byte strings).  Each module-level compiled regular expression of the
source is modelled by a deterministic matching function; every such function is
derived from the leftmost-greedy backtracking semantics of `re.match` for that
particular pattern, and the derivation is recorded in the docstring of the
function.  Fallible operations (`raise ValueError`, failing `%`-formatting)
return `Option`, with `none` for the raised exception.
-/

namespace SortPy

/-- One physical line of text: a Python 2 byte string, modelled as a list of
characters.  Comparison of Python 2 strings is byte-wise lexicographic, which
is mirrored by `strCmp` below. -/
abbrev Line := List Char

/-- The Python regex class `\s` (equivalently `str.isspace` for ASCII data):
space, tab, newline, carriage return, vertical tab, form feed. -/
def isWS (c : Char) : Bool :=
  c == ' ' || c == '\t' || c == '\n' || c == '\r' || c == '\x0b' || c == '\x0c'

/-- Python 2 `str.upper` in the C locale: only ASCII `a`-`z` are mapped. -/
def upChar (c : Char) : Char :=
  if 97 ≤ c.toNat ∧ c.toNat ≤ 122 then Char.ofNat (c.toNat - 32) else c

/-- `line.upper()`. -/
def upper (l : Line) : Line := l.map upChar

/-- `line.lstrip()` (whitespace only). -/
def lstrip (l : Line) : Line := l.dropWhile isWS

/-- `line.rstrip()` (whitespace only). -/
def rstrip (l : Line) : Line := (l.reverse.dropWhile isWS).reverse

/-- `line.strip()` (whitespace only). -/
def strip (l : Line) : Line := rstrip (lstrip l)

/-- Captured groups of `__global_import_re` and `__future_import_re`
(`indent`, `items`, `comment`). -/
structure GlobalGroups where
  indent : Line
  items : Line
  comment : Line
deriving DecidableEq, Repr

/-- Captured groups of `__from_import_re`
(`indent`, `module`, `items`, `comment`). -/
structure FromGroups where
  indent : Line
  module : Line
  items : Line
  comment : Line
deriving DecidableEq, Repr

/-- The group `(?P<comment>(#.*)?)`: if the remaining text starts with `#`,
the comment is the `#` plus the longest following run of non-newline
characters (`.` does not match `\n`); otherwise the group is empty.  The
matching regexes are unanchored at the right, so any text left over after this
group is simply not part of the match. -/
def commentGroup (r : Line) : Line :=
  match r with
  | [] => []
  | c :: t => if c == '#' then '#' :: t.takeWhile (fun c => !(c == '\n')) else []

/-- The items group `(?P<items>[^#]*)`: greedy, stops at the first `#` (it can
cross newlines, since `[^#]` includes `\n`). -/
def itemsGroup (r : Line) : Line := r.takeWhile (fun c => !(c == '#'))

/-- Model of `re.match` for
`__global_import_re = (?P<indent>\s*)import\s(?P<items>[^#]*)(?P<comment>(#.*)?)`.

Derivation from backtracking semantics: `\s*` is greedy and the literal
`import` starts with the non-whitespace character `i`, so the indent group is
forced to be exactly the maximal leading whitespace run (any shorter choice
places a whitespace character where `i` is required).  After the literal,
`\s` consumes exactly one whitespace character, then the two trailing groups
are greedy and never fail, and the pattern is unanchored on the right. -/
def __global_import_match (l : Line) : Option GlobalGroups :=
  let indent := l.takeWhile isWS
  let r := (l.dropWhile isWS)
  if ("import".data).isPrefixOf r then
    match r.drop 6 with
    | c :: rest =>
      if isWS c then
        some ⟨indent, itemsGroup rest, commentGroup (rest.dropWhile (fun c => !(c == '#')))⟩
      else none
    | [] => none
  else none

/-- Model of `re.match` for
`__from_import_re = (?P<indent>\s*)from\s+(?P<module>\S*)\s+import\s(?P<items>[^#]*)(?P<comment>(#.*)?)`.

Derivation from backtracking semantics.  As for the global pattern, the indent
is the maximal leading whitespace run (the literal `from` starts with `f`).
Let `w1` be the maximal whitespace run after `from` (`\s+`, so `w1` must be
nonempty), `m` the maximal non-whitespace run after it (`\S*` greedy), and
`r4` the rest.  The engine first tries `module = m`: the following `\s+` is
forced maximal (the literal `import` starts with a non-whitespace character)
and the single `\s` after the literal must match one more character.  If that
fails, shrinking `\s+` or `module` always places a mismatching character
(every proper prefix of `m` is followed by a non-whitespace character), until
the engine shrinks `w1` itself: then `\S*` matches the empty string at a
whitespace character, the second `\s+` absorbs the remainder of `w1`, and the
literal `import` is matched at the start of `m` — which succeeds exactly when
`w1` has at least two characters, `m` is the literal `import`, and `r4` starts
with a whitespace character; the module group is then empty. -/
def __from_import_match (l : Line) : Option FromGroups :=
  let indent := l.takeWhile isWS
  let r := (l.dropWhile isWS)
  if ("from".data).isPrefixOf r then
    let r2 := r.drop 4
    let w1 := r2.takeWhile isWS
    if w1.isEmpty then none
    else
      let r3 := r2.dropWhile isWS
      let m := r3.takeWhile (fun c => !(isWS c))
      let r4 := r3.drop m.length
      let w2 := r4.takeWhile isWS
      let r5 := r4.drop w2.length
      let primary :=
        if !w2.isEmpty && ("import".data).isPrefixOf r5 then
          match r5.drop 6 with
          | c :: rest =>
            if isWS c then
              some (⟨indent, m, itemsGroup rest,
                commentGroup (rest.dropWhile (fun c => !(c == '#')))⟩ : FromGroups)
            else none
          | [] => none
        else none
      match primary with
      | some g => some g
      | none =>
        if 2 ≤ w1.length && m == "import".data then
          match r4 with
          | c :: rest =>
            if isWS c then
              some ⟨indent, [], itemsGroup rest,
                commentGroup (rest.dropWhile (fun c => !(c == '#')))⟩
            else none
          | [] => none
        else none
  else none

/-- Model of `re.match` for
`__future_import_re = (?P<indent>\s*)from\s+__future__\s+import\s(?P<items>[^#]*)(?P<comment>(#.*)?)`.

Derivation: as above every `\s+` is forced maximal because the following
literal (`__future__` resp. `import`) starts with a non-whitespace character,
so no backtracking case survives and the match is a straight scan. -/
def __future_import_match (l : Line) : Option GlobalGroups :=
  let r := (l.dropWhile isWS)
  let indent := l.takeWhile isWS
  if ("from".data).isPrefixOf r then
    let r2 := r.drop 4
    let w1 := r2.takeWhile isWS
    if w1.isEmpty then none
    else
      let r3 := r2.dropWhile isWS
      if ("__future__".data).isPrefixOf r3 then
        let r4 := r3.drop 10
        let w2 := r4.takeWhile isWS
        if w2.isEmpty then none
        else
          let r5 := r4.drop w2.length
          if ("import".data).isPrefixOf r5 then
            match r5.drop 6 with
            | c :: rest =>
              if isWS c then
                some ⟨indent, itemsGroup rest,
                  commentGroup (rest.dropWhile (fun c => !(c == '#')))⟩
              else none
            | [] => none
          else none
      else none
  else none

/-- Model of `__boring_re.match(line) is not None` for
`__boring_re = \s*(#.*)?$`.

Derivation: `$` matches only at the end of the string or just before a final
newline.  If the line is all whitespace the greedy `\s*` reaches the end.
Otherwise the maximal leading whitespace run must be followed by `#` (any
shorter split places a whitespace character where `#` or `$` is required and
`$` cannot hold strictly inside the string), `.*` extends to the first
newline or the end, and `$` must hold there: so after the `#` the rest of the
line must contain no newline except possibly a single final one. -/
def _is_boring (l : Line) : Bool :=
  match l.dropWhile isWS with
  | [] => true
  | c :: t =>
    if c == '#' then
      let body := t.takeWhile (fun c => !(c == '\n'))
      let rest := t.drop body.length
      rest.isEmpty || rest == ['\n']
    else false

/-- Model of `__endl_re.search(line).group()` for `__endl_re = \n?$`:
the final newline of the line if there is one, else the empty string
(`re.search` finds the leftmost match; `$` only holds at the end or before a
final newline, so the leftmost and greediest match is the final newline when
present). -/
def __endl_suffix (l : Line) : Line :=
  match l.getLast? with
  | none => []
  | some c => if c == '\n' then ['\n'] else []

/-- `_is_future_import`: checks if line is a `from __future__ import ...`. -/
def _is_future_import (l : Line) : Bool := (__future_import_match l).isSome

/-- `_is_global_import`: checks if line is an `import ...`. -/
def _is_global_import (l : Line) : Bool := (__global_import_match l).isSome

/-- `_is_from_import`: checks if line is a `from ... import ...`. -/
def _is_from_import (l : Line) : Bool := (__from_import_match l).isSome

/-- `_has_leading_ws`. -/
def _has_leading_ws : Line → Bool
  | [] => false
  | c :: _ => isWS c

/-- `_is_unindented_import`. -/
def _is_unindented_import (l : Line) : Bool :=
  !(_has_leading_ws l) && (_is_global_import l || _is_from_import l)

/-- Byte-wise three-way comparison of Python 2 strings. -/
def strCmp : Line → Line → Ordering
  | [], [] => .eq
  | [], _ :: _ => .lt
  | _ :: _, [] => .gt
  | a :: as, b :: bs =>
    if a.toNat < b.toNat then .lt
    else if b.toNat < a.toNat then .gt
    else strCmp as bs

/-- Python 2 comparison of the pairs built by `_sorted(l, key)` when the key
is a string (`_sort_and_join`): tuples `(key(x), x)` compare component-wise. -/
def itemPairLe (p q : Line × Line) : Bool :=
  match strCmp p.1 q.1 with
  | .lt => true
  | .gt => false
  | .eq => !(strCmp p.2 q.2 == .gt)

/-- Python 2 comparison of the pairs built by `_sorted` inside `_fixed`,
whose keys are `(-rank(x), x.upper())`: integer first, then the uppercased
line, then (tuple comparison of the outer pair) the line itself. -/
def fixPairLe (p q : (Int × Line) × Line) : Bool :=
  if p.1.1 < q.1.1 then true
  else if q.1.1 < p.1.1 then false
  else
    match strCmp p.1.2 q.1.2 with
    | .lt => true
    | .gt => false
    | .eq => !(strCmp p.2 q.2 == .gt)

/-- The pair order used by `_sorted(items, key=upper)` as a relation. -/
def itemRel (p q : Line × Line) : Prop := itemPairLe p q = true

instance : DecidableRel itemRel :=
  fun p q => inferInstanceAs (Decidable (itemPairLe p q = true))

/-- The pair order used by `_sorted` inside `_fixed` as a relation. -/
def fixRel (p q : (Int × Line) × Line) : Prop := fixPairLe p q = true

instance : DecidableRel fixRel :=
  fun p q => inferInstanceAs (Decidable (fixPairLe p q = true))

/-- `_sorted(l, key)`: builds the list of pairs `(key(x), x)`, sorts it with
Python's `list.sort` and projects.  Python's sort is a stable sort by the
*whole pair*; that comparison is a total order whose ties are only between
identical pairs, so every correct sorting algorithm returns the same list;
we use insertion sort.  This instance is `_sorted(items, key=upper)`. -/
def _sorted_items (items : List Line) : List Line :=
  ((items.map (fun x => (upper x, x))).insertionSort itemRel).map (·.2)

/-- `sets.Set` of trimmed item strings, represented canonically.  A Python
`Set` is an unordered collection of distinct strings; its only consumer,
`_sort_and_join`, sorts it by `(item.upper(), item)` before use, so the
deduplicated list in that sorted order is a faithful canonical
representative. -/
def pySet (raw : List Line) : List Line := _sorted_items raw.dedup

/-- Python `str.split(',')` (all pieces kept, including empty ones). -/
def splitOnComma : Line → List Line
  | [] => [[]]
  | c :: rest =>
    if c == ',' then [] :: splitOnComma rest
    else
      match splitOnComma rest with
      | h :: t => (c :: h) :: t
      | [] => [[c]]

/-- The item-list handling of `_split_import`: strip one enclosing pair of
parentheses if the raw group both starts with `(` and ends with `)`, split on
commas, trim every piece and collect into a set. -/
def _split_items (itemsRaw : Line) : List Line :=
  let inner :=
    if itemsRaw.head? == some '(' && itemsRaw.getLast? == some ')' then
      (itemsRaw.drop 1).dropLast
    else itemsRaw
  pySet ((splitOnComma inner).map strip)

/-- `_make_template(indent, comment)`. -/
def _make_template (indent comment : Line) : Line :=
  indent ++ ['%', 's'] ++ (if comment.isEmpty then [] else ' ' :: comment)

/-- `_split_globals`: the `(set_of_items, line_template)` of an `import ...`
line (`None` for a non-matching line, where the source raises `ValueError`). -/
def _split_globals (l : Line) : Option (List Line × Line) :=
  (__global_import_match l).map fun g =>
    (_split_items g.items, _make_template g.indent g.comment)

/-- `_split_from`: the `(module, set_of_items, line_template)` of a
`from ... import ...` line. -/
def _split_from (l : Line) : Option (Line × List Line × Line) :=
  (__from_import_match l).map fun g =>
    (g.module, _split_items g.items, _make_template g.indent g.comment)

/-- Python 2 `%` string formatting as used in this file (string arguments
only).  `%s` consumes the next argument, `%%` produces a literal `%`; every
other directive is an error here: with the arguments supplied at the call
sites any further conversion either requires an argument that is no longer
available (`TypeError: not enough arguments`), is a type error for a string
argument, or is an invalid trailing `%` (`ValueError: incomplete format`).
Left-over arguments are an error (`TypeError: not all arguments converted`). -/
def pyFormat : Line → List Line → Option Line
  | [], [] => some []
  | [], _ :: _ => none
  | c :: t, args =>
    if c == '%' then
      match t, args with
      | 's' :: t2, a :: args2 => (pyFormat t2 args2).map (fun r => a ++ r)
      | '%' :: t2, _ => (pyFormat t2 args).map (fun r => '%' :: r)
      | _, _ => none
    else (pyFormat t args).map (fun r => c :: r)

/-- `', '.join(_sorted(items, key=lambda x: x.upper()))`. -/
def _sort_and_join (items : List Line) : Line :=
  List.intercalate [',', ' '] (_sorted_items items)

/-- `_make_global_import(items, template)`.  Note Python's `%` is
left-associative: `template % 'import %s' % join` is
`(template % 'import %s') % join`, i.e. two successive formatting passes. -/
def _make_global_import (items : List Line) (template : Line) : Option Line :=
  (pyFormat template [("import %s").data]).bind fun t2 =>
    pyFormat t2 [_sort_and_join items]

/-- `_make_from_import(module, items, template)`: two passes, the second with
the argument tuple `(module, join)`. -/
def _make_from_import (module : Line) (items : List Line) (template : Line) :
    Option Line :=
  (pyFormat template [("from %s import %s").data]).bind fun t2 =>
    pyFormat t2 [module, _sort_and_join items]

/-- `_repair_any(line)`: repairs any import line (does not affect boring
lines); `none` models the raised exception (the explicit `ValueError` on
the final branch, or a `%`-formatting error inside the make-functions). -/
def _repair_any (l : Line) : Option Line :=
  let suffix := __endl_suffix l
  if _is_global_import l then
    (_split_globals l).bind fun p =>
      (_make_global_import p.1 p.2).map (fun r => r ++ suffix)
  else if _is_from_import l then
    (_split_from l).bind fun p =>
      (_make_from_import p.1 p.2.1 p.2.2).map (fun r => r ++ suffix)
  else if _is_boring l then some l
  else none

/-- The inner `rank` function of `_fixed`; `none` models Python's `None`
(falling off the end of the function), which would make the sort key
computation `-rank(line)` raise a `TypeError`. -/
def rank (l : Line) : Option Nat :=
  if _is_future_import l then some 3
  else if _is_global_import l then some 2
  else if _is_from_import l then some 1
  else if _is_boring l then some 0
  else none

/-- `_fixed(lines)`: drop blank lines, repair every remaining line, and sort
by the key `(-rank(line), line.upper())` (with Python's pair sort the line
itself is the final tiebreaker). -/
def _fixed (lines : List Line) : Option (List Line) := do
  let kept := lines.filter (fun l => !(strip l).isEmpty)
  let repaired ← kept.mapM _repair_any
  let pairs ← repaired.mapM (fun x => (rank x).map (fun r => ((-(Int.ofNat r), upper x), x)))
  return (pairs.insertionSort fixRel).map (·.2)

/-- The scanning loop of `_get_lines` (arguments: remaining lines, current
index `num`, `start`, `end`, `start_found`). -/
def _get_lines_go : List Line → Nat → Nat → Nat → Bool → Nat × Nat
  | [], _, s, e, _ => (s, e)
  | l :: rest, num, s, e, sf =>
    if _is_unindented_import l then
      _get_lines_go rest (num + 1) (if sf then s else num) (num + 1) true
    else if e != 0 && !(_is_boring l) then (s, e)
    else _get_lines_go rest (num + 1) s e sf

/-- `_get_lines(lines)`: the half-open index range of the first block of
unindented imports. -/
def _get_lines (lines : List Line) : Nat × Nat := _get_lines_go lines 0 0 0 false

/-- `_fix_safely(lines)`: locate the block and splice the fixed block back
(`lines[start:end] = _fixed(lines[start:end])`); the replacement list is
computed completely before the splice. -/
def _fix_safely (lines : List Line) : Option (List Line) :=
  let p := _get_lines lines
  (_fixed ((lines.drop p.1).take (p.2 - p.1))).map fun f =>
    lines.take p.1 ++ f ++ lines.drop p.2

/-- Python `text.split('\n')` (pieces between newlines, empties kept;
`''.split('\n') == ['']`). -/
def splitNL : Line → List Line
  | [] => [[]]
  | c :: rest =>
    if c == '\n' then [] :: splitNL rest
    else
      match splitNL rest with
      | h :: t => (c :: h) :: t
      | [] => [[c]]

/-- `'\n'.join(lines)`. -/
def joinNL (ls : List Line) : Line := List.intercalate ['\n'] ls

/-- The text transformation performed by the editor command `sort_imports`:
`document.SetText('\n'.join(_fix_safely(document.GetText().split('\n'))))`.
`none` models the exception propagating out of the argument expression, in
which case `SetText` is never reached and the document keeps its old text. -/
def sort_imports (docText : Line) : Option Line :=
  (_fix_safely (splitNL docText)).map joinNL

/-- Modelled from the spec: section 6 requires a second entry point,
`normalize_given_range(lines)`, that runs the block normalizer (`_fixed`)
directly over a caller-selected slice `[s, e)` instead of auto-locating the
block; the visual-mode range command mentioned in the source header comment
is absent from `src/`.  The splice mirrors `lines[s:e] = _fixed(lines[s:e])`. -/
def normalize_given_range (lines : List Line) (s e : Nat) : Option (List Line) :=
  (_fixed ((lines.drop s).take (e - s))).map fun f =>
    lines.take s ++ f ++ lines.drop e

/-- Modelled from the spec: the editor wrapper for the range command writes
the replacement back only when normalization succeeds; a malformed-line error
aborts the command before anything is written, leaving the lines unchanged. -/
def run_range_command (lines : List Line) (s e : Nat) : List Line :=
  match normalize_given_range lines s e with
  | some out => out
  | none => lines

/-- A line that the normalizer re-renders stably: it contains neither `(`
nor `%`, and if it matches the from-import pattern its module group is
nonempty.  Parenthesis stripping, `%`-formatting of the template, and the
empty-module backtracking parse of `__from_import_re` are exactly the three
repair steps that are not inverted by re-parsing the rendered line. -/
def tameLine (l : Line) : Bool :=
  l.all (fun c => !(c == '(') && !(c == '%')) &&
    (match __from_import_match l with
     | some g => !g.module.isEmpty
     | none => true)

/-- A line whose semantic statement survives re-rendering: it contains no
`(`, and if it matches the from-import pattern its module group is
nonempty. -/
def semStableLine (l : Line) : Bool :=
  l.all (fun c => !(c == '(')) &&
    (match __from_import_match l with
     | some g => !g.module.isEmpty
     | none => true)

/-- The full specification of the range returned by `_get_lines lines`
(out-of-range indices read as the empty line, which is boring and not
an import statement): the range is within bounds; if it is empty nothing in the document
is an unindented import; otherwise it starts at the first unindented import,
every line in it is an unindented import or boring, and after the range no
unindented import occurs before the first non-boring line. -/
def GetLinesSpec (lines : List Line) (p : Nat × Nat) : Prop :=
  p.1 ≤ p.2 ∧ p.2 ≤ lines.length ∧
  (p.2 = 0 → p.1 = 0 ∧ ∀ k, _is_unindented_import (lines.getD k []) = false) ∧
  (p.2 ≠ 0 →
    p.1 < p.2 ∧
    _is_unindented_import (lines.getD p.1 []) = true ∧
    (∀ k, k < p.1 → _is_unindented_import (lines.getD k []) = false) ∧
    (∀ k, p.1 ≤ k → k < p.2 →
      _is_unindented_import (lines.getD k []) = true ∨
        _is_boring (lines.getD k []) = true) ∧
    (∀ k, p.2 ≤ k →
      (∀ m, p.2 ≤ m → m < k → _is_boring (lines.getD m []) = true) →
      _is_unindented_import (lines.getD k []) = false))

/-- Statement classification kinds for the semantic view of a line. -/
inductive ImpKind
  | future
  | plain
  | fromImp
deriving DecidableEq, Repr

/-- The semantic statement of an import line: its classification kind (with
the precedence of `rank`), its module (for `from` statements; `none` for
plain statements), and its set of trimmed item names, exactly as extracted by the
`_split_*` functions of the source.  `none` for lines that are not import
statements. -/
def semStatement (l : Line) : Option (ImpKind × Option Line × List Line) :=
  if _is_future_import l then
    (_split_from l).map fun p => (ImpKind.future, some p.1, p.2.1)
  else if _is_global_import l then
    (_split_globals l).map fun p => (ImpKind.plain, none, p.1)
  else if _is_from_import l then
    (_split_from l).map fun p => (ImpKind.fromImp, some p.1, p.2.1)
  else none

/-! ## General helper lemmas -/

theorem mapM_eq_some_iff {α β : Type} {f : α → Option β} :
    ∀ {ls : List α} {rs : List β},
      ls.mapM f = some rs ↔ List.Forall₂ (fun x y => f x = some y) ls rs := by
  intro ls
  induction ls with
  | nil =>
    intro rs
    constructor
    · intro h
      simp only [List.mapM_nil, pure, Option.some.injEq] at h
      subst h
      exact List.Forall₂.nil
    · intro h
      cases h
      rfl
  | cons a as ih =>
    intro rs
    constructor
    · intro h
      rw [List.mapM_cons] at h
      cases hfa : f a with
      | none => rw [hfa] at h; simp [Bind.bind, Option.bind] at h
      | some b =>
        rw [hfa] at h
        cases hrest : as.mapM f with
        | none =>
          rw [hrest] at h; simp [Bind.bind, Option.bind, pure] at h
        | some bs =>
          rw [hrest] at h
          simp only [Bind.bind, Option.bind, pure, Option.some.injEq] at h
          subst h
          exact List.Forall₂.cons hfa (ih.mp hrest)
    · intro h
      cases h with
      | cons hfa hrest =>
        rw [List.mapM_cons, hfa, ih.mpr hrest]
        simp [Bind.bind, Option.bind, pure]

theorem forall₂_mem_left {α β : Type} {R : α → β → Prop} :
    ∀ {ls : List α} {rs : List β}, List.Forall₂ R ls rs →
      ∀ {x : α}, x ∈ ls → ∃ y, y ∈ rs ∧ R x y := by
  intro ls rs h
  induction h with
  | nil => intro x hx; cases hx
  | cons hab _ ih =>
    intro x hx
    cases hx with
    | head => exact ⟨_, List.mem_cons_self _ _, hab⟩
    | tail _ hx2 =>
      obtain ⟨y, hy, hxy⟩ := ih hx2
      exact ⟨y, List.mem_cons_of_mem _ hy, hxy⟩

theorem forall₂_mem_right {α β : Type} {R : α → β → Prop} :
    ∀ {ls : List α} {rs : List β}, List.Forall₂ R ls rs →
      ∀ {y : β}, y ∈ rs → ∃ x, x ∈ ls ∧ R x y := by
  intro ls rs h
  induction h with
  | nil => intro y hy; cases hy
  | cons hab _ ih =>
    intro y hy
    cases hy with
    | head => exact ⟨_, List.mem_cons_self _ _, hab⟩
    | tail _ hy2 =>
      obtain ⟨x, hx, hxy⟩ := ih hy2
      exact ⟨x, List.mem_cons_of_mem _ hx, hxy⟩

theorem mapM_eq_some_of_pointwise {α β : Type} {f : α → Option β} {g : α → β} :
    ∀ {ls : List α}, (∀ x ∈ ls, f x = some (g x)) → ls.mapM f = some (ls.map g) := by
  intro ls h
  apply mapM_eq_some_iff.mpr
  induction ls with
  | nil => exact List.Forall₂.nil
  | cons a as ih =>
    exact List.Forall₂.cons (h a (List.mem_cons_self _ _))
      (ih fun x hx => h x (List.mem_cons_of_mem _ hx))

/-! ## Classification lemmas -/

/-- A line whose text after leading whitespace starts with `#` matches none
of the three import regexes (their literals start with `i` resp. `f`). -/
theorem hash_not_global {l : Line} (h : (l.dropWhile isWS).head? = some '#') :
    __global_import_match l = none := by
  unfold __global_import_match
  cases hr : l.dropWhile isWS with
  | nil => rw [hr] at h; cases h
  | cons c t =>
    rw [hr] at h
    simp only [List.head?] at h
    cases h
    simp [List.isPrefixOf]

theorem hash_not_from {l : Line} (h : (l.dropWhile isWS).head? = some '#') :
    __from_import_match l = none := by
  unfold __from_import_match
  cases hr : l.dropWhile isWS with
  | nil => rw [hr] at h; cases h
  | cons c t =>
    rw [hr] at h
    simp only [List.head?] at h
    cases h
    simp [List.isPrefixOf]

theorem hash_not_future {l : Line} (h : (l.dropWhile isWS).head? = some '#') :
    __future_import_match l = none := by
  unfold __future_import_match
  cases hr : l.dropWhile isWS with
  | nil => rw [hr] at h; cases h
  | cons c t =>
    rw [hr] at h
    simp only [List.head?] at h
    cases h
    simp [List.isPrefixOf]

/-- `strip` only removes characters at the two ends, so a `#` at the head of
the stripped line is also at the head of the left-stripped line. -/
theorem head_of_rstrip {x : Line} {c : Char} (h : (rstrip x).head? = some c) :
    x.head? = some c := by
  have hx : x = rstrip x ++ (x.reverse.takeWhile isWS).reverse := by
    unfold rstrip
    conv_lhs =>
      rw [← List.reverse_reverse x,
        ← List.takeWhile_append_dropWhile isWS x.reverse]
    rw [List.reverse_append]
  rw [hx, List.head?_append, h]
  rfl

theorem head_strip_hash {l : Line} (h : (strip l).head? = some '#') :
    (l.dropWhile isWS).head? = some '#' := head_of_rstrip h

/-! ## Order lemmas for the sort comparisons -/

theorem char_eq_of_toNat_eq {a b : Char} (h : a.toNat = b.toNat) : a = b :=
  Char.eq_of_val_eq (UInt32.toNat.inj h)

theorem strCmp_eq_iff : ∀ {a b : Line}, strCmp a b = Ordering.eq ↔ a = b := by
  intro a
  induction a with
  | nil => intro b; cases b <;> simp [strCmp]
  | cons c t ih =>
    intro b
    cases b with
    | nil => simp [strCmp]
    | cons d u =>
      unfold strCmp
      rcases Nat.lt_trichotomy c.toNat d.toNat with h | h | h
      · constructor
        · intro hc; rw [if_pos h] at hc; cases hc
        · intro hc
          cases hc
          exact absurd h (Nat.lt_irrefl _)
      · have hcd : c = d := char_eq_of_toNat_eq h
        subst hcd
        rw [if_neg (Nat.lt_irrefl _), if_neg (Nat.lt_irrefl _)]
        constructor
        · intro hc; rw [ih.mp hc]
        · intro hc
          cases hc
          exact ih.mpr rfl
      · constructor
        · intro hc
          rw [if_neg (Nat.lt_asymm h), if_pos h] at hc
          cases hc
        · intro hc
          cases hc
          exact absurd h (Nat.lt_irrefl _)

theorem strCmp_self (a : Line) : strCmp a a = Ordering.eq := strCmp_eq_iff.mpr rfl

theorem strCmp_swap : ∀ (a b : Line), strCmp b a = (strCmp a b).swap := by
  intro a
  induction a with
  | nil => intro b; cases b <;> simp [strCmp, Ordering.swap]
  | cons c t ih =>
    intro b
    cases b with
    | nil => simp [strCmp, Ordering.swap]
    | cons d u =>
      unfold strCmp
      rcases Nat.lt_trichotomy c.toNat d.toNat with h | h | h
      · rw [if_pos h, if_neg (Nat.lt_asymm h), if_pos h]
        rfl
      · rw [if_neg (h ▸ Nat.lt_irrefl _), if_neg (h ▸ Nat.lt_irrefl _),
          if_neg (h ▸ Nat.lt_irrefl _), if_neg (h ▸ Nat.lt_irrefl _)]
        exact ih u
      · rw [if_pos h, if_neg (Nat.lt_asymm h), if_pos h]
        rfl

theorem strCmp_gt_iff {a b : Line} : strCmp a b = Ordering.gt ↔ strCmp b a = Ordering.lt := by
  rw [strCmp_swap b a]
  cases strCmp b a <;> simp [Ordering.swap]

theorem strCmp_lt_trans :
    ∀ {a b c : Line}, strCmp a b = Ordering.lt → strCmp b c = Ordering.lt →
      strCmp a c = Ordering.lt := by
  intro a
  induction a with
  | nil =>
    intro b c hab hbc
    cases b with
    | nil => cases hab
    | cons d u =>
      cases c with
      | nil => cases hbc
      | cons e v => rfl
  | cons x t ih =>
    intro b c hab hbc
    cases b with
    | nil => cases hab
    | cons d u =>
      cases c with
      | nil => cases hbc
      | cons e v =>
        unfold strCmp at hab hbc ⊢
        rcases Nat.lt_trichotomy x.toNat d.toNat with h1 | h1 | h1
        · rcases Nat.lt_trichotomy d.toNat e.toNat with h2 | h2 | h2
          · rw [if_pos (Nat.lt_trans h1 h2)]
          · rw [← h2, if_pos h1]
          · rw [if_pos h2, if_neg (Nat.lt_asymm h2)] at hbc
            cases hbc
        · rw [← h1] at hbc
          rcases Nat.lt_trichotomy x.toNat e.toNat with h2 | h2 | h2
          · rw [if_pos h2]
          · rw [if_neg (h1 ▸ Nat.lt_irrefl _), if_neg (h1 ▸ Nat.lt_irrefl _)] at hab
            rw [if_neg (h2 ▸ Nat.lt_irrefl _), if_neg (h2 ▸ Nat.lt_irrefl _)] at hbc ⊢
            exact ih hab hbc
          · rw [if_neg (Nat.lt_asymm h2), if_pos h2] at hbc
            cases hbc
        · rw [if_neg (Nat.lt_asymm h1), if_pos h1] at hab
          cases hab

theorem strLe_trans {a b c : Line} (hab : strCmp a b ≠ Ordering.gt)
    (hbc : strCmp b c ≠ Ordering.gt) : strCmp a c ≠ Ordering.gt := by
  cases h1 : strCmp a b with
  | gt => exact absurd h1 hab
  | eq => rw [strCmp_eq_iff.mp h1]; exact hbc
  | lt =>
    cases h2 : strCmp b c with
    | gt => exact absurd h2 hbc
    | eq => rw [← strCmp_eq_iff.mp h2]; rw [h1]; simp
    | lt =>
      rw [strCmp_lt_trans h1 h2]
      simp

theorem strLe_total (a b : Line) : strCmp a b ≠ Ordering.gt ∨ strCmp b a ≠ Ordering.gt := by
  cases h : strCmp a b with
  | lt => left; simp
  | eq => left; simp
  | gt =>
    right
    rw [strCmp_gt_iff.mp h]
    simp

theorem strLe_antisymm {a b : Line} (hab : strCmp a b ≠ Ordering.gt)
    (hba : strCmp b a ≠ Ordering.gt) : a = b := by
  cases h : strCmp a b with
  | gt => exact absurd h hab
  | eq => exact strCmp_eq_iff.mp h
  | lt => exact absurd (strCmp_gt_iff.mpr h) hba

/-! The two sort relations are total preorders with antisymmetry. -/

theorem ord_ne_gt {o : Ordering} (h : (o == Ordering.gt) = false) : o ≠ Ordering.gt := by
  intro he
  rw [he] at h
  cases h

theorem ord_beq_gt_false {o : Ordering} (h : o ≠ Ordering.gt) : (o == Ordering.gt) = false := by
  cases o with
  | lt => rfl
  | eq => rfl
  | gt => exact absurd rfl h

theorem itemPairLe_iff {p q : Line × Line} :
    itemPairLe p q = true ↔
      (strCmp p.1 q.1 = Ordering.lt ∨
        (strCmp p.1 q.1 = Ordering.eq ∧ strCmp p.2 q.2 ≠ Ordering.gt)) := by
  unfold itemPairLe
  cases h : strCmp p.1 q.1 with
  | lt => simp
  | gt => simp
  | eq =>
    simp only [reduceCtorEq, false_or, eq_self_iff_true, true_and]
    constructor
    · intro hx
      cases hb : (strCmp p.2 q.2 == Ordering.gt) with
      | false => exact ord_ne_gt hb
      | true => rw [hb] at hx; cases hx
    · intro hx
      rw [ord_beq_gt_false hx]
      rfl

theorem fixPairLe_iff {p q : (Int × Line) × Line} :
    fixPairLe p q = true ↔
      (p.1.1 < q.1.1 ∨
        (p.1.1 = q.1.1 ∧
          (strCmp p.1.2 q.1.2 = Ordering.lt ∨
            (strCmp p.1.2 q.1.2 = Ordering.eq ∧ strCmp p.2 q.2 ≠ Ordering.gt)))) := by
  unfold fixPairLe
  rcases lt_trichotomy p.1.1 q.1.1 with h | h | h
  · rw [if_pos h]
    simp [h]
  · rw [if_neg (h ▸ lt_irrefl _), if_neg (h ▸ lt_irrefl _)]
    have hnl : ¬ p.1.1 < q.1.1 := h ▸ lt_irrefl _
    cases hs : strCmp p.1.2 q.1.2 with
    | lt => simp [hnl, h]
    | gt => simp [hnl, h]
    | eq =>
      simp only [h, lt_self_iff_false, false_or, eq_self_iff_true, true_and, reduceCtorEq]
      constructor
      · intro hx
        cases hb : (strCmp p.2 q.2 == Ordering.gt) with
        | false => exact ord_ne_gt hb
        | true => rw [hb] at hx; cases hx
      · intro hx
        rw [ord_beq_gt_false hx]
        rfl
  · have hnl : ¬ p.1.1 < q.1.1 := fun hc => lt_irrefl _ (lt_trans h hc)
    have hne : ¬ p.1.1 = q.1.1 := fun hc => lt_irrefl _ (hc ▸ h)
    rw [if_neg hnl, if_pos h]
    simp [hnl, hne]

instance : IsTotal (Line × Line) itemRel where
  total p q := by
    unfold itemRel
    rw [itemPairLe_iff, itemPairLe_iff]
    cases h : strCmp p.1 q.1 with
    | lt => exact Or.inl (Or.inl rfl)
    | gt => exact Or.inr (Or.inl (strCmp_gt_iff.mp h))
    | eq =>
      rcases strLe_total p.2 q.2 with h2 | h2
      · exact Or.inl (Or.inr ⟨rfl, h2⟩)
      · exact Or.inr (Or.inr ⟨strCmp_eq_iff.mpr (strCmp_eq_iff.mp h).symm, h2⟩)

instance : IsTrans (Line × Line) itemRel where
  trans p q r := by
    unfold itemRel
    rw [itemPairLe_iff, itemPairLe_iff, itemPairLe_iff]
    rintro (h1 | ⟨h1, h1b⟩) (h2 | ⟨h2, h2b⟩)
    · exact Or.inl (strCmp_lt_trans h1 h2)
    · rw [← strCmp_eq_iff.mp h2]
      exact Or.inl h1
    · rw [strCmp_eq_iff.mp h1]
      exact Or.inl h2
    · rw [strCmp_eq_iff.mp h1]
      exact Or.inr ⟨h2, strLe_trans h1b h2b⟩

instance : IsAntisymm (Line × Line) itemRel where
  antisymm p q := by
    unfold itemRel
    rw [itemPairLe_iff, itemPairLe_iff]
    rintro (h1 | ⟨h1, h1b⟩) (h2 | ⟨h2, h2b⟩)
    · exact absurd (h2.symm.trans (strCmp_gt_iff.mpr h1)) (by decide)
    · have e : q.1 = p.1 := strCmp_eq_iff.mp h2
      rw [e, strCmp_self] at h1
      cases h1
    · have e : p.1 = q.1 := strCmp_eq_iff.mp h1
      rw [← e, strCmp_self] at h2
      cases h2
    · have e1 : p.1 = q.1 := strCmp_eq_iff.mp h1
      have e2 : p.2 = q.2 := strLe_antisymm h1b h2b
      obtain ⟨pa, pb⟩ := p
      obtain ⟨qa, qb⟩ := q
      simp only at e1 e2
      rw [e1, e2]

instance : IsTotal ((Int × Line) × Line) fixRel where
  total p q := by
    unfold fixRel
    rw [fixPairLe_iff, fixPairLe_iff]
    rcases lt_trichotomy p.1.1 q.1.1 with h | h | h
    · exact Or.inl (Or.inl h)
    · cases hs : strCmp p.1.2 q.1.2 with
      | lt => exact Or.inl (Or.inr ⟨h, Or.inl rfl⟩)
      | gt => exact Or.inr (Or.inr ⟨h.symm, Or.inl (strCmp_gt_iff.mp hs)⟩)
      | eq =>
        rcases strLe_total p.2 q.2 with h2 | h2
        · exact Or.inl (Or.inr ⟨h, Or.inr ⟨rfl, h2⟩⟩)
        · exact Or.inr (Or.inr ⟨h.symm,
            Or.inr ⟨strCmp_eq_iff.mpr (strCmp_eq_iff.mp hs).symm, h2⟩⟩)
    · exact Or.inr (Or.inl h)

instance : IsTrans ((Int × Line) × Line) fixRel where
  trans p q r := by
    unfold fixRel
    rw [fixPairLe_iff, fixPairLe_iff, fixPairLe_iff]
    rintro (h1 | ⟨h1, h1b⟩) (h2 | ⟨h2, h2b⟩)
    · exact Or.inl (lt_trans h1 h2)
    · exact Or.inl (h2 ▸ h1)
    · exact Or.inl (h1 ▸ h2)
    · refine Or.inr ⟨h1.trans h2, ?_⟩
      rcases h1b with hb1 | ⟨hb1, hc1⟩
      · rcases h2b with hb2 | ⟨hb2, hc2⟩
        · exact Or.inl (strCmp_lt_trans hb1 hb2)
        · exact Or.inl ((strCmp_eq_iff.mp hb2) ▸ hb1)
      · rcases h2b with hb2 | ⟨hb2, hc2⟩
        · exact Or.inl ((strCmp_eq_iff.mp hb1) ▸ hb2)
        · exact Or.inr ⟨(strCmp_eq_iff.mp hb1) ▸ hb2, strLe_trans hc1 hc2⟩

instance : IsAntisymm ((Int × Line) × Line) fixRel where
  antisymm p q := by
    unfold fixRel
    rw [fixPairLe_iff, fixPairLe_iff]
    rintro (h1 | ⟨h1, h1b⟩) (h2 | ⟨h2, h2b⟩)
    · exact absurd h2 (not_lt_of_gt h1)
    · exact absurd h1 (h2 ▸ lt_irrefl _)
    · exact absurd h2 (h1 ▸ lt_irrefl _)
    · have e1 : p.1.1 = q.1.1 := h1
      rcases h1b with hb1 | ⟨hb1, hc1⟩
      · rcases h2b with hb2 | ⟨hb2, hc2⟩
        · exact absurd (strCmp_gt_iff.mpr hb1) (by rw [hb2]; simp)
        · exact absurd hb1 (by rw [strCmp_swap, hb2]; simp [Ordering.swap])
      · rcases h2b with hb2 | ⟨hb2, hc2⟩
        · exact absurd hb2 (by rw [strCmp_swap, hb1]; simp [Ordering.swap])
        · have e2 : p.1.2 = q.1.2 := strCmp_eq_iff.mp hb1
          have e3 : p.2 = q.2 := strLe_antisymm hc1 hc2
          obtain ⟨⟨pa, pb⟩, pc⟩ := p
          obtain ⟨⟨qa, qb⟩, qc⟩ := q
          simp only at e1 e2 e3
          rw [e1, e2, e3]

/-- Convenience forms of `fixRel`. -/
theorem fixRel_int_le {p q : (Int × Line) × Line} (h : fixRel p q) : p.1.1 ≤ q.1.1 := by
  rw [fixRel, fixPairLe_iff] at h
  rcases h with h | ⟨h, _⟩
  · exact le_of_lt h
  · exact le_of_eq h

theorem fixRel_upper_le {p q : (Int × Line) × Line} (h : fixRel p q)
    (he : p.1.1 = q.1.1) : strCmp p.1.2 q.1.2 ≠ Ordering.gt := by
  rw [fixRel, fixPairLe_iff] at h
  rcases h with h | ⟨_, hb | ⟨hb, _⟩⟩
  · exact absurd h (he ▸ lt_irrefl _)
  · rw [hb]
    simp
  · rw [hb]
    simp

/-! ## Classification taxonomy -/

theorem global_head {l : Line} (h : _is_global_import l = true) :
    (("import").data).isPrefixOf (l.dropWhile isWS) = true := by
  unfold _is_global_import __global_import_match at h
  cases hc : (("import").data).isPrefixOf (l.dropWhile isWS) with
  | true => rfl
  | false => simp only [hc] at h; simp at h

theorem from_head {l : Line} (h : _is_from_import l = true) :
    (("from").data).isPrefixOf (l.dropWhile isWS) = true := by
  unfold _is_from_import __from_import_match at h
  cases hc : (("from").data).isPrefixOf (l.dropWhile isWS) with
  | true => rfl
  | false => simp only [hc] at h; simp at h

theorem future_head {l : Line} (h : _is_future_import l = true) :
    (("from").data).isPrefixOf (l.dropWhile isWS) = true := by
  unfold _is_future_import __future_import_match at h
  cases hc : (("from").data).isPrefixOf (l.dropWhile isWS) with
  | true => rfl
  | false => simp only [hc] at h; simp at h

theorem heads_clash {r : Line} (h1 : (("import").data).isPrefixOf r = true)
    (h2 : (("from").data).isPrefixOf r = true) : False := by
  cases r with
  | nil => simp [List.isPrefixOf] at h1
  | cons c t =>
    simp only [List.isPrefixOf, Bool.and_eq_true, beq_iff_eq] at h1 h2
    exact absurd (h2.1.trans h1.1.symm) (by decide)

theorem global_not_from {l : Line} (h : _is_global_import l = true) :
    _is_from_import l = false := by
  cases h2 : _is_from_import l with
  | false => rfl
  | true => exact (heads_clash (global_head h) (from_head h2)).elim

theorem global_not_future {l : Line} (h : _is_global_import l = true) :
    _is_future_import l = false := by
  cases h2 : _is_future_import l with
  | false => rfl
  | true => exact (heads_clash (global_head h) (future_head h2)).elim

theorem future_not_global {l : Line} (h : _is_future_import l = true) :
    _is_global_import l = false := by
  cases h2 : _is_global_import l with
  | false => rfl
  | true => exact (heads_clash (global_head h2) (future_head h)).elim

theorem rank_of_future {l : Line} (h : _is_future_import l = true) : rank l = some 3 := by
  unfold rank
  rw [h]
  rfl

theorem rank_of_global {l : Line} (h : _is_global_import l = true) : rank l = some 2 := by
  unfold rank
  rw [global_not_future h, h]
  rfl

theorem rank_of_from_only {l : Line} (h1 : _is_from_import l = true)
    (h2 : _is_future_import l = false) : rank l = some 1 := by
  unfold rank
  have hg : _is_global_import l = false := by
    cases hx : _is_global_import l with
    | false => rfl
    | true => exact (heads_clash (global_head hx) (from_head h1)).elim
  rw [h2, hg, h1]
  rfl

/-! ## Specification of the block locator `_get_lines` -/

theorem unind_nil : _is_unindented_import ([] : Line) = false := by decide

theorem boring_nil : _is_boring ([] : Line) = true := by decide

theorem boring_not_unind {l : Line} (h : _is_boring l = true) :
    _is_unindented_import l = false := by
  have hg : _is_global_import l = false := by
    cases hx : _is_global_import l with
    | false => rfl
    | true =>
      have hp := global_head hx
      unfold _is_boring at h
      split at h
      · next heq => rw [heq] at hp; simp [List.isPrefixOf] at hp
      · next t heq =>
        rw [heq] at hp
        simp [List.isPrefixOf] at hp
        rw [← hp.1] at h
        simp at h
  have hf : _is_from_import l = false := by
    cases hx : _is_from_import l with
    | false => rfl
    | true =>
      have hp := from_head hx
      unfold _is_boring at h
      split at h
      · next heq => rw [heq] at hp; simp [List.isPrefixOf] at hp
      · next t heq =>
        rw [heq] at hp
        simp [List.isPrefixOf] at hp
        rw [← hp.1] at h
        simp at h
  unfold _is_unindented_import
  rw [hg, hf]
  simp

theorem drop_cons_facts {α : Type} (d : α) :
    ∀ (lines : List α) (num : Nat) (l : α) (rest : List α),
      lines.drop num = l :: rest →
      lines.getD num d = l ∧ lines.drop (num + 1) = rest ∧ num < lines.length := by
  intro lines
  induction lines with
  | nil =>
    intro num l rest h
    rw [List.drop_nil] at h
    cases h
  | cons a ls ih =>
    intro num l rest h
    cases num with
    | zero =>
      simp only [List.drop_zero] at h
      cases h
      exact ⟨rfl, by simp, Nat.succ_pos _⟩
    | succ n =>
      simp only [List.drop_succ_cons] at h
      obtain ⟨h1, h2, h3⟩ := ih n l rest h
      exact ⟨by simpa using h1, by simpa using h2, Nat.succ_lt_succ h3⟩

theorem get_lines_go_spec (lines : List Line) :
    ∀ (ys : List Line) (num s e : Nat) (sf : Bool),
      ys = lines.drop num → num ≤ lines.length →
      (sf = false → s = 0 ∧ e = 0 ∧
        ∀ k, k < num → _is_unindented_import (lines.getD k []) = false) →
      (sf = true → s < e ∧ e ≤ num ∧ e ≤ lines.length ∧
        _is_unindented_import (lines.getD s []) = true ∧
        (∀ k, k < s → _is_unindented_import (lines.getD k []) = false) ∧
        (∀ k, s ≤ k → k < num →
          _is_unindented_import (lines.getD k []) = true ∨
            _is_boring (lines.getD k []) = true) ∧
        (∀ k, e ≤ k → k < num → _is_boring (lines.getD k []) = true)) →
      GetLinesSpec lines (_get_lines_go ys num s e sf) := by
  intro ys
  induction ys with
  | nil =>
    intro num s e sf hys hnum hf ht
    have hlen : lines.length ≤ num := List.drop_eq_nil_iff.mp hys.symm
    show GetLinesSpec lines (s, e)
    cases sf with
    | false =>
      obtain ⟨hs0, he0, hpre⟩ := hf rfl
      subst hs0
      subst he0
      refine ⟨le_refl _, Nat.zero_le _, fun _ => ⟨rfl, ?_⟩, fun h0 => absurd rfl h0⟩
      intro k
      by_cases hk : k < num
      · exact hpre k hk
      · rw [List.getD_eq_default _ _ (by omega)]
        exact unind_nil
    | true =>
      obtain ⟨hse, hen, hel, hus, hpre, hblock, hgap⟩ := ht rfl
      refine ⟨le_of_lt hse, hel, fun h0 => absurd h0 (by omega), fun _ => ?_⟩
      refine ⟨hse, hus, hpre, fun k hk1 hk2 => hblock k hk1 (by omega), ?_⟩
      intro k hk hball
      by_cases hkn : k < num
      · exact boring_not_unind (hgap k hk hkn)
      · rw [List.getD_eq_default _ _ (by omega)]
        exact unind_nil
  | cons l rest ih =>
    intro num s e sf hys hnum hf ht
    obtain ⟨hl, hrest, hnumlt⟩ := drop_cons_facts ([] : Line) lines num l rest hys.symm
    rw [show _get_lines_go (l :: rest) num s e sf =
        (if _is_unindented_import l = true then
          _get_lines_go rest (num + 1) (if sf then s else num) (num + 1) true
        else if e != 0 && !(_is_boring l) then (s, e)
        else _get_lines_go rest (num + 1) s e sf) from rfl]
    by_cases hu : _is_unindented_import l = true
    · rw [if_pos hu]
      cases sf with
      | false =>
        obtain ⟨hs0, he0, hpre⟩ := hf rfl
        apply ih (num + 1) num (num + 1) true hrest.symm (by omega)
        · intro hcon; cases hcon
        · intro _
          refine ⟨by omega, le_refl _, by omega, by rw [hl]; exact hu, hpre, ?_, ?_⟩
          · intro k hk1 hk2
            have hkn : k = num := by omega
            subst hkn
            rw [hl]
            exact Or.inl hu
          · intro k hk1 hk2
            omega
      | true =>
        obtain ⟨hse, hen, hel, hus, hpre, hblock, hgap⟩ := ht rfl
        apply ih (num + 1) s (num + 1) true hrest.symm (by omega)
        · intro hcon; cases hcon
        · intro _
          refine ⟨by omega, le_refl _, by omega, hus, hpre, ?_, ?_⟩
          · intro k hk1 hk2
            by_cases hkn : k < num
            · exact hblock k hk1 hkn
            · have hkn2 : k = num := by omega
              subst hkn2
              rw [hl]
              exact Or.inl hu
          · intro k hk1 hk2
            omega
    · rw [if_neg hu]
      have hu2 : _is_unindented_import l = false := by
        cases hx : _is_unindented_import l with
        | false => rfl
        | true => exact absurd hx hu
      by_cases hbr : (e != 0 && !(_is_boring l)) = true
      · rw [if_pos hbr]
        simp only [Bool.and_eq_true, bne_iff_ne, ne_eq, Bool.not_eq_true'] at hbr
        obtain ⟨hene, hnb⟩ := hbr
        have hsf : sf = true := by
          by_contra hc
          have hx : sf = false := by
            cases sf
            · rfl
            · exact absurd rfl hc
          exact hene (hf hx).2.1
        obtain ⟨hse, hen, hel, hus, hpre, hblock, hgap⟩ := ht hsf
        show GetLinesSpec lines (s, e)
        refine ⟨le_of_lt hse, hel, fun h0 => absurd h0 (by omega), fun _ => ?_⟩
        refine ⟨hse, hus, hpre, fun k hk1 hk2 => hblock k hk1 (by omega), ?_⟩
        intro k hk hball
        rcases Nat.lt_trichotomy k num with hkn | hkn | hkn
        · exact boring_not_unind (hgap k hk hkn)
        · subst hkn
          rw [hl]
          exact hu2
        · exfalso
          have hb := hball num (by omega) hkn
          rw [hl] at hb
          rw [hb] at hnb
          cases hnb
      · rw [if_neg hbr]
        simp only [Bool.and_eq_true, bne_iff_ne, ne_eq, Bool.not_eq_true',
          not_and_or, not_not] at hbr
        apply ih (num + 1) s e sf hrest.symm (by omega)
        · intro hsf
          obtain ⟨hs0, he0, hpre⟩ := hf hsf
          refine ⟨hs0, he0, ?_⟩
          intro k hk
          by_cases hkn : k < num
          · exact hpre k hkn
          · have : k = num := by omega
            subst this
            rw [hl]
            exact hu2
        · intro hsf
          obtain ⟨hse, hen, hel, hus, hpre, hblock, hgap⟩ := ht hsf
          have hbor : _is_boring l = true := by
            rcases hbr with hbr | hbr
            · exact absurd hbr (by omega)
            · cases hx : _is_boring l with
              | true => rfl
              | false => exact absurd hx hbr
          refine ⟨hse, by omega, hel, hus, hpre, ?_, ?_⟩
          · intro k hk1 hk2
            by_cases hkn : k < num
            · exact hblock k hk1 hkn
            · have : k = num := by omega
              subst this
              rw [hl]
              exact Or.inr hbor
          · intro k hk1 hk2
            by_cases hkn : k < num
            · exact hgap k hk1 hkn
            · have : k = num := by omega
              subst this
              rw [hl]
              exact hbor

/-- `_get_lines` meets its specification. -/
theorem get_lines_spec (lines : List Line) : GetLinesSpec lines (_get_lines lines) := by
  apply get_lines_go_spec lines lines 0 0 0 false (by simp) (Nat.zero_le _)
  · intro _
    exact ⟨rfl, rfl, fun k hk => absurd hk (Nat.not_lt_zero k)⟩
  · intro hcon
    cases hcon

/-! ## Span helpers -/

theorem takeWhile_append_all {p : Char → Bool} :
    ∀ {A B : Line}, (∀ a ∈ A, p a = true) →
      (A ++ B).takeWhile p = A ++ B.takeWhile p := by
  intro A
  induction A with
  | nil => intro B _; rfl
  | cons a A2 ih =>
    intro B hA
    rw [List.cons_append, List.takeWhile_cons, if_pos (hA a (List.mem_cons_self _ _)),
      ih (fun x hx => hA x (List.mem_cons_of_mem _ hx)), List.cons_append]

theorem dropWhile_append_all {p : Char → Bool} :
    ∀ {A B : Line}, (∀ a ∈ A, p a = true) →
      (A ++ B).dropWhile p = B.dropWhile p := by
  intro A
  induction A with
  | nil => intro B _; rfl
  | cons a A2 ih =>
    intro B hA
    rw [List.cons_append, List.dropWhile_cons, if_pos (hA a (List.mem_cons_self _ _)),
      ih (fun x hx => hA x (List.mem_cons_of_mem _ hx))]

theorem takeWhile_cons_false {p : Char → Bool} {b : Char} {B : Line}
    (hb : p b = false) : (b :: B).takeWhile p = [] := by
  rw [List.takeWhile_cons, hb]
  rfl

theorem dropWhile_cons_false {p : Char → Bool} {b : Char} {B : Line}
    (hb : p b = false) : (b :: B).dropWhile p = b :: B := by
  rw [List.dropWhile_cons, hb]
  rfl

/-! ## The `%`-formatting model: splice lemmas -/

theorem pyFormat_cons_ne {c : Char} {t : Line} {args : List Line}
    (h : (c == '%') = false) :
    pyFormat (c :: t) args = (pyFormat t args).map (fun r => c :: r) := by
  conv_lhs => unfold pyFormat
  rw [h]
  rfl

theorem ne_percent_of_not_mem {c : Char} {l : Line} (h : ('%' : Char) ∉ l)
    (hc : c ∈ l) : (c == '%') = false := by
  cases hx : (c == '%') with
  | false => rfl
  | true =>
    rw [beq_iff_eq] at hx
    exact absurd (hx ▸ hc) h

theorem pyFormat_no_directive {t : Line} (h : ('%' : Char) ∉ t) :
    pyFormat t [] = some t := by
  induction t with
  | nil => rfl
  | cons c t2 ih =>
    rw [pyFormat_cons_ne (ne_percent_of_not_mem h (List.mem_cons_self _ _)),
      ih (fun hm => h (List.mem_cons_of_mem _ hm))]
    rfl

theorem pyFormat_splice :
    ∀ (a : Line) {b x : Line} {args : List Line}, ('%' : Char) ∉ a →
      pyFormat (a ++ '%' :: 's' :: b) (x :: args) =
        (pyFormat b args).map (fun r => a ++ (x ++ r)) := by
  intro a
  induction a with
  | nil =>
    intro b x args _
    show pyFormat ('%' :: 's' :: b) (x :: args) = _
    rw [show pyFormat ('%' :: 's' :: b) (x :: args) =
        (pyFormat b args).map (fun r => x ++ r) from rfl]
    cases pyFormat b args with
    | none => rfl
    | some r => rfl
  | cons c a2 ih =>
    intro b x args hpc
    have hc : (c == '%') = false :=
      ne_percent_of_not_mem hpc (List.mem_cons_self _ _)
    rw [List.cons_append, pyFormat_cons_ne hc,
      ih (fun hm => hpc (List.mem_cons_of_mem _ hm))]
    cases pyFormat b args with
    | none => rfl
    | some r => rfl

theorem percent_not_in_ws_run {l : Line} : ('%' : Char) ∉ l.takeWhile isWS := by
  intro hm
  exact absurd (List.mem_takeWhile_imp hm) (by decide)

theorem commentGroup_subset {r : Line} {c : Char} (hc : c ∈ commentGroup r) :
    c = '#' ∨ c ∈ r := by
  cases r with
  | nil =>
    rw [show commentGroup ([] : Line) = [] from rfl] at hc
    cases hc
  | cons d t =>
    rw [show commentGroup (d :: t) =
        (if (d == '#') = true then '#' :: t.takeWhile (fun x => !(x == '\n'))
          else []) from rfl] at hc
    by_cases hd : (d == '#') = true
    · rw [if_pos hd] at hc
      cases hc with
      | head => exact Or.inl rfl
      | tail _ hm =>
        exact Or.inr (List.mem_cons_of_mem _ ((List.takeWhile_sublist _).subset hm))
    · rw [if_neg hd] at hc
      cases hc

/-! ## Matcher elimination and introduction -/

theorem global_match_elim {l : Line} {g : GlobalGroups}
    (h : __global_import_match l = some g) :
    ("import".data).isPrefixOf (l.dropWhile isWS) = true ∧
    ∃ c rest, (l.dropWhile isWS).drop 6 = c :: rest ∧ isWS c = true ∧
      List.Sublist rest l ∧
      g = ⟨l.takeWhile isWS, itemsGroup rest,
        commentGroup (rest.dropWhile (fun x => !(x == '#')))⟩ := by
  simp only [__global_import_match] at h
  split at h
  · next hpre =>
    split at h
    · next c rest hdrop =>
      split at h
      · next hws =>
        simp only [Option.some.injEq] at h
        refine ⟨hpre, c, rest, hdrop, hws, ?_, h.symm⟩
        have h1 : List.Sublist (c :: rest) (l.dropWhile isWS) :=
          hdrop ▸ List.drop_sublist 6 (l.dropWhile isWS)
        exact ((List.tail_sublist (c :: rest)).trans h1).trans
          (List.dropWhile_sublist _)
      · simp at h
    · simp at h
  · simp at h

theorem isPrefixOf_append_drop :
    ∀ {A B : Line}, A.isPrefixOf B = true → B = A ++ B.drop A.length := by
  intro A
  induction A with
  | nil => intro B _; simp
  | cons a A2 ih =>
    intro B h
    cases B with
    | nil => exact absurd h (by simp [List.isPrefixOf])
    | cons b B2 =>
      have h2 : ((a == b) && A2.isPrefixOf B2) = true := h
      rw [Bool.and_eq_true] at h2
      have hab : a = b := eq_of_beq h2.1
      subst hab
      rw [List.cons_append, List.length_cons, List.drop_succ_cons]
      exact congrArg (List.cons a) (ih h2.2)

theorem isPrefixOf_of_append : ∀ {A t : Line}, A.isPrefixOf (A ++ t) = true := by
  intro A
  induction A with
  | nil => intro t; cases t <;> rfl
  | cons a A2 ih =>
    intro t
    have h2 : ((a == a) && A2.isPrefixOf (A2 ++ t)) = true := by
      rw [Bool.and_eq_true]
      exact ⟨beq_self_eq_true a, ih⟩
    exact h2

theorem from_match_elim {l : Line} {g : FromGroups}
    (h : __from_import_match l = some g) :
    ("from".data).isPrefixOf (l.dropWhile isWS) = true ∧
    g.indent = l.takeWhile isWS ∧
    ((∃ c rest,
        ((l.dropWhile isWS).drop 4).takeWhile isWS ≠ [] ∧
        g.module =
          (((l.dropWhile isWS).drop 4).dropWhile isWS).takeWhile (fun x => !(isWS x)) ∧
        ((((l.dropWhile isWS).drop 4).dropWhile isWS).drop g.module.length).takeWhile
          isWS ≠ [] ∧
        ("import".data).isPrefixOf
          (((((l.dropWhile isWS).drop 4).dropWhile isWS).drop g.module.length).drop
            ((((((l.dropWhile isWS).drop 4).dropWhile isWS).drop
              g.module.length)).takeWhile isWS).length) = true ∧
        (((((l.dropWhile isWS).drop 4).dropWhile isWS).drop g.module.length).drop
          ((((((l.dropWhile isWS).drop 4).dropWhile isWS).drop
            g.module.length)).takeWhile isWS).length).drop 6 = c :: rest ∧
        isWS c = true ∧
        g.items = itemsGroup rest ∧
        g.comment = commentGroup (rest.dropWhile (fun x => !(x == '#'))) ∧
        List.Sublist rest l) ∨
      (g.module = [] ∧
        2 ≤ (((l.dropWhile isWS).drop 4).takeWhile isWS).length ∧
        (((l.dropWhile isWS).drop 4).dropWhile isWS).takeWhile (fun x => !(isWS x)) =
          ("import").data ∧
        ∃ c rest,
          (((l.dropWhile isWS).drop 4).dropWhile isWS).drop 6 = c :: rest ∧
          isWS c = true ∧
          g.items = itemsGroup rest ∧
          g.comment = commentGroup (rest.dropWhile (fun x => !(x == '#'))) ∧
          List.Sublist rest l)) := by
  have hsub3 : List.Sublist (((l.dropWhile isWS).drop 4).dropWhile isWS) l :=
    ((List.dropWhile_sublist _).trans (List.drop_sublist _ _)).trans
      (List.dropWhile_sublist _)
  simp only [__from_import_match] at h
  split at h
  · next hpre =>
    split at h
    · simp at h
    · next hw1 =>
      split at h
      · next g0 heqp =>
        simp only [Option.some.injEq] at h
        subst h
        split at heqp
        · next hcond =>
          simp only [Bool.and_eq_true, Bool.not_eq_true'] at hcond
          split at heqp
          · next c rest hdrop =>
            split at heqp
            · next hws =>
              simp only [Option.some.injEq] at heqp
              subst heqp
              have hw1ne : ((l.dropWhile isWS).drop 4).takeWhile isWS ≠ [] := by
                intro hx
                rw [hx] at hw1
                exact hw1 (by simp)
              have hw2ne : ((((l.dropWhile isWS).drop 4).dropWhile isWS).drop
                  ((((l.dropWhile isWS).drop 4).dropWhile isWS).takeWhile
                    (fun x => !(isWS x))).length).takeWhile isWS ≠ [] := by
                intro hx
                rw [hx] at hcond
                simp at hcond
              have hsub : List.Sublist rest l := by
                have h1 : List.Sublist (c :: rest) _ := hdrop ▸ List.drop_sublist 6 _
                exact (List.tail_sublist (c :: rest)).trans (h1.trans
                  ((List.drop_sublist _ _).trans ((List.drop_sublist _ _).trans
                    hsub3)))
              exact ⟨hpre, rfl, Or.inl ⟨c, rest, hw1ne, rfl, hw2ne, hcond.2, hdrop,
                hws, rfl, rfl, hsub⟩⟩
            · simp at heqp
          · simp at heqp
        · simp at heqp
      · next heqp =>
        split at h
        · next hcond2 =>
          simp only [Bool.and_eq_true, beq_iff_eq] at hcond2
          split at h
          · next c rest hdropr4 =>
            split at h
            · next hws =>
              simp only [Option.some.injEq] at h
              subst h
              have hlen2 : 2 ≤ (((l.dropWhile isWS).drop 4).takeWhile isWS).length :=
                of_decide_eq_true hcond2.1
              have hd6 : (((l.dropWhile isWS).drop 4).dropWhile isWS).drop 6 =
                  c :: rest := by
                rw [hcond2.2] at hdropr4
                simpa using hdropr4
              have hsub : List.Sublist rest l := by
                have h1 : List.Sublist (c :: rest) _ :=
                  hdropr4 ▸ List.drop_sublist _ _
                exact (List.tail_sublist (c :: rest)).trans (h1.trans hsub3)
              exact ⟨hpre, rfl, Or.inr ⟨rfl, hlen2, hcond2.2, c, rest, hd6, hws,
                rfl, rfl, hsub⟩⟩
            · simp at h
          · simp at h
        · simp at h
  · simp at h

theorem global_match_intro {l : Line} {c : Char} {rest : Line}
    (hpre : ("import".data).isPrefixOf (l.dropWhile isWS) = true)
    (hdrop : (l.dropWhile isWS).drop 6 = c :: rest) (hws : isWS c = true) :
    __global_import_match l = some ⟨l.takeWhile isWS, itemsGroup rest,
      commentGroup (rest.dropWhile (fun x => !(x == '#')))⟩ := by
  simp [__global_import_match, hpre, hdrop, hws]

theorem bool_eq_false_of_ne {b : Bool} (h : ¬(b = true)) : b = false := by
  cases b with
  | false => rfl
  | true => exact absurd rfl h

theorem isEmpty_false_of_ne_nil {x : Line} (h : x ≠ []) : x.isEmpty = false := by
  cases x with
  | nil => exact absurd rfl h
  | cons a b => rfl

theorem ne_nil_of_isEmpty_false {x : Line} (h : x.isEmpty = false) : x ≠ [] := by
  cases x with
  | nil => simp at h
  | cons a b => simp

theorem global_match_of_shape {ind z : Line} (hind : ∀ c ∈ ind, isWS c = true) :
    __global_import_match (ind ++ ("import ").data ++ z) =
      some ⟨ind, itemsGroup z, commentGroup (z.dropWhile (fun x => !(x == '#')))⟩ := by
  have hL : ind ++ ("import ").data ++ z =
      ind ++ ('i' :: 'm' :: 'p' :: 'o' :: 'r' :: 't' :: ' ' :: z) := by
    simp
  rw [hL]
  have hdw : (ind ++ ('i' :: 'm' :: 'p' :: 'o' :: 'r' :: 't' :: ' ' :: z)).dropWhile
      isWS = 'i' :: 'm' :: 'p' :: 'o' :: 'r' :: 't' :: ' ' :: z := by
    rw [dropWhile_append_all hind, dropWhile_cons_false (by decide)]
  have htw : (ind ++ ('i' :: 'm' :: 'p' :: 'o' :: 'r' :: 't' :: ' ' :: z)).takeWhile
      isWS = ind := by
    rw [takeWhile_append_all hind, takeWhile_cons_false (by decide), List.append_nil]
  have hpre : ("import".data).isPrefixOf
      ((ind ++ ('i' :: 'm' :: 'p' :: 'o' :: 'r' :: 't' :: ' ' :: z)).dropWhile isWS) =
        true := by
    rw [hdw]
    exact @isPrefixOf_of_append (("import").data) (' ' :: z)
  have hdrop : ((ind ++ ('i' :: 'm' :: 'p' :: 'o' :: 'r' :: 't' :: ' ' :: z)).dropWhile
      isWS).drop 6 = ' ' :: z := by
    rw [hdw]
    rfl
  rw [global_match_intro hpre hdrop (by decide), htw]

theorem from_match_intro_primary {l m : Line} {c : Char} {rest : Line}
    (hpre : ("from".data).isPrefixOf (l.dropWhile isWS) = true)
    (hw1 : (((l.dropWhile isWS).drop 4).takeWhile isWS).isEmpty = false)
    (hm : (((l.dropWhile isWS).drop 4).dropWhile isWS).takeWhile
      (fun x => !(isWS x)) = m)
    (hw2 : (((((l.dropWhile isWS).drop 4).dropWhile isWS).drop m.length).takeWhile
      isWS).isEmpty = false)
    (hpre2 : ("import".data).isPrefixOf
      (((((l.dropWhile isWS).drop 4).dropWhile isWS).drop m.length).drop
        ((((((l.dropWhile isWS).drop 4).dropWhile isWS).drop
          m.length)).takeWhile isWS).length) = true)
    (hdrop : (((((((l.dropWhile isWS).drop 4).dropWhile isWS).drop m.length)).drop
        ((((((l.dropWhile isWS).drop 4).dropWhile isWS).drop
          m.length)).takeWhile isWS).length)).drop 6 = c :: rest)
    (hws : isWS c = true) :
    __from_import_match l = some ⟨l.takeWhile isWS, m, itemsGroup rest,
      commentGroup (rest.dropWhile (fun x => !(x == '#')))⟩ := by
  have hpre2x := hpre2
  rw [List.drop_drop] at hpre2x
  have hpre2y : ("import".data) <+:
      (((l.dropWhile isWS).drop 4).dropWhile isWS).drop
        (m.length +
          ((((((l.dropWhile isWS).drop 4).dropWhile isWS).drop
            m.length)).takeWhile isWS).length) :=
    ⟨_, (isPrefixOf_append_drop hpre2x).symm⟩
  have hpre3 : ("from".data) <+: l.dropWhile isWS :=
    ⟨_, (isPrefixOf_append_drop hpre).symm⟩
  simp only [__from_import_match]
  rw [hm, hdrop]
  simp [hpre, hpre3, hw1, hw2, hpre2x, hpre2y, hws]

theorem from_match_of_shape {ind M z : Line}
    (hind : ∀ c ∈ ind, isWS c = true)
    (hM : ∀ c ∈ M, isWS c = false) (hM0 : M ≠ []) :
    __from_import_match (ind ++ ("from ").data ++ M ++ (" import ").data ++ z) =
      some ⟨ind, M, itemsGroup z,
        commentGroup (z.dropWhile (fun x => !(x == '#')))⟩ := by
  obtain ⟨m0, M2, rfl⟩ : ∃ m0 M2, M = m0 :: M2 := by
    cases M with
    | nil => exact absurd rfl hM0
    | cons a b => exact ⟨a, b, rfl⟩
  have hm0 : isWS m0 = false := hM m0 (List.mem_cons_self _ _)
  have hMall : ∀ c ∈ m0 :: M2, (!(isWS c)) = true := by
    intro c hc
    rw [hM c hc]
    rfl
  have hL : ind ++ ("from ").data ++ (m0 :: M2) ++ (" import ").data ++ z =
      ind ++ ('f' :: 'r' :: 'o' :: 'm' :: ' ' :: m0 ::
        (M2 ++ (' ' :: 'i' :: 'm' :: 'p' :: 'o' :: 'r' :: 't' :: ' ' :: z))) := by
    simp
  rw [hL]
  set T := (' ' :: 'i' :: 'm' :: 'p' :: 'o' :: 'r' :: 't' :: ' ' :: z : Line) with hT
  set L := ind ++ ('f' :: 'r' :: 'o' :: 'm' :: ' ' :: m0 :: (M2 ++ T)) with hLdef
  have hdw : L.dropWhile isWS =
      'f' :: 'r' :: 'o' :: 'm' :: ' ' :: m0 :: (M2 ++ T) := by
    rw [hLdef, dropWhile_append_all hind, dropWhile_cons_false (by decide)]
  have htw : L.takeWhile isWS = ind := by
    rw [hLdef, takeWhile_append_all hind, takeWhile_cons_false (by decide),
      List.append_nil]
  have hpre : ("from".data).isPrefixOf (L.dropWhile isWS) = true := by
    rw [hdw]
    exact @isPrefixOf_of_append (("from").data) (' ' :: m0 :: (M2 ++ T))
  have hd4 : (L.dropWhile isWS).drop 4 = ' ' :: m0 :: (M2 ++ T) := by
    rw [hdw]
    rfl
  have hw1 : (((L.dropWhile isWS).drop 4).takeWhile isWS).isEmpty = false := by
    rw [hd4, List.takeWhile_cons_of_pos (by decide), takeWhile_cons_false hm0]
    rfl
  have hr3 : ((L.dropWhile isWS).drop 4).dropWhile isWS = (m0 :: M2) ++ T := by
    rw [hd4, List.dropWhile_cons_of_pos (by decide), dropWhile_cons_false hm0]
    rfl
  have hmEq : (((L.dropWhile isWS).drop 4).dropWhile isWS).takeWhile
      (fun x => !(isWS x)) = m0 :: M2 := by
    rw [hr3, takeWhile_append_all hMall, hT, takeWhile_cons_false (by decide),
      List.append_nil]
  have hr4 : (((L.dropWhile isWS).drop 4).dropWhile isWS).drop
      ((m0 :: M2 : Line)).length = T := by
    rw [hr3]
    exact List.drop_left _ _
  have hw2 : (((((L.dropWhile isWS).drop 4).dropWhile isWS).drop
      ((m0 :: M2 : Line)).length).takeWhile isWS).isEmpty = false := by
    rw [hr4, hT]
    rfl
  have hr5 : ((((L.dropWhile isWS).drop 4).dropWhile isWS).drop
      ((m0 :: M2 : Line)).length).drop
      (((((L.dropWhile isWS).drop 4).dropWhile isWS).drop
        ((m0 :: M2 : Line)).length).takeWhile isWS).length =
      'i' :: 'm' :: 'p' :: 'o' :: 'r' :: 't' :: ' ' :: z := by
    rw [hr4, hT]
    rfl
  have hpre2 : ("import".data).isPrefixOf
      (((((L.dropWhile isWS).drop 4).dropWhile isWS).drop
        ((m0 :: M2 : Line)).length).drop
        ((((((L.dropWhile isWS).drop 4).dropWhile isWS).drop
          ((m0 :: M2 : Line)).length)).takeWhile isWS).length) = true := by
    rw [hr5]
    exact @isPrefixOf_of_append (("import").data) (' ' :: z)
  have hdropf : (((((((L.dropWhile isWS).drop 4).dropWhile isWS).drop
      ((m0 :: M2 : Line)).length)).drop
      ((((((L.dropWhile isWS).drop 4).dropWhile isWS).drop
        ((m0 :: M2 : Line)).length)).takeWhile isWS).length)).drop 6 = ' ' :: z := by
    rw [hr5]
    rfl
  rw [from_match_intro_primary hpre hw1 hmEq hw2 hpre2 hdropf (by decide), htw]

theorem from_match_isSome_of_shape_empty {ind z : Line}
    (hind : ∀ c ∈ ind, isWS c = true) :
    (__from_import_match (ind ++ ("from ").data ++ (" import ").data ++ z)).isSome =
      true := by
  have hL : ind ++ ("from ").data ++ (" import ").data ++ z =
      ind ++ ('f' :: 'r' :: 'o' :: 'm' :: ' ' :: ' ' ::
        'i' :: 'm' :: 'p' :: 'o' :: 'r' :: 't' :: ' ' :: z) := by
    simp
  rw [hL]
  simp only [__from_import_match]
  rw [dropWhile_append_all hind, dropWhile_cons_false (by decide)]
  rw [show (('f' :: 'r' :: 'o' :: 'm' :: ' ' :: ' ' ::
      'i' :: 'm' :: 'p' :: 'o' :: 'r' :: 't' :: ' ' :: z : Line)).drop 4 =
      ' ' :: ' ' :: 'i' :: 'm' :: 'p' :: 'o' :: 'r' :: 't' :: ' ' :: z from rfl]
  rw [show ((' ' :: ' ' :: 'i' :: 'm' :: 'p' :: 'o' :: 'r' :: 't' :: ' ' :: z :
      Line)).takeWhile isWS = [' ', ' '] from rfl]
  rw [show ((' ' :: ' ' :: 'i' :: 'm' :: 'p' :: 'o' :: 'r' :: 't' :: ' ' :: z :
      Line)).dropWhile isWS = 'i' :: 'm' :: 'p' :: 'o' :: 'r' :: 't' :: ' ' :: z
      from rfl]
  rw [show (('i' :: 'm' :: 'p' :: 'o' :: 'r' :: 't' :: ' ' :: z :
      Line)).takeWhile (fun c => !(isWS c)) = ['i', 'm', 'p', 'o', 'r', 't']
      from rfl]
  rw [show (('i' :: 'm' :: 'p' :: 'o' :: 'r' :: 't' :: ' ' :: z : Line)).drop
      ((['i', 'm', 'p', 'o', 'r', 't'] : Line)).length = ' ' :: z from rfl]
  rw [if_pos (show (("from".data).isPrefixOf
      ('f' :: 'r' :: 'o' :: 'm' :: ' ' :: ' ' ::
        'i' :: 'm' :: 'p' :: 'o' :: 'r' :: 't' :: ' ' :: z)) = true from
      @isPrefixOf_of_append (("from").data)
        (' ' :: ' ' :: 'i' :: 'm' :: 'p' :: 'o' :: 'r' :: 't' :: ' ' :: z))]
  rw [if_neg (show ¬((([' ', ' '] : Line)).isEmpty = true) from by decide)]
  repeat' split
  all_goals try simp_all +decide
  all_goals
    rename_i heq h
    rw [← heq.1] at h
    exact absurd h (by decide)

theorem future_match_intro {l : Line} {c : Char} {rest : Line}
    (hpre : ("from".data).isPrefixOf (l.dropWhile isWS) = true)
    (hw1 : (((l.dropWhile isWS).drop 4).takeWhile isWS).isEmpty = false)
    (hpreF : ("__future__".data).isPrefixOf
      (((l.dropWhile isWS).drop 4).dropWhile isWS) = true)
    (hw2 : (((((l.dropWhile isWS).drop 4).dropWhile isWS).drop 10).takeWhile
      isWS).isEmpty = false)
    (hpre2 : ("import".data).isPrefixOf
      (((((l.dropWhile isWS).drop 4).dropWhile isWS).drop 10).drop
        ((((((l.dropWhile isWS).drop 4).dropWhile isWS).drop
          10)).takeWhile isWS).length) = true)
    (hdrop : (((((((l.dropWhile isWS).drop 4).dropWhile isWS).drop 10)).drop
        ((((((l.dropWhile isWS).drop 4).dropWhile isWS).drop
          10)).takeWhile isWS).length)).drop 6 = c :: rest)
    (hws : isWS c = true) :
    __future_import_match l = some ⟨l.takeWhile isWS, itemsGroup rest,
      commentGroup (rest.dropWhile (fun x => !(x == '#')))⟩ := by
  have hpre2x := hpre2
  rw [List.drop_drop] at hpre2x
  have hpre2y : ("import".data) <+:
      (((l.dropWhile isWS).drop 4).dropWhile isWS).drop
        (10 +
          ((((((l.dropWhile isWS).drop 4).dropWhile isWS).drop
            10)).takeWhile isWS).length) :=
    ⟨_, (isPrefixOf_append_drop hpre2x).symm⟩
  have hpreFy : ("__future__".data) <+:
      ((l.dropWhile isWS).drop 4).dropWhile isWS :=
    ⟨_, (isPrefixOf_append_drop hpreF).symm⟩
  simp only [__future_import_match]
  rw [hdrop]
  simp [hpre, hw1, hpreF, hpreFy, hw2, hpre2x, hpre2y, hws]

theorem future_match_elim {l : Line} {g : GlobalGroups}
    (h : __future_import_match l = some g) :
    ("from".data).isPrefixOf (l.dropWhile isWS) = true ∧
    (((l.dropWhile isWS).drop 4).takeWhile isWS).isEmpty = false ∧
    ("__future__".data).isPrefixOf
      (((l.dropWhile isWS).drop 4).dropWhile isWS) = true ∧
    (((((l.dropWhile isWS).drop 4).dropWhile isWS).drop 10).takeWhile
      isWS).isEmpty = false ∧
    ∃ c rest,
      ("import".data).isPrefixOf
        (((((l.dropWhile isWS).drop 4).dropWhile isWS).drop 10).drop
          ((((((l.dropWhile isWS).drop 4).dropWhile isWS).drop
            10)).takeWhile isWS).length) = true ∧
      (((((((l.dropWhile isWS).drop 4).dropWhile isWS).drop 10)).drop
        ((((((l.dropWhile isWS).drop 4).dropWhile isWS).drop
          10)).takeWhile isWS).length)).drop 6 = c :: rest ∧
      isWS c = true ∧
      g = ⟨l.takeWhile isWS, itemsGroup rest,
        commentGroup (rest.dropWhile (fun x => !(x == '#')))⟩ ∧
      List.Sublist rest l := by
  have hsub3 : List.Sublist (((l.dropWhile isWS).drop 4).dropWhile isWS) l :=
    ((List.dropWhile_sublist _).trans (List.drop_sublist _ _)).trans
      (List.dropWhile_sublist _)
  simp only [__future_import_match] at h
  split at h
  · next hpre =>
    split at h
    · simp at h
    · next hw1 =>
      split at h
      · next hpreF =>
        split at h
        · simp at h
        · next hw2 =>
          split at h
          · next hpre2 =>
            split at h
            · next c rest hdrop =>
              split at h
              · next hws =>
                simp only [Option.some.injEq] at h
                refine ⟨hpre, bool_eq_false_of_ne hw1, hpreF,
                  bool_eq_false_of_ne hw2, c, rest, hpre2, hdrop, hws, h.symm, ?_⟩
                have h1 : List.Sublist (c :: rest) _ := hdrop ▸ List.drop_sublist 6 _
                exact (List.tail_sublist (c :: rest)).trans (h1.trans
                  ((List.drop_sublist _ _).trans ((List.drop_sublist _ _).trans
                    hsub3)))
              · simp at h
            · simp at h
          · simp at h
      · simp at h
  · simp at h

theorem future_iff_module {l : Line} {g : FromGroups}
    (h : __from_import_match l = some g) :
    _is_future_import l = true ↔ g.module = ("__future__").data := by
  obtain ⟨hpre, hindent, hcase⟩ := from_match_elim h
  constructor
  · intro hf
    obtain ⟨gf, hgf⟩ := Option.isSome_iff_exists.mp hf
    obtain ⟨hpreF0, hw1F, hpreF, hw2F, c, rest, hpre2F, hdropF, hwsF, hgeq, hsubF⟩ :=
      future_match_elim hgf
    have hr3 : ((l.dropWhile isWS).drop 4).dropWhile isWS =
        ("__future__").data ++
          (((l.dropWhile isWS).drop 4).dropWhile isWS).drop 10 := by
      have h0 := isPrefixOf_append_drop hpreF
      rw [show ((("__future__").data : Line)).length = 10 from rfl] at h0
      exact h0
    have hm2 : (((l.dropWhile isWS).drop 4).dropWhile isWS).takeWhile
        (fun x => !(isWS x)) = ("__future__").data := by
      cases ht : (((l.dropWhile isWS).drop 4).dropWhile isWS).drop 10 with
      | nil =>
        rw [ht] at hw2F
        simp at hw2F
      | cons c2 t2 =>
        cases hc2 : isWS c2 with
        | false =>
          rw [ht, takeWhile_cons_false hc2] at hw2F
          simp at hw2F
        | true =>
          conv_lhs => rw [hr3, ht]
          rw [takeWhile_append_all (by decide),
            takeWhile_cons_false (show (!(isWS c2)) = false by rw [hc2]; rfl),
            List.append_nil]
    rcases hcase with ⟨c3, rest3, hw1ne3, hmodE, hrest3⟩ | ⟨hmodnil, hlen2, hmi, hrest4⟩
    · exact hmodE.trans hm2
    · exact absurd (hm2.symm.trans hmi) (by decide)
  · intro hmod
    rcases hcase with ⟨c3, rest3, hw1ne3, hmodE, hw2ne3, hpre23, hdrop3, hws3,
      hit3, hcm3, hsub3b⟩ | ⟨hmodnil, hrest4⟩
    · have hw1f : (((l.dropWhile isWS).drop 4).takeWhile isWS).isEmpty = false :=
        isEmpty_false_of_ne_nil hw1ne3
      have hm2 : (((l.dropWhile isWS).drop 4).dropWhile isWS).takeWhile
          (fun x => !(isWS x)) = ("__future__").data := hmodE.symm.trans hmod
      have hpreF : ("__future__".data).isPrefixOf
          (((l.dropWhile isWS).drop 4).dropWhile isWS) = true := by
        have hsplit : ((l.dropWhile isWS).drop 4).dropWhile isWS =
            ("__future__").data ++
              (((l.dropWhile isWS).drop 4).dropWhile isWS).dropWhile
                (fun x => !(isWS x)) := by
          conv_lhs => rw [← List.takeWhile_append_dropWhile
            (fun x => !(isWS x))
            (((l.dropWhile isWS).drop 4).dropWhile isWS)]
          rw [hm2]
        rw [hsplit]
        exact @isPrefixOf_of_append (("__future__").data) _
      have hlen10 : ((g.module : Line)).length = 10 := by
        rw [hmod]
        rfl
      rw [hlen10] at hw2ne3 hpre23 hdrop3
      have hw2f : (((((l.dropWhile isWS).drop 4).dropWhile isWS).drop 10).takeWhile
          isWS).isEmpty = false := isEmpty_false_of_ne_nil hw2ne3
      have hfm := future_match_intro hpre hw1f hpreF hw2f hpre23 hdrop3 hws3
      simp only [_is_future_import, hfm, Option.isSome_some]
    · rw [hmodnil] at hmod
      exact absurd hmod (by decide)

/-! ## Values of the repair step on `%`-free lines -/

theorem comment_percent_free {l rest : Line} (hsub : List.Sublist rest l)
    (hp : ('%' : Char) ∉ l) :
    ('%' : Char) ∉ commentGroup (rest.dropWhile (fun x => !(x == '#'))) := by
  intro hm
  rcases commentGroup_subset hm with h1 | h1
  · exact absurd h1 (by decide)
  · exact hp (hsub.subset ((List.dropWhile_sublist _).subset h1))

theorem cpart_percent_free {comment : Line} (hc : ('%' : Char) ∉ comment) :
    ('%' : Char) ∉ (if comment.isEmpty then ([] : Line) else ' ' :: comment) := by
  split
  · simp
  · intro hm
    rcases List.mem_cons.mp hm with h | h
    · exact absurd h (by decide)
    · exact hc h

theorem global_false_of_from {l : Line} {g : FromGroups}
    (hg : __from_import_match l = some g) : _is_global_import l = false := by
  have hf : _is_from_import l = true := by
    simp only [_is_from_import, hg, Option.isSome_some]
  cases hx : _is_global_import l with
  | false => rfl
  | true => exact (heads_clash (global_head hx) (from_head hf)).elim

theorem repair_global_eq {l : Line} {g : GlobalGroups}
    (hg : __global_import_match l = some g) (hp : ('%' : Char) ∉ l) :
    _repair_any l = some (g.indent ++ ("import ").data ++
      (_sort_and_join (_split_items g.items) ++
        ((if g.comment.isEmpty then [] else ' ' :: g.comment) ++
          __endl_suffix l))) := by
  obtain ⟨hpre, c, rest, hdrop, hws, hsub, hgeq⟩ := global_match_elim hg
  have hind : g.indent = l.takeWhile isWS := by rw [hgeq]
  have hcm : g.comment = commentGroup (rest.dropWhile (fun x => !(x == '#'))) := by
    rw [hgeq]
  have hcomP : ('%' : Char) ∉ g.comment := by
    rw [hcm]
    exact comment_percent_free hsub hp
  have hindP : ('%' : Char) ∉ g.indent := by
    rw [hind]
    exact percent_not_in_ws_run
  have hcpP : ('%' : Char) ∉
      (if g.comment.isEmpty then ([] : Line) else ' ' :: g.comment) :=
    cpart_percent_free hcomP
  have ha2 : ('%' : Char) ∉ g.indent ++ ("import ").data := by
    intro hm
    rcases List.mem_append.mp hm with h | h
    · exact hindP h
    · exact absurd h (by decide)
  have hgi : _is_global_import l = true := by
    simp only [_is_global_import, hg, Option.isSome_some]
  have hmk : _make_global_import (_split_items g.items)
      (_make_template g.indent g.comment) =
      some (g.indent ++ ("import ").data ++
        (_sort_and_join (_split_items g.items) ++
          (if g.comment.isEmpty then [] else ' ' :: g.comment))) := by
    simp only [_make_global_import, _make_template]
    rw [show g.indent ++ ['%', 's'] ++
        (if g.comment.isEmpty then ([] : Line) else ' ' :: g.comment) =
        g.indent ++ ('%' :: 's' ::
          (if g.comment.isEmpty then ([] : Line) else ' ' :: g.comment)) from by
      simp]
    rw [pyFormat_splice _ hindP, pyFormat_no_directive hcpP]
    simp only [Option.map_some', Option.some_bind]
    rw [show g.indent ++ (("import %s").data ++
        (if g.comment.isEmpty then ([] : Line) else ' ' :: g.comment)) =
        (g.indent ++ ("import ").data) ++ ('%' :: 's' ::
          (if g.comment.isEmpty then ([] : Line) else ' ' :: g.comment)) from by
      simp]
    rw [pyFormat_splice _ ha2, pyFormat_no_directive hcpP]
    simp [List.append_assoc]
  simp only [_repair_any]
  rw [hgi, if_pos rfl]
  simp only [_split_globals, hg, Option.map_some', Option.some_bind]
  rw [hmk]
  simp [List.append_assoc]

theorem repair_from_eq {l : Line} {g : FromGroups}
    (hg : __from_import_match l = some g) (hp : ('%' : Char) ∉ l) :
    _repair_any l = some (g.indent ++ ("from ").data ++ g.module ++
      (" import ").data ++
      (_sort_and_join (_split_items g.items) ++
        ((if g.comment.isEmpty then [] else ' ' :: g.comment) ++
          __endl_suffix l))) := by
  obtain ⟨hpre, hind0, hcase⟩ := from_match_elim hg
  have hfacts : ∃ rest, List.Sublist rest l ∧
      g.comment = commentGroup (rest.dropWhile (fun x => !(x == '#'))) := by
    rcases hcase with ⟨c, rest, h1, h2, h3, h4, h5, h6, h7, h8, h9⟩ |
      ⟨h1, h2, h3, c, rest, h4, h5, h6, h7, h8⟩
    · exact ⟨rest, h9, h8⟩
    · exact ⟨rest, h8, h7⟩
  obtain ⟨rest, hsub, hcm⟩ := hfacts
  have hcomP : ('%' : Char) ∉ g.comment := by
    rw [hcm]
    exact comment_percent_free hsub hp
  have hindP : ('%' : Char) ∉ g.indent := by
    rw [hind0]
    exact percent_not_in_ws_run
  have hcpP : ('%' : Char) ∉
      (if g.comment.isEmpty then ([] : Line) else ' ' :: g.comment) :=
    cpart_percent_free hcomP
  have ha1 : ('%' : Char) ∉ g.indent ++ ("from ").data := by
    intro hm
    rcases List.mem_append.mp hm with h | h
    · exact hindP h
    · exact absurd h (by decide)
  have ha2 : ('%' : Char) ∉ ((" import ").data : Line) := by decide
  have hfi : _is_from_import l = true := by
    simp only [_is_from_import, hg, Option.isSome_some]
  have hng : _is_global_import l = false := global_false_of_from hg
  have hmk : _make_from_import g.module (_split_items g.items)
      (_make_template g.indent g.comment) =
      some ((g.indent ++ ("from ").data) ++ (g.module ++ ((" import ").data ++
        (_sort_and_join (_split_items g.items) ++
          (if g.comment.isEmpty then [] else ' ' :: g.comment))))) := by
    simp only [_make_from_import, _make_template]
    rw [show g.indent ++ ['%', 's'] ++
        (if g.comment.isEmpty then ([] : Line) else ' ' :: g.comment) =
        g.indent ++ ('%' :: 's' ::
          (if g.comment.isEmpty then ([] : Line) else ' ' :: g.comment)) from by
      simp]
    rw [pyFormat_splice _ hindP, pyFormat_no_directive hcpP]
    simp only [Option.map_some', Option.some_bind]
    rw [show g.indent ++ (("from %s import %s").data ++
        (if g.comment.isEmpty then ([] : Line) else ' ' :: g.comment)) =
        (g.indent ++ ("from ").data) ++ ('%' :: 's' :: ((" import ").data ++
          ('%' :: 's' ::
            (if g.comment.isEmpty then ([] : Line) else ' ' :: g.comment)))) from by
      simp]
    rw [pyFormat_splice _ ha1]
    rw [pyFormat_splice _ ha2, pyFormat_no_directive hcpP]
    simp [List.append_assoc]
  simp only [_repair_any]
  rw [hng, if_neg (by simp), hfi, if_pos rfl]
  simp only [_split_from, hg, Option.map_some', Option.some_bind]
  rw [hmk]
  simp [List.append_assoc]

/-! ## The item-set machinery: splitting, stripping, joining -/

theorem splitOnComma_ne_nil : ∀ y : Line, splitOnComma y ≠ [] := by
  intro y
  cases y with
  | nil => simp [splitOnComma]
  | cons c rest =>
    simp only [splitOnComma]
    split
    · simp
    · split
      · simp
      · simp

theorem splitOnComma_append_comma :
    ∀ {a : Line} (b : Line), (',' : Char) ∉ a →
      splitOnComma (a ++ ',' :: b) = a :: splitOnComma b := by
  intro a
  induction a with
  | nil =>
    intro b _
    simp [splitOnComma]
  | cons c a2 ih =>
    intro b hnc
    have hc : (c == ',') = false := by
      cases hx : c == ',' with
      | false => rfl
      | true =>
        rw [beq_iff_eq] at hx
        exact absurd (hx ▸ List.mem_cons_self c a2) hnc
    simp only [List.cons_append, splitOnComma, hc, Bool.false_eq_true, if_false,
      List.append_eq]
    rw [ih b (fun hm => hnc (List.mem_cons_of_mem _ hm))]

theorem splitOnComma_no_comma :
    ∀ {a : Line}, (',' : Char) ∉ a → splitOnComma a = [a] := by
  intro a
  induction a with
  | nil => intro _; rfl
  | cons c a2 ih =>
    intro hnc
    have hc : (c == ',') = false := by
      cases hx : c == ',' with
      | false => rfl
      | true =>
        rw [beq_iff_eq] at hx
        exact absurd (hx ▸ List.mem_cons_self c a2) hnc
    simp only [splitOnComma, hc, Bool.false_eq_true, if_false]
    rw [ih (fun hm => hnc (List.mem_cons_of_mem _ hm))]

theorem splitOnComma_mem_subset :
    ∀ {y p : Line}, p ∈ splitOnComma y → ∀ {c : Char}, c ∈ p → c ∈ y := by
  intro y
  induction y with
  | nil =>
    intro p hp c hc
    simp [splitOnComma] at hp
    subst hp
    cases hc
  | cons d rest ih =>
    intro p hp c hc
    simp only [splitOnComma] at hp
    split at hp
    · rcases List.mem_cons.mp hp with rfl | hp2
      · cases hc
      · exact List.mem_cons_of_mem _ (ih hp2 hc)
    · rcases hsp : splitOnComma rest with _ | ⟨h0, t0⟩
      · exact absurd hsp (splitOnComma_ne_nil rest)
      · rw [hsp] at hp
        rcases List.mem_cons.mp hp with rfl | hp2
        · rcases List.mem_cons.mp hc with rfl | hc2
          · exact List.mem_cons_self _ _
          · exact List.mem_cons_of_mem _ (ih (hsp ▸ List.mem_cons_self h0 t0) hc2)
        · exact List.mem_cons_of_mem _ (ih (hsp ▸ List.mem_cons_of_mem h0 hp2) hc)

theorem splitOnComma_mem_no_comma :
    ∀ {y p : Line}, p ∈ splitOnComma y → (',' : Char) ∉ p := by
  intro y
  induction y with
  | nil =>
    intro p hp hm
    simp [splitOnComma] at hp
    subst hp
    cases hm
  | cons d rest ih =>
    intro p hp hm
    simp only [splitOnComma] at hp
    split at hp
    · rcases List.mem_cons.mp hp with rfl | hp2
      · cases hm
      · exact ih hp2 hm
    · next hd =>
      rcases hsp : splitOnComma rest with _ | ⟨h0, t0⟩
      · exact absurd hsp (splitOnComma_ne_nil rest)
      · rw [hsp] at hp
        rcases List.mem_cons.mp hp with rfl | hp2
        · rcases List.mem_cons.mp hm with heq | hm2
          · rw [heq] at hd
            simp at hd
          · exact ih (hsp ▸ List.mem_cons_self h0 t0) hm2
        · exact ih (hsp ▸ List.mem_cons_of_mem h0 hp2) hm

theorem dropWhile_shape (p : Char → Bool) (l : Line) :
    l.dropWhile p = [] ∨
      ∃ c t, l.dropWhile p = c :: t ∧ p c = false := by
  induction l with
  | nil => exact Or.inl rfl
  | cons a l2 ih =>
    cases hp : p a with
    | true =>
      rw [List.dropWhile_cons_of_pos hp]
      exact ih
    | false => exact Or.inr ⟨a, l2, dropWhile_cons_false hp, hp⟩

theorem dropWhile_idem (p : Char → Bool) (l : Line) :
    (l.dropWhile p).dropWhile p = l.dropWhile p := by
  rcases dropWhile_shape p l with h | ⟨c, t, h, hc⟩
  · rw [h]
    rfl
  · rw [h, dropWhile_cons_false hc]

theorem rstrip_append_ws {x t : Line} (ht : ∀ c ∈ t, isWS c = true) :
    rstrip (x ++ t) = rstrip x := by
  unfold rstrip
  rw [List.reverse_append, dropWhile_append_all (fun c hc => ht c (List.mem_reverse.mp hc))]

theorem rstrip_sublist (x : Line) : List.Sublist (rstrip x) x := by
  unfold rstrip
  have h1 : List.Sublist (x.reverse.dropWhile isWS) x.reverse :=
    List.dropWhile_sublist _
  have h2 := h1.reverse
  rwa [List.reverse_reverse] at h2

theorem strip_sublist (x : Line) : List.Sublist (strip x) x :=
  (rstrip_sublist _).trans (List.dropWhile_sublist _)

theorem strip_cons_ws {c : Char} {x : Line} (hc : isWS c = true) :
    strip (c :: x) = strip x := by
  unfold strip lstrip
  rw [List.dropWhile_cons_of_pos hc]

theorem strip_append_ws {x t : Line} (ht : ∀ c ∈ t, isWS c = true) :
    strip (x ++ t) = strip x := by
  unfold strip lstrip
  rw [List.dropWhile_append]
  split
  · next he =>
    have htt : t.dropWhile isWS = [] := by
      rcases dropWhile_shape isWS t with h | ⟨c, t2, h, hc⟩
      · exact h
      · have hct : c ∈ t := ((List.dropWhile_sublist _).subset) (h ▸ List.mem_cons_self c t2)
        rw [ht c hct] at hc
        cases hc
    have he2 : x.dropWhile isWS = [] := by
      rcases dropWhile_shape isWS x with h | ⟨c, t2, h, _⟩
      · exact h
      · rw [h] at he
        simp at he
    rw [htt, he2]
  · exact rstrip_append_ws ht

theorem lstrip_of_rstrip_lstrip (x : Line) :
    (rstrip (x.dropWhile isWS)).dropWhile isWS = rstrip (x.dropWhile isWS) := by
  rcases hsh : rstrip (x.dropWhile isWS) with _ | ⟨c, t⟩
  · rfl
  · have hhead : (rstrip (x.dropWhile isWS)).head? = some c := by rw [hsh]; rfl
    have hx : (x.dropWhile isWS).head? = some c := head_of_rstrip hhead
    rcases dropWhile_shape isWS x with h | ⟨c2, t2, h, hc2⟩
    · rw [h] at hx
      cases hx
    · rw [h] at hx
      simp only [List.head?_cons, Option.some.injEq] at hx
      subst hx
      exact dropWhile_cons_false hc2

theorem strip_idem (x : Line) : strip (strip x) = strip x := by
  show rstrip ((rstrip (x.dropWhile isWS)).dropWhile isWS) = rstrip (x.dropWhile isWS)
  rw [lstrip_of_rstrip_lstrip]
  unfold rstrip
  rw [List.reverse_reverse, dropWhile_idem]

theorem mem_sorted_items {L : List Line} {y : Line} :
    y ∈ _sorted_items L ↔ y ∈ L := by
  unfold _sorted_items
  constructor
  · intro h
    obtain ⟨p, hp, hpy⟩ := List.mem_map.mp h
    rw [List.mem_insertionSort] at hp
    obtain ⟨x, hx, hxp⟩ := List.mem_map.mp hp
    rw [← hpy, ← hxp]
    exact hx
  · intro h
    apply List.mem_map.mpr
    refine ⟨(upper y, y), ?_, rfl⟩
    rw [List.mem_insertionSort]
    exact List.mem_map.mpr ⟨y, h, rfl⟩

theorem pySet_mem {L : List Line} {y : Line} : y ∈ pySet L ↔ y ∈ L := by
  unfold pySet
  rw [mem_sorted_items, List.mem_dedup]

theorem sorted_items_nodup {L : List Line} (h : L.Nodup) :
    (_sorted_items L).Nodup := by
  unfold _sorted_items
  have h1 : (L.map (fun x => (upper x, x))).Nodup :=
    h.map (fun a b hab => congrArg Prod.snd hab)
  have h2 : ((L.map (fun x => (upper x, x))).insertionSort itemRel).Nodup :=
    (List.perm_insertionSort itemRel _).nodup_iff.mpr h1
  apply h2.map_on
  intro p1 hp1 p2 hp2 hsnd
  rw [List.mem_insertionSort] at hp1 hp2
  obtain ⟨x1, _, hx1⟩ := List.mem_map.mp hp1
  obtain ⟨x2, _, hx2⟩ := List.mem_map.mp hp2
  rw [← hx1, ← hx2]
  rw [← hx1, ← hx2] at hsnd
  simp only at hsnd
  rw [hsnd]

theorem pySet_nodup (L : List Line) : (pySet L).Nodup :=
  sorted_items_nodup (List.nodup_dedup L)

theorem sorted_items_idem (L : List Line) :
    _sorted_items (_sorted_items L) = _sorted_items L := by
  have hmapeq : (_sorted_items L).map (fun x => (upper x, x)) =
      (L.map (fun x => (upper x, x))).insertionSort itemRel := by
    conv_lhs => rw [show _sorted_items L =
      ((L.map (fun x => (upper x, x))).insertionSort itemRel).map (fun p => p.2)
      from rfl]
    rw [List.map_map]
    have hcg : ∀ p ∈ (L.map (fun x => (upper x, x))).insertionSort itemRel,
        ((fun x => (upper x, x)) ∘ (fun p => p.2)) p = id p := by
      intro p hp
      rw [List.mem_insertionSort] at hp
      obtain ⟨x, _, hx⟩ := List.mem_map.mp hp
      rw [← hx]
      rfl
    rw [List.map_congr_left hcg, List.map_id]
  conv_lhs => rw [show _sorted_items (_sorted_items L) =
    (((_sorted_items L).map (fun x => (upper x, x))).insertionSort itemRel).map
      (fun p => p.2) from rfl]
  rw [hmapeq]
  rw [List.Sorted.insertionSort_eq (List.sorted_insertionSort itemRel _)]
  rw [← hmapeq, List.map_map]
  rw [show ((fun p : Line × Line => p.2) ∘ fun x : Line => (upper x, x)) = id
    from rfl, List.map_id]

theorem pySet_idem (L : List Line) : pySet (pySet L) = pySet L := by
  show _sorted_items (pySet L).dedup = pySet L
  rw [List.dedup_eq_self.mpr (pySet_nodup L)]
  show _sorted_items (_sorted_items L.dedup) = _sorted_items L.dedup
  exact sorted_items_idem _

theorem sorted_items_length (L : List Line) :
    (_sorted_items L).length = L.length := by
  unfold _sorted_items
  rw [List.length_map, (List.perm_insertionSort itemRel _).length_eq, List.length_map]

theorem pySet_ne_nil {L : List Line} (h : L ≠ []) : pySet L ≠ [] := by
  intro hx
  have h1 := congrArg List.length hx
  rw [pySet, sorted_items_length] at h1
  simp only [List.length_nil] at h1
  exact h ((List.dedup_eq_nil L).mp (List.length_eq_zero.mp h1))

theorem intercalate_two (sep x y : Line) (t : List Line) :
    List.intercalate sep (x :: y :: t) = x ++ sep ++ List.intercalate sep (y :: t) := by
  simp [List.intercalate, List.intersperse]

theorem intercalate_one (sep x : Line) : List.intercalate sep [x] = x := by
  simp [List.intercalate]

theorem mem_intercalate {sep : Line} {S : List Line} {c : Char} :
    c ∈ List.intercalate sep S → c ∈ sep ∨ ∃ x ∈ S, c ∈ x := by
  induction S with
  | nil =>
    intro h
    simp [List.intercalate] at h
  | cons x S2 ih =>
    cases S2 with
    | nil =>
      intro h
      rw [intercalate_one] at h
      exact Or.inr ⟨x, List.mem_cons_self _ _, h⟩
    | cons y t =>
      intro h
      rw [intercalate_two] at h
      rcases List.mem_append.mp h with h1 | h1
      · rcases List.mem_append.mp h1 with h2 | h2
        · exact Or.inr ⟨x, List.mem_cons_self _ _, h2⟩
        · exact Or.inl h2
      · rcases ih h1 with h2 | ⟨z, hz, hcz⟩
        · exact Or.inl h2
        · exact Or.inr ⟨z, List.mem_cons_of_mem _ hz, hcz⟩

theorem split_items_mem {raw x : Line} (hx : x ∈ _split_items raw) :
    (∀ {c : Char}, c ∈ x → c ∈ raw) ∧ strip x = x ∧ (',' : Char) ∉ x := by
  have hsubI : List.Sublist
      (if raw.head? == some '(' && raw.getLast? == some ')' then
        (raw.drop 1).dropLast
      else raw) raw := by
    split
    · exact (List.dropLast_sublist _).trans (List.drop_sublist _ _)
    · exact List.Sublist.refl raw
  simp only [_split_items] at hx
  rw [pySet_mem] at hx
  obtain ⟨p, hp, hpx⟩ := List.mem_map.mp hx
  refine ⟨?_, ?_, ?_⟩
  · intro c hc
    rw [← hpx] at hc
    have hcp : c ∈ p := (strip_sublist p).subset hc
    exact hsubI.subset (splitOnComma_mem_subset hp hcp)
  · rw [← hpx]
    exact strip_idem p
  · intro hm
    rw [← hpx] at hm
    exact splitOnComma_mem_no_comma hp ((strip_sublist p).subset hm)

theorem split_items_ne_nil (raw : Line) : _split_items raw ≠ [] := by
  simp only [_split_items]
  apply pySet_ne_nil
  rcases hsp : splitOnComma
      (if raw.head? == some '(' && raw.getLast? == some ')' then
        (raw.drop 1).dropLast
      else raw) with _ | ⟨h0, t0⟩
  · exact absurd hsp (splitOnComma_ne_nil _)
  · simp

theorem sort_and_join_mem {S : List Line} {c : Char}
    (h : c ∈ _sort_and_join S) : c = ',' ∨ c = ' ' ∨ ∃ x ∈ S, c ∈ x := by
  unfold _sort_and_join at h
  rcases mem_intercalate h with h1 | ⟨x, hx, hcx⟩
  · rcases List.mem_cons.mp h1 with rfl | h2
    · exact Or.inl rfl
    · rcases List.mem_cons.mp h2 with rfl | h3
      · exact Or.inr (Or.inl rfl)
      · cases h3
  · exact Or.inr (Or.inr ⟨x, mem_sorted_items.mp hx, hcx⟩)

theorem split_cons_ws_strip {c : Char} {y : Line} (hc : isWS c = true) :
    (splitOnComma (c :: y)).map strip = (splitOnComma y).map strip := by
  have hcc : (c == ',') = false := by
    cases hx : c == ',' with
    | false => rfl
    | true =>
      rw [beq_iff_eq] at hx
      rw [hx] at hc
      cases hc
  simp only [splitOnComma, hcc, Bool.false_eq_true, if_false]
  rcases hsp : splitOnComma y with _ | ⟨h0, t0⟩
  · exact absurd hsp (splitOnComma_ne_nil y)
  · simp only [List.map_cons]
    rw [strip_cons_ws hc]

theorem ws_no_comma {t : Line} (ht : ∀ c ∈ t, isWS c = true) :
    (',' : Char) ∉ t := by
  intro hm
  have := ht ',' hm
  cases this

theorem split_join :
    ∀ (S : List Line), S ≠ [] → (∀ x ∈ S, (',' : Char) ∉ x) →
      (∀ x ∈ S, strip x = x) → ∀ {wsTail : Line},
      (∀ c ∈ wsTail, isWS c = true) →
      (splitOnComma (List.intercalate [',', ' '] S ++ wsTail)).map strip = S := by
  intro S
  induction S with
  | nil => intro h; exact absurd rfl h
  | cons x S2 ih =>
    intro _ hnc hsf wsTail hw
    cases S2 with
    | nil =>
      rw [intercalate_one]
      have hnx : (',' : Char) ∉ x ++ wsTail := by
        intro hm
        rcases List.mem_append.mp hm with h | h
        · exact hnc x (List.mem_cons_self _ _) h
        · exact ws_no_comma hw h
      rw [splitOnComma_no_comma hnx]
      simp only [List.map_cons, List.map_nil]
      rw [strip_append_ws hw, hsf x (List.mem_cons_self _ _)]
    | cons y t =>
      rw [intercalate_two]
      rw [show x ++ [',', ' '] ++ List.intercalate [',', ' '] (y :: t) ++ wsTail =
          x ++ ',' :: (' ' :: (List.intercalate [',', ' '] (y :: t) ++ wsTail)) from by
        simp]
      rw [splitOnComma_append_comma _ (hnc x (List.mem_cons_self _ _))]
      simp only [List.map_cons]
      rw [show strip x = x from hsf x (List.mem_cons_self _ _)]
      rw [split_cons_ws_strip (by decide)]
      rw [ih (by simp) (fun z hz => hnc z (List.mem_cons_of_mem _ hz))
        (fun z hz => hsf z (List.mem_cons_of_mem _ hz)) hw]

theorem sorted_items_of_split_items (raw : Line) :
    _sorted_items (_split_items raw) = _split_items raw := by
  simp only [_split_items]
  show _sorted_items (_sorted_items _) = _
  exact sorted_items_idem _

theorem pySet_of_split_items (raw : Line) :
    pySet (_split_items raw) = _split_items raw := by
  conv_lhs => rw [show _split_items raw = pySet
    ((splitOnComma (if raw.head? == some '(' && raw.getLast? == some ')' then
      (raw.drop 1).dropLast else raw)).map strip) from by simp only [_split_items]]
  rw [pySet_idem]
  simp only [_split_items]

theorem split_items_roundtrip {raw wsTail : Line}
    (hparen : ('(' : Char) ∉ raw) (hw : ∀ c ∈ wsTail, isWS c = true) :
    _split_items (_sort_and_join (_split_items raw) ++ wsTail) =
      _split_items raw := by
  have hjoin : _sort_and_join (_split_items raw) =
      List.intercalate [',', ' '] (_split_items raw) := by
    unfold _sort_and_join
    rw [sorted_items_of_split_items]
  have hnoparen : ∀ c ∈ _sort_and_join (_split_items raw) ++ wsTail,
      (c == '(') = false := by
    intro c hc
    have hcne : c ≠ '(' := by
      rcases List.mem_append.mp hc with h | h
      · rcases sort_and_join_mem h with rfl | rfl | ⟨x, hx, hcx⟩
        · decide
        · decide
        · intro he
          exact hparen (he ▸ (split_items_mem hx).1 hcx)
      · intro he
        have := hw c h
        rw [he] at this
        cases this
    cases hx : c == '(' with
    | false => rfl
    | true => exact absurd (beq_iff_eq.mp hx) hcne
  have hcond : ((_sort_and_join (_split_items raw) ++ wsTail).head? ==
      some '(') = false := by
    rcases hl : _sort_and_join (_split_items raw) ++ wsTail with _ | ⟨a, t⟩
    · rfl
    · have ham : a ∈ _sort_and_join (_split_items raw) ++ wsTail := by
        rw [hl]
        exact List.mem_cons_self _ _
      have hane := hnoparen a ham
      simp only [List.head?_cons]
      exact hane
  have hfalse : ((_sort_and_join (_split_items raw) ++ wsTail).head? == some '(' &&
      (_sort_and_join (_split_items raw) ++ wsTail).getLast? == some ')') =
      false := by
    rw [hcond]
    rfl
  conv_lhs => rw [show _split_items (_sort_and_join (_split_items raw) ++ wsTail) =
    pySet ((splitOnComma
      (if (_sort_and_join (_split_items raw) ++ wsTail).head? == some '(' &&
          (_sort_and_join (_split_items raw) ++ wsTail).getLast? == some ')' then
        ((_sort_and_join (_split_items raw) ++ wsTail).drop 1).dropLast
      else _sort_and_join (_split_items raw) ++ wsTail)).map strip) from rfl]
  rw [if_neg (show ¬(((_sort_and_join (_split_items raw) ++ wsTail).head? ==
      some '(' &&
      (_sort_and_join (_split_items raw) ++ wsTail).getLast? == some ')') = true)
    from fun h => Bool.false_ne_true (hfalse ▸ h))]
  rw [hjoin]
  rw [split_join (_split_items raw) (split_items_ne_nil raw)
    (fun x hx => (split_items_mem hx).2.2)
    (fun x hx => (split_items_mem hx).2.1) hw]
  exact pySet_of_split_items raw

/-! ## Shape of successfully repaired lines (no `%`-freeness assumed) -/

theorem endl_suffix_ws (l : Line) : ∀ c ∈ __endl_suffix l, isWS c = true := by
  unfold __endl_suffix
  split
  · intro c hc
    cases hc
  · split
    · intro c hc
      rcases List.mem_cons.mp hc with rfl | hc2
      · decide
      · cases hc2
    · intro c hc
      cases hc

theorem commentGroup_shape (r : Line) :
    commentGroup r = [] ∨ ∃ b, commentGroup r = '#' :: b := by
  cases r with
  | nil => exact Or.inl rfl
  | cons c t =>
    simp only [commentGroup]
    split
    · exact Or.inr ⟨_, rfl⟩
    · exact Or.inl rfl

theorem itemsGroup_no_hash {r : Line} {c : Char} (hc : c ∈ itemsGroup r) :
    (c == '#') = false := by
  have h := List.mem_takeWhile_imp hc
  simpa using h

theorem repair_global_shape {l r : Line} {g : GlobalGroups}
    (hg : __global_import_match l = some g) (hr : _repair_any l = some r) :
    ∃ ctail, r = g.indent ++ ("import ").data ++
        (_sort_and_join (_split_items g.items) ++ ctail) ∧
      ((∀ c ∈ ctail, isWS c = true) ∨ ∃ b, ctail = ' ' :: '#' :: b) := by
  obtain ⟨hpre, c, rest, hdrop, hws, hsub, hgeq⟩ := global_match_elim hg
  have hind : g.indent = l.takeWhile isWS := by rw [hgeq]
  have hcm : g.comment = commentGroup (rest.dropWhile (fun x => !(x == '#'))) := by
    rw [hgeq]
  have hindP : ('%' : Char) ∉ g.indent := by
    rw [hind]
    exact percent_not_in_ws_run
  have ha2 : ('%' : Char) ∉ g.indent ++ ("import ").data := by
    intro hm
    rcases List.mem_append.mp hm with h | h
    · exact hindP h
    · exact absurd h (by decide)
  have hgi : _is_global_import l = true := by
    simp only [_is_global_import, hg, Option.isSome_some]
  simp only [_repair_any] at hr
  rw [hgi, if_pos rfl] at hr
  simp only [_split_globals, hg, Option.map_some', Option.some_bind] at hr
  simp only [_make_global_import, _make_template] at hr
  by_cases hce : g.comment.isEmpty = true
  · rw [if_pos hce, List.append_nil] at hr
    rw [show g.indent ++ ['%', 's'] = g.indent ++ ('%' :: 's' :: ([] : Line)) from by
      simp] at hr
    rw [pyFormat_splice _ hindP] at hr
    rw [show pyFormat ([] : Line) [] = some ([] : Line) from rfl] at hr
    simp only [Option.map_some', Option.some_bind, List.append_nil] at hr
    rw [show g.indent ++ ("import %s").data =
        (g.indent ++ ("import ").data) ++ ('%' :: 's' :: ([] : Line)) from by
      simp] at hr
    rw [pyFormat_splice _ ha2] at hr
    rw [show pyFormat ([] : Line) [] = some ([] : Line) from rfl] at hr
    simp only [Option.map_some', Option.some.injEq, List.append_nil] at hr
    refine ⟨__endl_suffix l, ?_, Or.inl (endl_suffix_ws l)⟩
    rw [← hr]
    simp [List.append_assoc]
  · have hcsh : ∃ b, g.comment = '#' :: b := by
      rcases commentGroup_shape (rest.dropWhile (fun x => !(x == '#'))) with h0 | h0
      · rw [← hcm] at h0
        rw [h0] at hce
        exact absurd rfl hce
      · rw [← hcm] at h0
        exact h0
    obtain ⟨b, hb⟩ := hcsh
    rw [if_neg hce, hb] at hr
    rw [show g.indent ++ ['%', 's'] ++ (' ' :: '#' :: b) =
        g.indent ++ ('%' :: 's' :: (' ' :: '#' :: b)) from by simp] at hr
    rw [pyFormat_splice _ hindP] at hr
    rw [pyFormat_cons_ne (by decide), pyFormat_cons_ne (by decide)] at hr
    cases hb1 : pyFormat b [] with
    | none =>
      rw [hb1] at hr
      simp at hr
    | some bX =>
      rw [hb1] at hr
      simp only [Option.map_some', Option.some_bind] at hr
      rw [show g.indent ++ (("import %s").data ++ (' ' :: '#' :: bX)) =
          (g.indent ++ ("import ").data) ++ ('%' :: 's' :: (' ' :: '#' :: bX)) from by
        simp] at hr
      rw [pyFormat_splice _ ha2] at hr
      rw [pyFormat_cons_ne (by decide), pyFormat_cons_ne (by decide)] at hr
      cases hb2 : pyFormat bX [] with
      | none =>
        rw [hb2] at hr
        simp at hr
      | some bY =>
        rw [hb2] at hr
        simp only [Option.map_some', Option.some.injEq] at hr
        refine ⟨' ' :: '#' :: (bY ++ __endl_suffix l), ?_,
          Or.inr ⟨bY ++ __endl_suffix l, rfl⟩⟩
        rw [← hr]
        simp [List.append_assoc]

theorem repair_from_shape {l r : Line} {g : FromGroups}
    (hg : __from_import_match l = some g) (hr : _repair_any l = some r) :
    ∃ ctail, r = g.indent ++ ("from ").data ++ g.module ++ (" import ").data ++
        (_sort_and_join (_split_items g.items) ++ ctail) ∧
      ((∀ c ∈ ctail, isWS c = true) ∨ ∃ b, ctail = ' ' :: '#' :: b) := by
  obtain ⟨hpre, hind0, hcase⟩ := from_match_elim hg
  have hfacts : ∃ rest, List.Sublist rest l ∧
      g.comment = commentGroup (rest.dropWhile (fun x => !(x == '#'))) := by
    rcases hcase with ⟨c, rest, h1, h2, h3, h4, h5, h6, h7, h8, h9⟩ |
      ⟨h1, h2, h3, c, rest, h4, h5, h6, h7, h8⟩
    · exact ⟨rest, h9, h8⟩
    · exact ⟨rest, h8, h7⟩
  obtain ⟨rest, hsub, hcm⟩ := hfacts
  have hindP : ('%' : Char) ∉ g.indent := by
    rw [hind0]
    exact percent_not_in_ws_run
  have ha1 : ('%' : Char) ∉ g.indent ++ ("from ").data := by
    intro hm
    rcases List.mem_append.mp hm with h | h
    · exact hindP h
    · exact absurd h (by decide)
  have ha2 : ('%' : Char) ∉ ((" import ").data : Line) := by decide
  have hfi : _is_from_import l = true := by
    simp only [_is_from_import, hg, Option.isSome_some]
  have hng : _is_global_import l = false := global_false_of_from hg
  simp only [_repair_any] at hr
  rw [hng, if_neg (by simp), hfi, if_pos rfl] at hr
  simp only [_split_from, hg, Option.map_some', Option.some_bind] at hr
  simp only [_make_from_import, _make_template] at hr
  by_cases hce : g.comment.isEmpty = true
  · rw [if_pos hce, List.append_nil] at hr
    rw [show g.indent ++ ['%', 's'] = g.indent ++ ('%' :: 's' :: ([] : Line)) from by
      simp] at hr
    rw [pyFormat_splice _ hindP] at hr
    rw [show pyFormat ([] : Line) [] = some ([] : Line) from rfl] at hr
    simp only [Option.map_some', Option.some_bind, List.append_nil] at hr
    rw [show g.indent ++ ("from %s import %s").data =
        (g.indent ++ ("from ").data) ++ ('%' :: 's' :: ((" import ").data ++
          ('%' :: 's' :: ([] : Line)))) from by simp] at hr
    rw [pyFormat_splice _ ha1] at hr
    rw [pyFormat_splice _ ha2] at hr
    rw [show pyFormat ([] : Line) [] = some ([] : Line) from rfl] at hr
    simp only [Option.map_some', Option.some.injEq, List.append_nil] at hr
    refine ⟨__endl_suffix l, ?_, Or.inl (endl_suffix_ws l)⟩
    rw [← hr]
    simp [List.append_assoc]
  · have hcsh : ∃ b, g.comment = '#' :: b := by
      rcases commentGroup_shape (rest.dropWhile (fun x => !(x == '#'))) with h0 | h0
      · rw [← hcm] at h0
        rw [h0] at hce
        exact absurd rfl hce
      · rw [← hcm] at h0
        exact h0
    obtain ⟨b, hb⟩ := hcsh
    rw [if_neg hce, hb] at hr
    rw [show g.indent ++ ['%', 's'] ++ (' ' :: '#' :: b) =
        g.indent ++ ('%' :: 's' :: (' ' :: '#' :: b)) from by simp] at hr
    rw [pyFormat_splice _ hindP] at hr
    rw [pyFormat_cons_ne (by decide), pyFormat_cons_ne (by decide)] at hr
    cases hb1 : pyFormat b [] with
    | none =>
      rw [hb1] at hr
      simp at hr
    | some bX =>
      rw [hb1] at hr
      simp only [Option.map_some', Option.some_bind] at hr
      rw [show g.indent ++ (("from %s import %s").data ++ (' ' :: '#' :: bX)) =
          (g.indent ++ ("from ").data) ++ ('%' :: 's' :: ((" import ").data ++
            ('%' :: 's' :: (' ' :: '#' :: bX)))) from by simp] at hr
      rw [pyFormat_splice _ ha1] at hr
      rw [pyFormat_splice _ ha2] at hr
      rw [pyFormat_cons_ne (by decide), pyFormat_cons_ne (by decide)] at hr
      cases hb2 : pyFormat bX [] with
      | none =>
        rw [hb2] at hr
        simp at hr
      | some bY =>
        rw [hb2] at hr
        simp only [Option.map_some', Option.some.injEq] at hr
        refine ⟨' ' :: '#' :: (bY ++ __endl_suffix l), ?_,
          Or.inr ⟨bY ++ __endl_suffix l, rfl⟩⟩
        rw [← hr]
        simp [List.append_assoc]

/-! ## The semantic statement of a line and its preservation by repair -/

theorem from_groups_facts {l : Line} {g : FromGroups}
    (hg : __from_import_match l = some g) :
    g.indent = l.takeWhile isWS ∧
    ∃ rest, List.Sublist rest l ∧ g.items = itemsGroup rest ∧
      g.comment = commentGroup (rest.dropWhile (fun x => !(x == '#'))) ∧
      (g.module = [] ∨ ∀ c ∈ g.module, isWS c = false) := by
  obtain ⟨hpre, hind0, hcase⟩ := from_match_elim hg
  rcases hcase with ⟨c, rest, h1, hmodE, h3, h4, h5, h6, h7, h8, h9⟩ |
    ⟨hmodnil, h2, h3, c, rest, h4, h5, h6, h7, h8⟩
  · refine ⟨hind0, rest, h9, h7, h8, Or.inr ?_⟩
    intro c2 hc2
    rw [hmodE] at hc2
    simpa using List.mem_takeWhile_imp hc2
  · exact ⟨hind0, rest, h8, h6, h7, Or.inl hmodnil⟩

theorem sem_of_global {l : Line} {g : GlobalGroups}
    (hg : __global_import_match l = some g) :
    semStatement l = some (ImpKind.plain, none, _split_items g.items) := by
  have hgi : _is_global_import l = true := by
    simp only [_is_global_import, hg, Option.isSome_some]
  have hfut : _is_future_import l = false := global_not_future hgi
  simp only [semStatement]
  rw [hfut, if_neg (by simp), hgi, if_pos rfl]
  simp only [_split_globals, hg, Option.map_some']

theorem sem_of_from_future {l : Line} {g : FromGroups}
    (hg : __from_import_match l = some g) (hf : _is_future_import l = true) :
    semStatement l = some (ImpKind.future, some g.module, _split_items g.items) := by
  simp only [semStatement]
  rw [hf, if_pos rfl]
  simp only [_split_from, hg, Option.map_some']

theorem sem_of_from_only {l : Line} {g : FromGroups}
    (hg : __from_import_match l = some g) (hf : _is_future_import l = false) :
    semStatement l = some (ImpKind.fromImp, some g.module, _split_items g.items) := by
  have hfi : _is_from_import l = true := by
    simp only [_is_from_import, hg, Option.isSome_some]
  have hng : _is_global_import l = false := global_false_of_from hg
  simp only [semStatement]
  rw [hf, if_neg (by simp), hng, if_neg (by simp), hfi, if_pos rfl]
  simp only [_split_from, hg, Option.map_some']

theorem blank_kinds {l : Line} (hnil : l.dropWhile isWS = []) :
    _is_future_import l = false ∧ _is_global_import l = false ∧
      _is_from_import l = false := by
  refine ⟨?_, ?_, ?_⟩
  · simp only [_is_future_import, __future_import_match, hnil]
    rw [if_neg (show ¬(((("from").data : Line)).isPrefixOf [] = true) from by decide)]
    rfl
  · simp only [_is_global_import, __global_import_match, hnil]
    rw [if_neg (show ¬(((("import").data : Line)).isPrefixOf [] = true) from by
      decide)]
    rfl
  · simp only [_is_from_import, __from_import_match, hnil]
    rw [if_neg (show ¬(((("from").data : Line)).isPrefixOf [] = true) from by decide)]
    rfl

theorem boring_kinds {l : Line} (hb : _is_boring l = true) :
    _is_future_import l = false ∧ _is_global_import l = false ∧
      _is_from_import l = false := by
  cases hd : l.dropWhile isWS with
  | nil => exact blank_kinds hd
  | cons c t =>
    simp only [_is_boring, hd] at hb
    split at hb
    · next hc =>
      have hhead : (l.dropWhile isWS).head? = some '#' := by
        rw [hd]
        simp only [List.head?_cons]
        rw [beq_iff_eq.mp hc]
      exact ⟨by simp [_is_future_import, hash_not_future hhead],
        by simp [_is_global_import, hash_not_global hhead],
        by simp [_is_from_import, hash_not_from hhead]⟩
    · cases hb

theorem sem_none_of_boring {l : Line} (hb : _is_boring l = true) :
    semStatement l = none := by
  obtain ⟨h1, h2, h3⟩ := boring_kinds hb
  simp only [semStatement]
  rw [h1, if_neg (by simp), h2, if_neg (by simp), h3, if_neg (by simp)]

theorem blank_boring {l : Line} (hs : (strip l).isEmpty = true) :
    _is_boring l = true := by
  rcases dropWhile_shape isWS l with h | ⟨c, t, h, hc⟩
  · simp only [_is_boring, h]
  · exfalso
    have hst : strip l = rstrip (c :: t) := by
      unfold strip lstrip
      rw [h]
    rw [hst] at hs
    have hnil : rstrip (c :: t) = [] := by
      cases hx : rstrip (c :: t) with
      | nil => rfl
      | cons a b =>
        rw [hx] at hs
        cases hs
    unfold rstrip at hnil
    have h2 : (c :: t).reverse.dropWhile isWS = [] := by
      have h3 := congrArg List.reverse hnil
      rwa [List.reverse_reverse, List.reverse_nil] at h3
    have h3 : isWS c = true :=
      (List.dropWhile_eq_nil_iff.mp h2) c
        (List.mem_reverse.mpr (List.mem_cons_self _ _))
    rw [h3] at hc
    cases hc

theorem join_no_hash {raw : Line} (hr : ∀ c ∈ raw, (c == '#') = false) :
    ∀ c ∈ _sort_and_join (_split_items raw), (c == '#') = false := by
  intro c hc
  rcases sort_and_join_mem hc with rfl | rfl | ⟨x, hx, hcx⟩
  · decide
  · decide
  · exact hr c ((split_items_mem hx).1 hcx)

theorem itemsGroup_join_tail {raw ctail : Line}
    (hsh : (∀ c ∈ ctail, isWS c = true) ∨ ∃ b, ctail = ' ' :: '#' :: b)
    (hhash : ∀ c ∈ raw, (c == '#') = false) :
    ∃ wsTail, (∀ c ∈ wsTail, isWS c = true) ∧
      itemsGroup (raw ++ ctail) = raw ++ wsTail := by
  have hhash2 : ∀ c ∈ raw, (!(c == '#')) = true := by
    intro c hc
    rw [hhash c hc]
    rfl
  rcases hsh with hws | ⟨b, rfl⟩
  · refine ⟨ctail.takeWhile (fun x => !(x == '#')), ?_, ?_⟩
    · intro c hc
      exact hws c ((List.takeWhile_sublist _).subset hc)
    · unfold itemsGroup
      rw [takeWhile_append_all hhash2]
  · refine ⟨[' '], by decide, ?_⟩
    unfold itemsGroup
    rw [takeWhile_append_all hhash2, List.takeWhile_cons_of_pos (by decide),
      takeWhile_cons_false (by decide)]

theorem boring_of_not_import {l : Line} (hgm : __global_import_match l = none)
    (hfm : __from_import_match l = none)
    (hb : _is_boring l = true ∨ _is_unindented_import l = true) :
    _is_boring l = true := by
  rcases hb with h | h
  · exact h
  · exfalso
    rw [_is_unindented_import] at h
    simp [_is_global_import, _is_from_import, hgm, hfm] at h

theorem repair_boring_eq {l : Line} (hgm : __global_import_match l = none)
    (hfm : __from_import_match l = none) (hbl : _is_boring l = true) :
    _repair_any l = some l := by
  simp only [_repair_any]
  rw [show _is_global_import l = false from by simp [_is_global_import, hgm],
    if_neg (by simp),
    show _is_from_import l = false from by simp [_is_from_import, hfm],
    if_neg (by simp), hbl, if_pos rfl]

set_option maxHeartbeats 2000000 in
theorem sem_preserved {l r : Line} (hst : semStableLine l = true)
    (hr : _repair_any l = some r) : semStatement r = semStatement l := by
  simp only [semStableLine, Bool.and_eq_true] at hst
  obtain ⟨hparen0, hmod0⟩ := hst
  have hparen : ('(' : Char) ∉ l := by
    intro hm
    have h := List.all_eq_true.mp hparen0 '(' hm
    simp at h
  cases hgm : __global_import_match l with
  | some g =>
    obtain ⟨ctail, hre, hsh⟩ := repair_global_shape hgm hr
    obtain ⟨hpre, c, rest, hdrop, hws, hsub, hgeq⟩ := global_match_elim hgm
    have hind : g.indent = l.takeWhile isWS := by rw [hgeq]
    have hit : g.items = itemsGroup rest := by rw [hgeq]
    have hindAll : ∀ c2 ∈ g.indent, isWS c2 = true := by
      intro c2 hc2
      rw [hind] at hc2
      exact List.mem_takeWhile_imp hc2
    have hitNoHash : ∀ c2 ∈ g.items, (c2 == '#') = false := by
      intro c2 hc2
      rw [hit] at hc2
      exact itemsGroup_no_hash hc2
    have hitNoParen : ('(' : Char) ∉ g.items := by
      intro hm
      rw [hit] at hm
      exact hparen (hsub.subset ((List.takeWhile_sublist _).subset hm))
    obtain ⟨wsTail, hwsT, hig⟩ := itemsGroup_join_tail hsh (join_no_hash hitNoHash)
    have hgr : __global_import_match r = some ⟨g.indent,
        itemsGroup (_sort_and_join (_split_items g.items) ++ ctail),
        commentGroup ((_sort_and_join (_split_items g.items) ++ ctail).dropWhile
          (fun x => !(x == '#')))⟩ := by
      rw [hre]
      exact global_match_of_shape hindAll
    have key : _split_items (itemsGroup (_sort_and_join (_split_items g.items) ++
        ctail)) = _split_items g.items := by
      rw [hig]
      exact split_items_roundtrip hitNoParen hwsT
    rw [sem_of_global hgr, sem_of_global hgm]
    show some (ImpKind.plain, none,
      _split_items (itemsGroup (_sort_and_join (_split_items g.items) ++ ctail))) =
      some (ImpKind.plain, none, _split_items g.items)
    rw [key]
  | none =>
    cases hfm : __from_import_match l with
    | some g =>
      have hmodne : g.module ≠ [] := by
        rw [hfm] at hmod0
        have hmod1 : (!g.module.isEmpty) = true := hmod0
        intro hx
        rw [hx] at hmod1
        simp at hmod1
      obtain ⟨ctail, hre, hsh⟩ := repair_from_shape hfm hr
      obtain ⟨hind0, rest, hsub, hit, hcm, hmodalt⟩ := from_groups_facts hfm
      have hMall : ∀ c2 ∈ g.module, isWS c2 = false := by
        rcases hmodalt with h | h
        · exact absurd h hmodne
        · exact h
      have hindAll : ∀ c2 ∈ g.indent, isWS c2 = true := by
        intro c2 hc2
        rw [hind0] at hc2
        exact List.mem_takeWhile_imp hc2
      have hitNoHash : ∀ c2 ∈ g.items, (c2 == '#') = false := by
        intro c2 hc2
        rw [hit] at hc2
        exact itemsGroup_no_hash hc2
      have hitNoParen : ('(' : Char) ∉ g.items := by
        intro hm
        rw [hit] at hm
        exact hparen (hsub.subset ((List.takeWhile_sublist _).subset hm))
      obtain ⟨wsTail, hwsT, hig⟩ := itemsGroup_join_tail hsh
        (join_no_hash hitNoHash)
      have hfr : __from_import_match r = some ⟨g.indent, g.module,
          itemsGroup (_sort_and_join (_split_items g.items) ++ ctail),
          commentGroup ((_sort_and_join (_split_items g.items) ++ ctail).dropWhile
            (fun x => !(x == '#')))⟩ := by
        rw [hre]
        exact from_match_of_shape hindAll hMall hmodne
      have hfutiff_r0 := future_iff_module hfr
      have hfutiff_r : _is_future_import r = true ↔
          g.module = ("__future__").data := hfutiff_r0
      have key : _split_items (itemsGroup (_sort_and_join (_split_items g.items) ++
          ctail)) = _split_items g.items := by
        rw [hig]
        exact split_items_roundtrip hitNoParen hwsT
      cases hfl : _is_future_import l with
      | true =>
        have hmodlit := (future_iff_module hfm).mp hfl
        have hfr2 : _is_future_import r = true := hfutiff_r.mpr hmodlit
        rw [sem_of_from_future hfr hfr2, sem_of_from_future hfm hfl]
        show some (ImpKind.future, some g.module,
          _split_items (itemsGroup (_sort_and_join (_split_items g.items) ++
            ctail))) =
          some (ImpKind.future, some g.module, _split_items g.items)
        rw [key]
      | false =>
        have hmodne2 : g.module ≠ ("__future__").data := by
          intro hx
          have h2 := (future_iff_module hfm).mpr hx
          rw [h2] at hfl
          cases hfl
        have hfr2 : _is_future_import r = false := by
          cases hx : _is_future_import r with
          | false => rfl
          | true => exact absurd (hfutiff_r.mp hx) hmodne2
        rw [sem_of_from_only hfr hfr2, sem_of_from_only hfm hfl]
        show some (ImpKind.fromImp, some g.module,
          _split_items (itemsGroup (_sort_and_join (_split_items g.items) ++
            ctail))) =
          some (ImpKind.fromImp, some g.module, _split_items g.items)
        rw [key]
    | none =>
      by_cases hbl : _is_boring l = true
      · have heq := repair_boring_eq hgm hfm hbl
        rw [heq] at hr
        simp only [Option.some.injEq] at hr
        subst hr
        rfl
      · exfalso
        have hbf : _is_boring l = false := bool_eq_false_of_ne hbl
        simp only [_repair_any] at hr
        rw [show _is_global_import l = false from by
            simp [_is_global_import, hgm],
          if_neg (by simp),
          show _is_from_import l = false from by simp [_is_from_import, hfm],
          if_neg (by simp), hbf, if_neg (by simp)] at hr
        cases hr

theorem forall₂_map_snd :
    ∀ {xs : List Line} {ys : List ((Int × Line) × Line)},
      List.Forall₂ (fun x y =>
        (rank x).map (fun r => ((-(Int.ofNat r), upper x), x)) = some y) xs ys →
      ys.map (fun p => p.2) = xs := by
  intro xs ys h
  induction h with
  | nil => rfl
  | @cons x y xs2 ys2 hab htail ih =>
    simp only [List.map_cons, ih]
    cases hr : rank x with
    | none =>
      rw [hr] at hab
      cases hab
    | some r =>
      rw [hr] at hab
      simp only [Option.map_some', Option.some.injEq] at hab
      rw [← hab]

theorem filterMap_sem_of_repair :
    ∀ {xs ys : List Line},
      List.Forall₂ (fun x y => _repair_any x = some y) xs ys →
      (∀ x ∈ xs, semStableLine x = true) →
      ys.filterMap semStatement = xs.filterMap semStatement := by
  intro xs ys h
  induction h with
  | nil => intro _; rfl
  | @cons x y xs2 ys2 hab htail ih =>
    intro hst
    rw [List.filterMap_cons, List.filterMap_cons,
      sem_preserved (hst x (List.mem_cons_self _ _)) hab,
      ih (fun z hz => hst z (List.mem_cons_of_mem _ hz))]

theorem filterMap_filter_none {p : Line → Bool}
    (hp : ∀ l, p l = false → semStatement l = none) (bl : List Line) :
    (bl.filter p).filterMap semStatement = bl.filterMap semStatement := by
  induction bl with
  | nil => rfl
  | cons a t ih =>
    cases hpa : p a with
    | false =>
      rw [List.filter_cons, hpa]
      simp only [Bool.false_eq_true, if_false]
      rw [ih, List.filterMap_cons, hp a hpa]
    | true =>
      rw [List.filter_cons, hpa]
      rw [if_pos rfl]
      rw [List.filterMap_cons, List.filterMap_cons, ih]

/-! ## Last-character analysis: the endline suffix of a rendered line -/

theorem getLast_mem : ∀ {l : Line} {a : Char}, l.getLast? = some a → a ∈ l := by
  intro l
  induction l with
  | nil =>
    intro a h
    cases h
  | cons x xs ih =>
    intro a h
    cases xs with
    | nil =>
      have h2 : some x = some a := h
      injection h2 with h3
      rw [← h3]
      exact List.mem_cons_self _ _
    | cons y ys =>
      rw [List.getLast?_cons_cons] at h
      exact List.mem_cons_of_mem _ (ih h)

theorem getLast_cons_ne_none :
    ∀ {t : Line} {b : Char}, (b :: t).getLast? = none → False := by
  intro t
  induction t with
  | nil =>
    intro b h
    cases h
  | cons c t2 ih =>
    intro b h
    rw [List.getLast?_cons_cons] at h
    exact ih h

theorem getLast_append_ne {A B : Line} (h : B ≠ []) :
    (A ++ B).getLast? = B.getLast? := by
  cases B with
  | nil => exact absurd rfl h
  | cons b t =>
    rw [List.getLast?_append]
    cases hb : (b :: t).getLast? with
    | none => exact (getLast_cons_ne_none hb).elim
    | some x => rfl

theorem strip_getLast_not_ws {y : Line} {c : Char}
    (h : (strip y).getLast? = some c) : isWS c = false := by
  have h2 : (rstrip (y.dropWhile isWS)).getLast? = some c := h
  unfold rstrip at h2
  rw [List.getLast?_reverse] at h2
  rcases dropWhile_shape isWS ((y.dropWhile isWS).reverse) with h3 | ⟨c2, t2, h3, hc2⟩
  · rw [h3] at h2
    cases h2
  · rw [h3] at h2
    simp only [List.head?_cons, Option.some.injEq] at h2
    rw [← h2]
    exact hc2

theorem join_last_not_nl :
    ∀ {S : List Line}, (∀ x ∈ S, strip x = x) → ∀ {c : Char},
      (List.intercalate [',', ' '] S).getLast? = some c → (c == '\n') = false := by
  intro S
  induction S with
  | nil =>
    intro _ c h
    simp [List.intercalate] at h
  | cons x S2 ih =>
    intro hsf c h
    cases S2 with
    | nil =>
      rw [intercalate_one] at h
      have hx : strip x = x := hsf x (List.mem_cons_self _ _)
      have hws : isWS c = false := strip_getLast_not_ws (by rw [hx]; exact h)
      cases hb : c == '\n' with
      | false => rfl
      | true =>
        rw [beq_iff_eq.mp hb] at hws
        cases hws
    | cons y t =>
      rw [intercalate_two] at h
      rw [List.append_assoc] at h
      rw [getLast_append_ne (by simp)] at h
      by_cases hI : List.intercalate [',', ' '] (y :: t) = []
      · rw [hI] at h
        have h2 : some ' ' = some c := h
        injection h2 with h3
        rw [← h3]
        rfl
      · rw [show ([',', ' '] : Line) ++ List.intercalate [',', ' '] (y :: t) =
            [','] ++ (' ' :: List.intercalate [',', ' '] (y :: t)) from by simp] at h
        rw [getLast_append_ne (by simp)] at h
        cases hI2 : List.intercalate [',', ' '] (y :: t) with
        | nil => exact absurd hI2 hI
        | cons z zs =>
          rw [hI2, List.getLast?_cons_cons] at h
          rw [← hI2] at h
          exact ih (fun w hw => hsf w (List.mem_cons_of_mem _ hw)) h

theorem commentGroup_body_no_nl {X b : Line} (h : commentGroup X = '#' :: b) :
    ∀ c ∈ b, (c == '\n') = false := by
  intro c hc
  cases X with
  | nil => cases h
  | cons d t =>
    simp only [commentGroup] at h
    split at h
    · injection h with h1 h2
      rw [← h2] at hc
      have h3 := List.mem_takeWhile_imp hc
      simpa using h3
    · cases h

theorem endl_suffix_concat_nl (X : Line) :
    __endl_suffix (X ++ ['\n']) = ['\n'] := by
  unfold __endl_suffix
  rw [List.getLast?_concat]
  rfl

theorem endl_suffix_eq_nil_of_last {Y : Line}
    (h : ∀ c, Y.getLast? = some c → (c == '\n') = false) :
    __endl_suffix Y = [] := by
  unfold __endl_suffix
  cases hY : Y.getLast? with
  | none => rfl
  | some c =>
    show (if (c == '\n') = true then ['\n'] else ([] : Line)) = []
    rw [h c hY]
    rfl

theorem repair_isSome_of_ok {l : Line} (hp : ('%' : Char) ∉ l)
    (hb : _is_boring l = true ∨ _is_unindented_import l = true) :
    (_repair_any l).isSome = true := by
  cases hgm : __global_import_match l with
  | some g =>
    rw [repair_global_eq hgm hp]
    rfl
  | none =>
    cases hfm : __from_import_match l with
    | some g =>
      rw [repair_from_eq hfm hp]
      rfl
    | none =>
      rw [repair_boring_eq hgm hfm (boring_of_not_import hgm hfm hb)]
      rfl

theorem rank_isSome_of_repaired {l r : Line} (hp : ('%' : Char) ∉ l)
    (hb : _is_boring l = true ∨ _is_unindented_import l = true)
    (hr : _repair_any l = some r) : (rank r).isSome = true := by
  cases hgm : __global_import_match l with
  | some g =>
    rw [repair_global_eq hgm hp] at hr
    simp only [Option.some.injEq] at hr
    subst hr
    obtain ⟨hpre, c, rest, hdrop, hws, hsub, hgeq⟩ := global_match_elim hgm
    have hind : g.indent = l.takeWhile isWS := by rw [hgeq]
    have hindAll : ∀ c2 ∈ g.indent, isWS c2 = true := by
      intro c2 hc2
      rw [hind] at hc2
      exact List.mem_takeWhile_imp hc2
    have hgr : _is_global_import (g.indent ++ ("import ").data ++
        (_sort_and_join (_split_items g.items) ++
          ((if g.comment.isEmpty then [] else ' ' :: g.comment) ++
            __endl_suffix l))) = true := by
      simp only [_is_global_import, global_match_of_shape hindAll, Option.isSome_some]
    rw [rank_of_global hgr]
    rfl
  | none =>
    cases hfm : __from_import_match l with
    | some g =>
      rw [repair_from_eq hfm hp] at hr
      simp only [Option.some.injEq] at hr
      subst hr
      obtain ⟨hpre, hind0, hcase⟩ := from_match_elim hfm
      have hindAll : ∀ c2 ∈ g.indent, isWS c2 = true := by
        intro c2 hc2
        rw [hind0] at hc2
        exact List.mem_takeWhile_imp hc2
      have hfr : _is_from_import (g.indent ++ ("from ").data ++ g.module ++
          (" import ").data ++
          (_sort_and_join (_split_items g.items) ++
            ((if g.comment.isEmpty then [] else ' ' :: g.comment) ++
              __endl_suffix l))) = true := by
        by_cases hmod : g.module = []
        · simp only [_is_from_import]
          rw [hmod, List.append_nil]
          exact from_match_isSome_of_shape_empty hindAll
        · have hMall : ∀ c2 ∈ g.module, isWS c2 = false := by
            rcases hcase with ⟨c3, rest3, h1, hmodE, hrest⟩ | ⟨hmodnil, hrest⟩
            · intro c2 hc2
              rw [hmodE] at hc2
              simpa using List.mem_takeWhile_imp hc2
            · exact absurd hmodnil hmod
          simp only [_is_from_import, from_match_of_shape hindAll hMall hmod,
            Option.isSome_some]
      have hgrf : _is_global_import (g.indent ++ ("from ").data ++ g.module ++
          (" import ").data ++
          (_sort_and_join (_split_items g.items) ++
            ((if g.comment.isEmpty then [] else ' ' :: g.comment) ++
              __endl_suffix l))) = false := by
        obtain ⟨g2, hg2⟩ := Option.isSome_iff_exists.mp hfr
        exact global_false_of_from hg2
      cases hfut : _is_future_import (g.indent ++ ("from ").data ++ g.module ++
          (" import ").data ++
          (_sort_and_join (_split_items g.items) ++
            ((if g.comment.isEmpty then [] else ' ' :: g.comment) ++
              __endl_suffix l))) with
      | true =>
        rw [rank_of_future hfut]
        rfl
      | false =>
        rw [rank_of_from_only hfr hfut]
        rfl
    | none =>
      have hbl : _is_boring l = true := boring_of_not_import hgm hfm hb
      rw [repair_boring_eq hgm hfm hbl] at hr
      simp only [Option.some.injEq] at hr
      subst hr
      cases hf2 : _is_future_import l with
      | true =>
        rw [rank_of_future hf2]
        rfl
      | false =>
        unfold rank
        rw [hf2, if_neg (by simp),
          show _is_global_import l = false from by simp [_is_global_import, hgm],
          if_neg (by simp),
          show _is_from_import l = false from by simp [_is_from_import, hfm],
          if_neg (by simp), hbl, if_pos rfl]
        rfl

theorem mapM_isSome {α β : Type} {f : α → Option β} :
    ∀ {ls : List α}, (∀ x ∈ ls, (f x).isSome = true) →
      (ls.mapM f).isSome = true := by
  intro ls
  induction ls with
  | nil => intro _; rfl
  | cons a as ih =>
    intro h
    rw [List.mapM_cons]
    obtain ⟨b, hb⟩ := Option.isSome_iff_exists.mp (h a (List.mem_cons_self a as))
    obtain ⟨bs, hbs⟩ := Option.isSome_iff_exists.mp
      (ih fun x hx => h x (List.mem_cons_of_mem _ hx))
    rw [hb, hbs]
    rfl

theorem fixed_isSome {bl : List Line}
    (hok : ∀ l ∈ bl, _is_boring l = true ∨ _is_unindented_import l = true)
    (hperc : ∀ l ∈ bl, ('%' : Char) ∉ l) :
    (_fixed bl).isSome = true := by
  have hkept : ∀ l ∈ bl.filter (fun l => !(strip l).isEmpty), l ∈ bl :=
    fun l hl => (List.mem_filter.mp hl).1
  obtain ⟨repaired, hrep⟩ := Option.isSome_iff_exists.mp
    (@mapM_isSome Line Line _repair_any
      (bl.filter (fun l => !(strip l).isEmpty))
      (fun x hx => repair_isSome_of_ok (hperc x (hkept x hx)) (hok x (hkept x hx))))
  have hrank : ∀ r ∈ repaired, (rank r).isSome = true := by
    intro r hrmem
    obtain ⟨x, hx, hxr⟩ := forall₂_mem_right (mapM_eq_some_iff.mp hrep) hrmem
    exact rank_isSome_of_repaired (hperc x (hkept x hx)) (hok x (hkept x hx)) hxr
  obtain ⟨pairs, hpairs⟩ := Option.isSome_iff_exists.mp
    (@mapM_isSome Line ((Int × Line) × Line) (fun x => (rank x).map
        (fun r => ((-(Int.ofNat r), upper x), x)))
      repaired
      (fun x hx => by rw [Option.isSome_map']; exact hrank x hx))
  simp only [_fixed, bind, hrep, Option.some_bind, hpairs]
  rfl

/-! ## Structure of `_fixed` -/

theorem fixed_elim {bl out : List Line} (h : _fixed bl = some out) :
    ∃ repaired pairs,
      (bl.filter (fun l => !(strip l).isEmpty)).mapM _repair_any = some repaired ∧
      repaired.mapM
        (fun x => (rank x).map (fun r => ((-(Int.ofNat r), upper x), x))) = some pairs ∧
      out = (pairs.insertionSort fixRel).map (·.2) := by
  simp only [_fixed, bind, Option.bind_eq_some, pure, Option.some.injEq] at h
  obtain ⟨repaired, h1, pairs, h2, hout⟩ := h
  exact ⟨repaired, pairs, h1, h2, hout.symm⟩

/-- Every pair produced in `_fixed` carries the key computed from its own
line. -/
theorem pairs_coherent {repaired : List Line} {pairs : List ((Int × Line) × Line)}
    (h2 : repaired.mapM
      (fun x => (rank x).map (fun r => ((-(Int.ofNat r), upper x), x))) = some pairs) :
    ∀ p ∈ pairs, ∃ r, rank p.2 = some r ∧ p.1 = (-(Int.ofNat r), upper p.2) := by
  intro p hp
  obtain ⟨x, _, hx⟩ := forall₂_mem_right (mapM_eq_some_iff.mp h2) hp
  cases hr : rank x with
  | none => rw [hr] at hx; cases hx
  | some r =>
    rw [hr] at hx
    simp only [Option.map_some', Option.some.injEq] at hx
    subst hx
    exact ⟨r, hr, rfl⟩

/-! ## Idempotence of the repair step on tame lines -/

theorem endl_suffix_cases (l : Line) :
    __endl_suffix l = [] ∨ __endl_suffix l = ['\n'] := by
  unfold __endl_suffix
  split
  · exact Or.inl rfl
  · split
    · exact Or.inr rfl
    · exact Or.inl rfl

theorem percent_not_mem_join {raw : Line} (h : ('%' : Char) ∉ raw) :
    ('%' : Char) ∉ _sort_and_join (_split_items raw) := by
  intro hc
  rcases sort_and_join_mem hc with h1 | h1 | ⟨x, hx, hcx⟩
  · exact absurd h1 (by decide)
  · exact absurd h1 (by decide)
  · exact h ((split_items_mem hx).1 hcx)

theorem cpart_facts {X comment : Line} (hcm : comment = commentGroup X) :
    (comment = [] ∧ (if comment.isEmpty then ([] : Line) else ' ' :: comment) = []) ∨
    (∃ cb, comment = '#' :: cb ∧
      (if comment.isEmpty then ([] : Line) else ' ' :: comment) = ' ' :: '#' :: cb ∧
      ∀ c ∈ cb, (c == '\n') = false) := by
  rcases commentGroup_shape X with h0 | ⟨b, h0⟩
  · left
    have hc0 : comment = [] := by rw [hcm, h0]
    refine ⟨hc0, ?_⟩
    rw [hc0]
    rfl
  · right
    have hc0 : comment = '#' :: b := by rw [hcm, h0]
    refine ⟨b, hc0, ?_, ?_⟩
    · rw [hc0]
      rfl
    · intro c hc
      rw [hcm] at hc0
      exact commentGroup_body_no_nl hc0 c hc

theorem commentGroup_render {join cpart suffix comment : Line}
    (hjoinH : ∀ c ∈ join, (c == '#') = false)
    (hsuf : suffix = [] ∨ suffix = ['\n'])
    (hcp : (comment = [] ∧ cpart = []) ∨
      (∃ cb, comment = '#' :: cb ∧ cpart = ' ' :: '#' :: cb ∧
        ∀ c ∈ cb, (c == '\n') = false)) :
    commentGroup ((join ++ (cpart ++ suffix)).dropWhile (fun x => !(x == '#'))) =
      comment := by
  have hjall : ∀ c ∈ join, (!(c == '#')) = true := by
    intro c hc
    rw [hjoinH c hc]
    rfl
  rcases hcp with ⟨hc0, hcp0⟩ | ⟨cb, hc0, hcp0, hcb⟩
  · subst hc0
    subst hcp0
    have hall : ∀ c ∈ join ++ (([] : Line) ++ suffix), (!(c == '#')) = true := by
      intro c hc
      rcases List.mem_append.mp hc with h | h
      · exact hjall c h
      · rcases hsuf with rfl | rfl
        · simp at h
        · have hcn : c = '\n' := by simpa using h
          subst hcn
          decide
    rw [show (join ++ (([] : Line) ++ suffix)).dropWhile (fun x => !(x == '#')) = []
      from List.dropWhile_eq_nil_iff.mpr hall]
    rfl
  · subst hc0
    subst hcp0
    rw [show join ++ ((' ' :: '#' :: cb) ++ suffix) =
        join ++ (' ' :: '#' :: (cb ++ suffix)) from by simp]
    rw [dropWhile_append_all hjall, List.dropWhile_cons_of_pos (by decide),
      dropWhile_cons_false (by decide)]
    simp only [commentGroup]
    rw [if_pos (by decide)]
    have hcball : ∀ c ∈ cb, (!(c == '\n')) = true := by
      intro c hc
      rw [hcb c hc]
      rfl
    rw [takeWhile_append_all hcball]
    rcases hsuf with rfl | rfl
    · simp
    · rw [takeWhile_cons_false (by decide)]
      simp

theorem sort_and_join_last_not_nl {raw : Line} {c : Char}
    (hc : (_sort_and_join (_split_items raw)).getLast? = some c) :
    (c == '\n') = false := by
  have he : _sort_and_join (_split_items raw) =
      List.intercalate [',', ' '] (_split_items raw) := by
    unfold _sort_and_join
    rw [sorted_items_of_split_items]
  rw [he] at hc
  exact join_last_not_nl (fun x hx => (split_items_mem hx).2.1) hc

theorem endl_suffix_render {A join cpart suffix : Line}
    (hA : A.getLast? = some ' ')
    (hjoin : ∀ c, join.getLast? = some c → (c == '\n') = false)
    (hcp : cpart = [] ∨ ∃ cb, cpart = ' ' :: '#' :: cb ∧
      ∀ c ∈ cb, (c == '\n') = false)
    (hsuf : suffix = [] ∨ suffix = ['\n']) :
    __endl_suffix (A ++ (join ++ (cpart ++ suffix))) = suffix := by
  rcases hsuf with rfl | rfl
  · apply endl_suffix_eq_nil_of_last
    intro c hc
    rcases hcp with rfl | ⟨cb, rfl, hcb⟩
    · rw [show A ++ (join ++ (([] : Line) ++ [])) = A ++ join from by simp] at hc
      by_cases hj : join = []
      · rw [hj, List.append_nil, hA] at hc
        have hc3 : ' ' = c := by injection hc
        rw [← hc3]
        decide
      · rw [getLast_append_ne hj] at hc
        exact hjoin c hc
    · rw [show A ++ (join ++ ((' ' :: '#' :: cb) ++ [])) =
          (A ++ join) ++ (' ' :: '#' :: cb) from by simp] at hc
      rw [getLast_append_ne (by simp)] at hc
      have hmem := getLast_mem hc
      rcases List.mem_cons.mp hmem with rfl | hm2
      · decide
      · rcases List.mem_cons.mp hm2 with rfl | hm3
        · decide
        · exact hcb c hm3
  · rw [show A ++ (join ++ (cpart ++ ['\n'])) = (A ++ (join ++ cpart)) ++ ['\n']
      from by simp]
    exact endl_suffix_concat_nl _

theorem percent_not_mem_render {A join cpart suffix : Line}
    (hA : ('%' : Char) ∉ A) (hj : ('%' : Char) ∉ join) (hcp : ('%' : Char) ∉ cpart)
    (hsuf : ∀ c ∈ suffix, isWS c = true) :
    ('%' : Char) ∉ A ++ (join ++ (cpart ++ suffix)) := by
  intro hm
  rcases List.mem_append.mp hm with h | h
  · exact hA h
  rcases List.mem_append.mp h with h2 | h2
  · exact hj h2
  rcases List.mem_append.mp h2 with h3 | h3
  · exact hcp h3
  · exact absurd (hsuf '%' h3) (by decide)

set_option maxHeartbeats 4000000 in
/-- A tame line, once repaired, is a fixed point of the repair step: the
rendered text re-parses to the same groups and renders to itself. -/
theorem repair_idem {l r : Line} (ht : tameLine l = true)
    (hr : _repair_any l = some r) : _repair_any r = some r := by
  simp only [tameLine, Bool.and_eq_true] at ht
  obtain ⟨hall, hmod0⟩ := ht
  have hperc : ('%' : Char) ∉ l := by
    intro hm
    have h := List.all_eq_true.mp hall '%' hm
    simp at h
  have hparen : ('(' : Char) ∉ l := by
    intro hm
    have h := List.all_eq_true.mp hall '(' hm
    simp at h
  cases hgm : __global_import_match l with
  | some g =>
    have hval := repair_global_eq hgm hperc
    rw [hval] at hr
    simp only [Option.some.injEq] at hr
    obtain ⟨hpre, c, rest, hdrop, hws, hsub, hgeq⟩ := global_match_elim hgm
    have hind : g.indent = l.takeWhile isWS := by rw [hgeq]
    have hit : g.items = itemsGroup rest := by rw [hgeq]
    have hcm : g.comment = commentGroup (rest.dropWhile (fun x => !(x == '#'))) := by
      rw [hgeq]
    have hindAll : ∀ c2 ∈ g.indent, isWS c2 = true := by
      intro c2 hc2
      rw [hind] at hc2
      exact List.mem_takeWhile_imp hc2
    have hitNoHash : ∀ c2 ∈ g.items, (c2 == '#') = false := by
      intro c2 hc2
      rw [hit] at hc2
      exact itemsGroup_no_hash hc2
    have hitNoParen : ('(' : Char) ∉ g.items := by
      intro hm
      rw [hit] at hm
      exact hparen (hsub.subset ((List.takeWhile_sublist _).subset hm))
    have hitNoPerc : ('%' : Char) ∉ g.items := by
      intro hm
      rw [hit] at hm
      exact hperc (hsub.subset ((List.takeWhile_sublist _).subset hm))
    have hcomP : ('%' : Char) ∉ g.comment := by
      rw [hcm]
      exact comment_percent_free hsub hperc
    have hjH := join_no_hash hitNoHash
    have hcpFacts := cpart_facts hcm
    have hsufC := endl_suffix_cases l
    have hcp2 : (if g.comment.isEmpty then ([] : Line) else ' ' :: g.comment) = [] ∨
        ∃ cb, (if g.comment.isEmpty then ([] : Line) else ' ' :: g.comment) =
          ' ' :: '#' :: cb ∧ ∀ c2 ∈ cb, (c2 == '\n') = false := by
      rcases hcpFacts with ⟨h1, h2⟩ | ⟨cb, h1, h2, h3⟩
      · exact Or.inl h2
      · exact Or.inr ⟨cb, h2, h3⟩
    have hA : (g.indent ++ ("import ").data).getLast? = some ' ' := by
      rw [getLast_append_ne (by decide)]
      decide
    have hAperc : ('%' : Char) ∉ g.indent ++ ("import ").data := by
      intro hm
      rcases List.mem_append.mp hm with h | h
      · rw [hind] at h
        have := List.mem_takeWhile_imp h
        revert this
        decide
      · exact absurd h (by decide)
    obtain ⟨g2, hgr, hg2ind, hg2it, hg2cm⟩ :
        ∃ g2 : GlobalGroups, __global_import_match r = some g2 ∧
          g2.indent = g.indent ∧
          g2.items = itemsGroup (_sort_and_join (_split_items g.items) ++
            ((if g.comment.isEmpty then [] else ' ' :: g.comment) ++
              __endl_suffix l)) ∧
          g2.comment = commentGroup ((_sort_and_join (_split_items g.items) ++
            ((if g.comment.isEmpty then [] else ' ' :: g.comment) ++
              __endl_suffix l)).dropWhile (fun x => !(x == '#'))) := by
      refine ⟨⟨g.indent, itemsGroup (_sort_and_join (_split_items g.items) ++
          ((if g.comment.isEmpty then [] else ' ' :: g.comment) ++
            __endl_suffix l)),
        commentGroup ((_sort_and_join (_split_items g.items) ++
          ((if g.comment.isEmpty then [] else ' ' :: g.comment) ++
            __endl_suffix l)).dropWhile (fun x => !(x == '#')))⟩, ?_, rfl, rfl, rfl⟩
      rw [← hr]
      exact global_match_of_shape hindAll
    have hpercR : ('%' : Char) ∉ r := by
      rw [← hr]
      exact percent_not_mem_render hAperc (percent_not_mem_join hitNoPerc)
        (cpart_percent_free hcomP) (endl_suffix_ws l)
    have hsh : (∀ c2 ∈ (if g.comment.isEmpty then ([] : Line) else
        ' ' :: g.comment) ++ __endl_suffix l, isWS c2 = true) ∨
        ∃ b, (if g.comment.isEmpty then ([] : Line) else ' ' :: g.comment) ++
          __endl_suffix l = ' ' :: '#' :: b := by
      rcases hcpFacts with ⟨h1, h2⟩ | ⟨cb, h1, h2, h3⟩
      · left
        intro c2 hc2
        rw [h2] at hc2
        simp only [List.nil_append] at hc2
        exact endl_suffix_ws l c2 hc2
      · right
        refine ⟨cb ++ __endl_suffix l, ?_⟩
        rw [h2]
        simp
    obtain ⟨wsTail, hwsT, hig⟩ := itemsGroup_join_tail hsh hjH
    have key : _split_items (itemsGroup (_sort_and_join (_split_items g.items) ++
        ((if g.comment.isEmpty then [] else ' ' :: g.comment) ++
          __endl_suffix l))) = _split_items g.items := by
      rw [hig]
      exact split_items_roundtrip hitNoParen hwsT
    have hcg : commentGroup ((_sort_and_join (_split_items g.items) ++
        ((if g.comment.isEmpty then [] else ' ' :: g.comment) ++
          __endl_suffix l)).dropWhile (fun x => !(x == '#'))) = g.comment :=
      commentGroup_render hjH hsufC hcpFacts
    have hsfx : __endl_suffix r = __endl_suffix l := by
      rw [← hr]
      exact endl_suffix_render hA (fun c2 hc2 => sort_and_join_last_not_nl hc2)
        hcp2 hsufC
    have hval2 := repair_global_eq hgr hpercR
    rw [hg2ind, hg2it, hg2cm] at hval2
    rw [congrArg _sort_and_join key, hcg, hsfx] at hval2
    exact hval2.trans (congrArg Option.some hr)
  | none =>
    cases hfm : __from_import_match l with
    | some g =>
      have hmodne : g.module ≠ [] := by
        rw [hfm] at hmod0
        have hmod1 : (!g.module.isEmpty) = true := hmod0
        intro hx
        rw [hx] at hmod1
        simp at hmod1
      have hval := repair_from_eq hfm hperc
      rw [hval] at hr
      simp only [Option.some.injEq] at hr
      obtain ⟨hpre, hind0, hcase⟩ := from_match_elim hfm
      have hfacts : g.module =
          (((l.dropWhile isWS).drop 4).dropWhile isWS).takeWhile
            (fun x => !(isWS x)) ∧
          ∃ rest, List.Sublist rest l ∧ g.items = itemsGroup rest ∧
            g.comment = commentGroup (rest.dropWhile (fun x => !(x == '#'))) := by
        rcases hcase with ⟨c, rest, h1, h2, h3, h4, h5, h6, h7, h8, h9⟩ |
          ⟨h1, h2, h3, c, rest, h4, h5, h6, h7, h8⟩
        · exact ⟨h2, rest, h9, h7, h8⟩
        · exact absurd h1 hmodne
      obtain ⟨hmodE, rest, hsub, hit, hcm⟩ := hfacts
      have hMall : ∀ c2 ∈ g.module, isWS c2 = false := by
        intro c2 hc2
        rw [hmodE] at hc2
        simpa using List.mem_takeWhile_imp hc2
      have hmsub : List.Sublist g.module l := by
        rw [hmodE]
        exact (List.takeWhile_sublist _).trans ((List.dropWhile_sublist _).trans
          ((List.drop_sublist _ _).trans (List.dropWhile_sublist _)))
      have hindAll : ∀ c2 ∈ g.indent, isWS c2 = true := by
        intro c2 hc2
        rw [hind0] at hc2
        exact List.mem_takeWhile_imp hc2
      have hitNoHash : ∀ c2 ∈ g.items, (c2 == '#') = false := by
        intro c2 hc2
        rw [hit] at hc2
        exact itemsGroup_no_hash hc2
      have hitNoParen : ('(' : Char) ∉ g.items := by
        intro hm
        rw [hit] at hm
        exact hparen (hsub.subset ((List.takeWhile_sublist _).subset hm))
      have hitNoPerc : ('%' : Char) ∉ g.items := by
        intro hm
        rw [hit] at hm
        exact hperc (hsub.subset ((List.takeWhile_sublist _).subset hm))
      have hcomP : ('%' : Char) ∉ g.comment := by
        rw [hcm]
        exact comment_percent_free hsub hperc
      have hjH := join_no_hash hitNoHash
      have hcpFacts := cpart_facts hcm
      have hsufC := endl_suffix_cases l
      have hcp2 : (if g.comment.isEmpty then ([] : Line) else ' ' :: g.comment) =
          [] ∨
          ∃ cb, (if g.comment.isEmpty then ([] : Line) else ' ' :: g.comment) =
            ' ' :: '#' :: cb ∧ ∀ c2 ∈ cb, (c2 == '\n') = false := by
        rcases hcpFacts with ⟨h1, h2⟩ | ⟨cb, h1, h2, h3⟩
        · exact Or.inl h2
        · exact Or.inr ⟨cb, h2, h3⟩
      have hA : (g.indent ++ ("from ").data ++ g.module ++
          (" import ").data).getLast? = some ' ' := by
        rw [getLast_append_ne (by decide)]
        decide
      have hAperc : ('%' : Char) ∉ g.indent ++ ("from ").data ++ g.module ++
          (" import ").data := by
        intro hm
        rcases List.mem_append.mp hm with h | h
        · rcases List.mem_append.mp h with h2 | h2
          · rcases List.mem_append.mp h2 with h3 | h3
            · rw [hind0] at h3
              have := List.mem_takeWhile_imp h3
              revert this
              decide
            · exact absurd h3 (by decide)
          · exact hperc (hmsub.subset h2)
        · exact absurd h (by decide)
      obtain ⟨g2, hfr, hg2ind, hg2mod, hg2it, hg2cm⟩ :
          ∃ g2 : FromGroups, __from_import_match r = some g2 ∧
            g2.indent = g.indent ∧ g2.module = g.module ∧
            g2.items = itemsGroup (_sort_and_join (_split_items g.items) ++
              ((if g.comment.isEmpty then [] else ' ' :: g.comment) ++
                __endl_suffix l)) ∧
            g2.comment = commentGroup ((_sort_and_join (_split_items g.items) ++
              ((if g.comment.isEmpty then [] else ' ' :: g.comment) ++
                __endl_suffix l)).dropWhile (fun x => !(x == '#'))) := by
        refine ⟨⟨g.indent, g.module,
          itemsGroup (_sort_and_join (_split_items g.items) ++
            ((if g.comment.isEmpty then [] else ' ' :: g.comment) ++
              __endl_suffix l)),
          commentGroup ((_sort_and_join (_split_items g.items) ++
            ((if g.comment.isEmpty then [] else ' ' :: g.comment) ++
              __endl_suffix l)).dropWhile (fun x => !(x == '#')))⟩,
          ?_, rfl, rfl, rfl, rfl⟩
        rw [← hr]
        exact from_match_of_shape hindAll hMall hmodne
      have hpercR : ('%' : Char) ∉ r := by
        rw [← hr]
        exact percent_not_mem_render hAperc (percent_not_mem_join hitNoPerc)
          (cpart_percent_free hcomP) (endl_suffix_ws l)
      have hsh : (∀ c2 ∈ (if g.comment.isEmpty then ([] : Line) else
          ' ' :: g.comment) ++ __endl_suffix l, isWS c2 = true) ∨
          ∃ b, (if g.comment.isEmpty then ([] : Line) else ' ' :: g.comment) ++
            __endl_suffix l = ' ' :: '#' :: b := by
        rcases hcpFacts with ⟨h1, h2⟩ | ⟨cb, h1, h2, h3⟩
        · left
          intro c2 hc2
          rw [h2] at hc2
          simp only [List.nil_append] at hc2
          exact endl_suffix_ws l c2 hc2
        · right
          refine ⟨cb ++ __endl_suffix l, ?_⟩
          rw [h2]
          simp
      obtain ⟨wsTail, hwsT, hig⟩ := itemsGroup_join_tail hsh hjH
      have key : _split_items (itemsGroup (_sort_and_join (_split_items g.items) ++
          ((if g.comment.isEmpty then [] else ' ' :: g.comment) ++
            __endl_suffix l))) = _split_items g.items := by
        rw [hig]
        exact split_items_roundtrip hitNoParen hwsT
      have hcg : commentGroup ((_sort_and_join (_split_items g.items) ++
          ((if g.comment.isEmpty then [] else ' ' :: g.comment) ++
            __endl_suffix l)).dropWhile (fun x => !(x == '#'))) = g.comment :=
        commentGroup_render hjH hsufC hcpFacts
      have hsfx : __endl_suffix r = __endl_suffix l := by
        rw [← hr]
        exact endl_suffix_render hA (fun c2 hc2 => sort_and_join_last_not_nl hc2)
          hcp2 hsufC
      have hval2 := repair_from_eq hfr hpercR
      rw [hg2ind, hg2mod, hg2it, hg2cm] at hval2
      rw [congrArg _sort_and_join key, hcg, hsfx] at hval2
      exact hval2.trans (congrArg Option.some hr)
    | none =>
      by_cases hbl : _is_boring l = true
      · have heq := repair_boring_eq hgm hfm hbl
        rw [heq] at hr
        simp only [Option.some.injEq] at hr
        subst hr
        exact heq
      · exfalso
        have hbf : _is_boring l = false := bool_eq_false_of_ne hbl
        simp only [_repair_any] at hr
        rw [show _is_global_import l = false from by
            simp [_is_global_import, hgm],
          if_neg (by simp),
          show _is_from_import l = false from by simp [_is_from_import, hfm],
          if_neg (by simp), hbf, if_neg (by simp)] at hr
        cases hr

/-! ## Fixed points of the block normalizer -/

theorem mapM_map_section {α β : Type} {f : β → Option α} {g : α → β} :
    ∀ {L : List α}, (∀ p ∈ L, f (g p) = some p) → (L.map g).mapM f = some L := by
  intro L
  induction L with
  | nil =>
    intro _
    exact mapM_eq_some_iff.mpr List.Forall₂.nil
  | cons a as ih =>
    intro h
    exact mapM_eq_some_iff.mpr (List.Forall₂.cons (h a (List.mem_cons_self _ _))
      (mapM_eq_some_iff.mp (ih fun x hx => h x (List.mem_cons_of_mem _ hx))))

/-- Classification of a successfully repaired line: either it is a rendered,
unindented import line with a positive rank, or the input line was boring and
is returned unchanged with rank `0`. -/
theorem repaired_classify {l r : Line} (hperc : ('%' : Char) ∉ l)
    (hok : _is_boring l = true ∨ _is_unindented_import l = true)
    (hr : _repair_any l = some r) :
    (_is_unindented_import r = true ∧ ∃ k, rank r = some k ∧ 1 ≤ k) ∨
    (r = l ∧ _is_boring r = true ∧ rank r = some 0) := by
  cases hgm : __global_import_match l with
  | some g =>
    left
    rw [repair_global_eq hgm hperc] at hr
    simp only [Option.some.injEq] at hr
    have hgi : _is_global_import l = true := by
      simp only [_is_global_import, hgm, Option.isSome_some]
    have hnb : _is_boring l = false := by
      cases hx : _is_boring l with
      | false => rfl
      | true =>
        have hk := (boring_kinds hx).2.1
        rw [hk] at hgi
        cases hgi
    have hun : _is_unindented_import l = true := by
      rcases hok with h | h
      · rw [h] at hnb
        cases hnb
      · exact h
    have hnolead : _has_leading_ws l = false := by
      have h2 := hun
      simp only [_is_unindented_import, Bool.and_eq_true] at h2
      simpa using h2.1
    have hindnil : l.takeWhile isWS = [] := by
      cases l with
      | nil => rfl
      | cons a t =>
        have ha : isWS a = false := hnolead
        exact takeWhile_cons_false ha
    obtain ⟨hpre, c, rest, hdrop, hws, hsub, hgeq⟩ := global_match_elim hgm
    have hgind : g.indent = [] := by
      rw [hgeq]
      exact hindnil
    have hindAll : ∀ c2 ∈ g.indent, isWS c2 = true := by
      rw [hgind]
      intro c2 hc2
      cases hc2
    have hgmr : _is_global_import r = true := by
      rw [← hr]
      simp only [_is_global_import, global_match_of_shape hindAll, Option.isSome_some]
    have hleadr : _has_leading_ws r = false := by
      rw [← hr, hgind]
      rfl
    have hunr : _is_unindented_import r = true := by
      simp only [_is_unindented_import, hleadr, hgmr]
      rfl
    exact ⟨hunr, 2, rank_of_global hgmr, by decide⟩
  | none =>
    cases hfm : __from_import_match l with
    | some g =>
      left
      rw [repair_from_eq hfm hperc] at hr
      simp only [Option.some.injEq] at hr
      have hfi : _is_from_import l = true := by
        simp only [_is_from_import, hfm, Option.isSome_some]
      have hnb : _is_boring l = false := by
        cases hx : _is_boring l with
        | false => rfl
        | true =>
          have hk := (boring_kinds hx).2.2
          rw [hk] at hfi
          cases hfi
      have hun : _is_unindented_import l = true := by
        rcases hok with h | h
        · rw [h] at hnb
          cases hnb
        · exact h
      have hnolead : _has_leading_ws l = false := by
        have h2 := hun
        simp only [_is_unindented_import, Bool.and_eq_true] at h2
        simpa using h2.1
      have hindnil : l.takeWhile isWS = [] := by
        cases l with
        | nil => rfl
        | cons a t =>
          have ha : isWS a = false := hnolead
          exact takeWhile_cons_false ha
      obtain ⟨hind0, rest, hsub, hit, hcm, hmodalt⟩ := from_groups_facts hfm
      have hgind : g.indent = [] := by
        rw [hind0]
        exact hindnil
      have hindAll : ∀ c2 ∈ g.indent, isWS c2 = true := by
        rw [hgind]
        intro c2 hc2
        cases hc2
      have hfir : _is_from_import r = true := by
        by_cases hmod : g.module = []
        · rw [← hr, hmod, List.append_nil]
          simp only [_is_from_import]
          exact from_match_isSome_of_shape_empty hindAll
        · have hMall : ∀ c2 ∈ g.module, isWS c2 = false := by
            rcases hmodalt with h | h
            · exact absurd h hmod
            · exact h
          rw [← hr]
          simp only [_is_from_import, from_match_of_shape hindAll hMall hmod,
            Option.isSome_some]
      have hleadr : _has_leading_ws r = false := by
        rw [← hr, hgind]
        rfl
      have hunr : _is_unindented_import r = true := by
        simp only [_is_unindented_import, hleadr, hfir, Bool.or_true]
        rfl
      cases hfut : _is_future_import r with
      | true => exact ⟨hunr, 3, rank_of_future hfut, by decide⟩
      | false => exact ⟨hunr, 1, rank_of_from_only hfir hfut, by decide⟩
    | none =>
      right
      have hbl : _is_boring l = true := boring_of_not_import hgm hfm hok
      rw [repair_boring_eq hgm hfm hbl] at hr
      simp only [Option.some.injEq] at hr
      subst hr
      refine ⟨rfl, hbl, ?_⟩
      have hk := boring_kinds hbl
      unfold rank
      rw [hk.1, if_neg (by simp), hk.2.1, if_neg (by simp), hk.2.2,
        if_neg (by simp), hbl, if_pos rfl]

theorem repaired_strip {l r : Line} (hperc : ('%' : Char) ∉ l)
    (hok : _is_boring l = true ∨ _is_unindented_import l = true)
    (hr : _repair_any l = some r) (hk : (!(strip l).isEmpty) = true) :
    (!(strip r).isEmpty) = true := by
  rcases repaired_classify hperc hok hr with ⟨hun, _⟩ | ⟨hrl, _, _⟩
  · cases hx : (strip r).isEmpty with
    | false => rfl
    | true =>
      have hbr := blank_boring hx
      rw [boring_not_unind hbr] at hun
      exact absurd hun (by decide)
  · rw [hrl]
    exact hk

/-- A list of lines that are already repaired fixed points, non-blank, and
whose key list is sorted, is itself a fixed point of `_fixed`. -/
theorem fixed_of_fixpoints {L : List Line} {P2 : List ((Int × Line) × Line)}
    (hstrip : ∀ x ∈ L, (!(strip x).isEmpty) = true)
    (hrep : ∀ x ∈ L, _repair_any x = some x)
    (hP2 : L.mapM (fun x => (rank x).map
      (fun k => ((-(Int.ofNat k), upper x), x))) = some P2)
    (hsort : List.Pairwise fixRel P2) :
    _fixed L = some L := by
  have hfilter : L.filter (fun l => !(strip l).isEmpty) = L :=
    List.filter_eq_self.mpr hstrip
  have hmap : L.mapM _repair_any = some L := by
    have h0 := @mapM_eq_some_of_pointwise Line Line _repair_any id L
      (fun x hx => hrep x hx)
    rwa [List.map_id] at h0
  have hsnd : P2.map (fun p => p.2) = L := forall₂_map_snd (mapM_eq_some_iff.mp hP2)
  simp only [_fixed, bind, hfilter, hmap, Option.some_bind, hP2]
  rw [List.Sorted.insertionSort_eq hsort]
  rw [hsnd]
  rfl

/-- A key-sorted list of pairs whose payloads are classified as negative-key
unindented imports or zero-key boring lines splits as imports first, boring
lines second. -/
theorem sorted_partition :
    ∀ {P : List ((Int × Line) × Line)}, List.Pairwise fixRel P →
      (∀ p ∈ P, (_is_unindented_import p.2 = true ∧ p.1.1 < 0) ∨
        (_is_boring p.2 = true ∧ p.1.1 = 0)) →
      ∃ n, (∀ x ∈ (P.take n).map (fun p => p.2), _is_unindented_import x = true) ∧
        (∀ x ∈ (P.drop n).map (fun p => p.2), _is_boring x = true) := by
  intro P
  induction P with
  | nil =>
    intro _ _
    refine ⟨0, ?_, ?_⟩
    · intro x hx
      cases hx
    · intro x hx
      cases hx
  | cons p t ih =>
    intro hs hcl
    have hpt := List.pairwise_cons.mp hs
    rcases hcl p (List.mem_cons_self _ _) with ⟨hun, hneg⟩ | ⟨hbor, hzero⟩
    · obtain ⟨n, hA, hB⟩ := ih hpt.2 (fun q hq => hcl q (List.mem_cons_of_mem _ hq))
      refine ⟨n + 1, ?_, ?_⟩
      · intro x hx
        rw [List.take_succ_cons, List.map_cons] at hx
        rcases List.mem_cons.mp hx with rfl | hx2
        · exact hun
        · exact hA x hx2
      · intro x hx
        rw [List.drop_succ_cons] at hx
        exact hB x hx
    · refine ⟨0, ?_, ?_⟩
      · intro x hx
        simp at hx
      · intro x hx
        rw [List.drop_zero, List.map_cons] at hx
        rcases List.mem_cons.mp hx with rfl | hx2
        · exact hbor
        · obtain ⟨q, hq, hq2⟩ := List.mem_map.mp hx2
          have hle : (0 : Int) ≤ q.1.1 := by
            have h3 := fixRel_int_le (hpt.1 q hq)
            rw [hzero] at h3
            exact h3
          rcases hcl q (List.mem_cons_of_mem _ hq) with ⟨_, hq3⟩ | ⟨hq3, _⟩
          · exact absurd hq3 (by omega)
          · rw [← hq2]
            exact hq3

/-! ## Runs of the `_get_lines` scanner -/

theorem gl_skip :
    ∀ {P : List Line} (X : List Line) (num s0 : Nat),
      (∀ l ∈ P, _is_unindented_import l = false) →
      _get_lines_go (P ++ X) num s0 0 false =
        _get_lines_go X (num + P.length) s0 0 false := by
  intro P
  induction P with
  | nil =>
    intro X num s0 _
    rfl
  | cons l t ih =>
    intro X num s0 hP
    rw [List.cons_append]
    simp only [_get_lines_go]
    rw [if_neg (by simp [hP l (List.mem_cons_self _ _)]), if_neg (by simp)]
    rw [ih X (num + 1) s0 (fun x hx => hP x (List.mem_cons_of_mem _ hx))]
    rw [List.length_cons]
    rw [show num + 1 + t.length = num + (t.length + 1) from by omega]

theorem gl_run :
    ∀ {imps : List Line}, (∀ l ∈ imps, _is_unindented_import l = true) →
      imps ≠ [] → ∀ (X : List Line) (num s e : Nat),
      _get_lines_go (imps ++ X) num s e true =
        _get_lines_go X (num + imps.length) s (num + imps.length) true := by
  intro imps
  induction imps with
  | nil =>
    intro _ h
    exact absurd rfl h
  | cons l t ih =>
    intro hI _ X num s e
    rw [List.cons_append]
    simp only [_get_lines_go]
    rw [if_pos (hI l (List.mem_cons_self _ _))]
    show _get_lines_go (t ++ X) (num + 1) s (num + 1) true = _
    cases t with
    | nil =>
      rw [List.nil_append,
        show num + ([l] : List Line).length = num + 1 from by simp]
    | cons l2 t2 =>
      rw [ih (fun x hx => hI x (List.mem_cons_of_mem _ hx)) (by simp) X
        (num + 1) s (num + 1)]
      have harith : num + 1 + (l2 :: t2).length = num + (l :: l2 :: t2).length := by
        simp only [List.length_cons]
        omega
      rw [harith]

theorem gl_start {imps : List Line}
    (hI : ∀ l ∈ imps, _is_unindented_import l = true) (hne : imps ≠ [])
    (X : List Line) (num s0 : Nat) :
    _get_lines_go (imps ++ X) num s0 0 false =
      _get_lines_go X (num + imps.length) num (num + imps.length) true := by
  cases imps with
  | nil => exact absurd rfl hne
  | cons l t =>
    rw [List.cons_append]
    simp only [_get_lines_go]
    rw [if_pos (hI l (List.mem_cons_self _ _))]
    show _get_lines_go (t ++ X) (num + 1) num (num + 1) true = _
    cases t with
    | nil =>
      rw [List.nil_append,
        show num + ([l] : List Line).length = num + 1 from by simp]
    | cons l2 t2 =>
      rw [gl_run (fun x hx => hI x (List.mem_cons_of_mem _ hx)) (by simp) X
        (num + 1) num (num + 1)]
      have harith : num + 1 + (l2 :: t2).length = num + (l :: l2 :: t2).length := by
        simp only [List.length_cons]
        omega
      rw [harith]

theorem gl_tail :
    ∀ {T : List Line} (num s e : Nat), e ≠ 0 →
      (∀ k, k < T.length → (∀ m, m < k → _is_boring (T.getD m []) = true) →
        _is_unindented_import (T.getD k []) = false) →
      _get_lines_go T num s e true = (s, e) := by
  intro T
  induction T with
  | nil =>
    intro num s e _ _
    rfl
  | cons l t ih =>
    intro num s e he hH
    have hl0 : _is_unindented_import l = false := by
      have h0 := hH 0 (by simp) (fun m hm => absurd hm (Nat.not_lt_zero m))
      rw [List.getD_cons_zero] at h0
      exact h0
    simp only [_get_lines_go]
    rw [if_neg (by simp [hl0])]
    cases hb : _is_boring l with
    | true =>
      rw [if_neg (by simp [hb])]
      refine ih (num + 1) s e he ?_
      intro k hk hgap
      have hgap2 : ∀ m, m < k + 1 → _is_boring ((l :: t).getD m []) = true := by
        intro m hm
        cases m with
        | zero =>
          rw [List.getD_cons_zero]
          exact hb
        | succ m2 =>
          rw [List.getD_cons_succ]
          exact hgap m2 (by omega)
      have hstep := hH (k + 1) (by simp only [List.length_cons]; omega) hgap2
      rw [List.getD_cons_succ] at hstep
      exact hstep
    | false =>
      rw [if_pos (by
        simp only [hb, Bool.not_false, Bool.and_true, bne_iff_ne]
        exact he)]

/-! ## Index transport for `getD` -/

theorem getD_append_lt {A B : List Line} {n : Nat} (h : n < A.length) :
    (A ++ B).getD n [] = A.getD n [] := by
  simp [List.getD_eq_getElem?_getD, List.getElem?_append, h]

theorem getD_append_ge {A B : List Line} {n : Nat} (h : A.length ≤ n) :
    (A ++ B).getD n [] = B.getD (n - A.length) [] := by
  simp [List.getD_eq_getElem?_getD, List.getElem?_append_right h]

theorem getD_drop (l : List Line) (n m : Nat) :
    (l.drop n).getD m [] = l.getD (n + m) [] := by
  simp [List.getD_eq_getElem?_getD, List.getElem?_drop]

theorem getD_take {l : List Line} {n m : Nat} (h : m < n) :
    (l.take n).getD m [] = l.getD m [] := by
  simp [List.getD_eq_getElem?_getD, List.getElem?_take, h]

theorem take_append_len {A X : List Line} {n : Nat} (h : A.length = n) :
    (A ++ X).take n = A := by
  rw [← h]
  exact List.take_left A X

theorem drop_append_len {A X : List Line} {n : Nat} (h : A.length = n) :
    (A ++ X).drop n = X := by
  rw [← h]
  exact List.drop_left A X

theorem mem_getD {x : Line} {l : List Line} (h : x ∈ l) :
    ∃ n, n < l.length ∧ l.getD n [] = x := by
  obtain ⟨n, hn, he⟩ := List.mem_iff_getElem.mp h
  exact ⟨n, hn, by simp [List.getD_eq_getElem?_getD, List.getElem?_eq_getElem hn, he]⟩

theorem getD_mem {l : List Line} {n : Nat} (h : n < l.length) :
    l.getD n [] ∈ l := by
  rw [List.getD_eq_getElem?_getD, List.getElem?_eq_getElem h]
  exact List.getElem_mem h

/-! ## C-claims: concrete counterexamples and simple claims -/

/-- C1, counterexample: on the document `import sys\nimport os\n` the
whole-document normalization does **not** return `import os, sys\n` (the two
statements are not merged into one). -/
theorem c1_counterexample :
    sort_imports (("import sys\nimport os\n").data) ≠
      some (("import os, sys\n").data) := by
  decide

/-- C1 (corrected): the whole-document normalization of
`import sys\nimport os\n` returns `import os\nimport sys\n` — the two
plain statements are kept as separate statements and sorted alphabetically;
no merging into a single statement occurs. -/
theorem c1_amended :
    sort_imports (("import sys\nimport os\n").data) =
      some (("import os\nimport sys\n").data) := by
  decide

/-- C2, counterexample: the unindented future-import line
`from __future__ import annotations` **is** detected by the unindented-import
test (it matches the from-import pattern with module `__future__`), refuting
the claim that such lines always test false. -/
theorem c2_counterexample :
    _is_unindented_import (("from __future__ import annotations").data) = true := by
  decide

/-- C2 (corrected): every line of the form `from __future__ import <items>`
with no leading whitespace is detected by the unindented-import test, because
`__from_import_re` matches it (with `__future__` as the module); future-import
lines therefore do act as block boundaries. -/
theorem c2_amended (items : Line) :
    _is_unindented_import (("from __future__ import ").data ++ items) = true := rfl

/-- C3, counterexample: for the block `import b / # k / import a` the
comment-only line `# k` **is** contained in the normalized output (it is kept
verbatim and sorted to the end of the block), refuting the claim that such
lines are dropped. -/
theorem c3_counterexample :
    _fix_safely [("import b").data, ("# k").data, ("import a").data] =
      some [("import a").data, ("import b").data, ("# k").data] := by
  decide

/-- C3 (corrected): comment-only lines inside the block (stripped text
nonempty and starting with `#`) are **not** dropped by the block normalizer:
whenever the normalizer succeeds, every such line of the input block appears
(byte-identical) in the output block.  Only lines that are blank after
stripping are removed. -/
theorem c3_amended (bl out : List Line) (hfix : _fixed bl = some out)
    (l : Line) (hmem : l ∈ bl) (hhead : (strip l).head? = some '#') :
    l ∈ out := by
  have hhead2 : (l.dropWhile isWS).head? = some '#' := head_strip_hash hhead
  simp only [_fixed, bind, Option.bind_eq_some, pure, Option.some.injEq] at hfix
  obtain ⟨repaired, h1, pairs, h2, hout⟩ := hfix
  have hkept : l ∈ bl.filter (fun l => !(strip l).isEmpty) := by
    apply List.mem_filter.mpr
    refine ⟨hmem, ?_⟩
    cases hs : strip l with
    | nil => rw [hs] at hhead; cases hhead
    | cons c t => simp
  have hrep : _repair_any l = some l := by
    unfold _repair_any
    have hg : _is_global_import l = false := by
      simp [_is_global_import, hash_not_global hhead2]
    have hf : _is_from_import l = false := by
      simp [_is_from_import, hash_not_from hhead2]
    rw [hg, hf]
    simp only [Bool.false_eq_true, if_false]
    have hb : _is_boring l = true := by
      by_contra hb
      have hb2 : _is_boring l = false := by
        cases h : _is_boring l
        · rfl
        · exact absurd h hb
      obtain ⟨r, _, hr⟩ := forall₂_mem_left (mapM_eq_some_iff.mp h1) hkept
      unfold _repair_any at hr
      rw [hg, hf, hb2] at hr
      simp at hr
    rw [hb]
    simp
  obtain ⟨r, hrmem, hr⟩ := forall₂_mem_left (mapM_eq_some_iff.mp h1) hkept
  rw [hrep] at hr
  cases hr
  have hrank : rank l = some 0 := by
    unfold rank
    have hg : _is_global_import l = false := by
      simp [_is_global_import, hash_not_global hhead2]
    have hf : _is_from_import l = false := by
      simp [_is_from_import, hash_not_from hhead2]
    have hfu : _is_future_import l = false := by
      simp [_is_future_import, hash_not_future hhead2]
    have hb : _is_boring l = true := by
      by_contra hb
      have hb2 : _is_boring l = false := by
        cases h : _is_boring l
        · rfl
        · exact absurd h hb
      unfold _repair_any at hrep
      rw [hg, hf, hb2] at hrep
      simp at hrep
    rw [hg, hf, hfu, hb]
    simp
  obtain ⟨p, hpmem, hp⟩ := forall₂_mem_left (mapM_eq_some_iff.mp h2) hrmem
  rw [hrank] at hp
  simp only [Option.map_some', Option.some.injEq] at hp
  subst hout
  apply List.mem_map.mpr
  refine ⟨p, ?_, ?_⟩
  · exact (List.mem_insertionSort _).mpr hpmem
  · rw [← hp]

/-- C3 witness: a closed instance of `c3_amended`. -/
theorem c3_witness :
    _fixed [("import b").data, ("# k").data, ("import a").data] =
        some [("import a").data, ("import b").data, ("# k").data] ∧
      ("# k").data ∈ [("import a").data, ("import b").data, ("# k").data] := by
  refine ⟨by decide, ?_⟩
  exact c3_amended [("import b").data, ("# k").data, ("import a").data]
    [("import a").data, ("import b").data, ("# k").data] (by decide)
    (("# k").data) (by decide) (by decide)

/-- Sorted output of `_fixed`, with pair coherence, gives the rank and
upper-text ordering between any two output positions. -/
theorem fixed_output_keys {bl out : List Line} (hfix : _fixed bl = some out)
    {i j : Nat} (hi : i < out.length) (hj : j < out.length) (hij : i < j) :
    ∃ ri rj, rank (out[i]) = some ri ∧ rank (out[j]) = some rj ∧
      (-(Int.ofNat ri) : Int) ≤ -(Int.ofNat rj) ∧
      (ri = rj → strCmp (upper (out[i])) (upper (out[j])) ≠ Ordering.gt) := by
  obtain ⟨repaired, pairs, _, h2, hout⟩ := fixed_elim hfix
  subst hout
  have hi2 : i < (pairs.insertionSort fixRel).length := by simpa using hi
  have hj2 : j < (pairs.insertionSort fixRel).length := by simpa using hj
  have hsort : List.Sorted fixRel (pairs.insertionSort fixRel) :=
    List.sorted_insertionSort fixRel pairs
  have hrel : fixRel ((pairs.insertionSort fixRel)[i])
      ((pairs.insertionSort fixRel)[j]) :=
    List.pairwise_iff_getElem.mp hsort i j hi2 hj2 hij
  obtain ⟨ri, hri, hkeyi⟩ := pairs_coherent h2 ((pairs.insertionSort fixRel)[i])
    ((List.mem_insertionSort fixRel).mp (List.getElem_mem hi2))
  obtain ⟨rj, hrj, hkeyj⟩ := pairs_coherent h2 ((pairs.insertionSort fixRel)[j])
    ((List.mem_insertionSort fixRel).mp (List.getElem_mem hj2))
  have hgeti : (List.map (fun x => x.2) (pairs.insertionSort fixRel))[i] =
      ((pairs.insertionSort fixRel)[i]).2 := List.getElem_map _
  have hgetj : (List.map (fun x => x.2) (pairs.insertionSort fixRel))[j] =
      ((pairs.insertionSort fixRel)[j]).2 := List.getElem_map _
  refine ⟨ri, rj, ?_, ?_, ?_, ?_⟩
  · rw [hgeti, hri]
  · rw [hgetj, hrj]
  · have := fixRel_int_le hrel
    rw [hkeyi, hkeyj] at this
    exact this
  · intro hrr
    have heqk : ((pairs.insertionSort fixRel)[i]).1.1 =
        ((pairs.insertionSort fixRel)[j]).1.1 := by
      rw [hkeyi, hkeyj, hrr]
    have := fixRel_upper_le hrel heqk
    rw [hkeyi, hkeyj] at this
    rw [hgeti, hgetj]
    exact this

/-- C5 (confirmed): in the output block of the normalizer, every future-import
line precedes every plain-import line, every plain-import line precedes every
(non-future) from-import line, every future-import line also precedes every
(non-future) from-import line, and within each of these three classification
groups the rendered line text is non-decreasing under case-insensitive
(uppercased) comparison. -/
theorem c5_output_order (bl out : List Line) (hfix : _fixed bl = some out)
    (i j : Nat) (hi : i < out.length) (hj : j < out.length) (hij : i < j) :
    (¬(_is_global_import (out[i]) = true ∧ _is_future_import (out[j]) = true)) ∧
    (¬((_is_from_import (out[i]) = true ∧ _is_future_import (out[i]) = false) ∧
        _is_global_import (out[j]) = true)) ∧
    (¬((_is_from_import (out[i]) = true ∧ _is_future_import (out[i]) = false) ∧
        _is_future_import (out[j]) = true)) ∧
    (((_is_future_import (out[i]) = true ∧ _is_future_import (out[j]) = true) ∨
      (_is_global_import (out[i]) = true ∧ _is_global_import (out[j]) = true) ∨
      ((_is_from_import (out[i]) = true ∧ _is_future_import (out[i]) = false) ∧
        (_is_from_import (out[j]) = true ∧ _is_future_import (out[j]) = false))) →
      strCmp (upper (out[i])) (upper (out[j])) ≠ Ordering.gt) := by
  obtain ⟨ri, rj, hri, hrj, hle, hupper⟩ := fixed_output_keys hfix hi hj hij
  refine ⟨?_, ?_, ?_, ?_⟩
  · rintro ⟨hgx, hfy⟩
    rw [rank_of_global hgx] at hri
    rw [rank_of_future hfy] at hrj
    cases hri
    cases hrj
    exact absurd hle (by decide)
  · rintro ⟨⟨hfx, hnx⟩, hgy⟩
    rw [rank_of_from_only hfx hnx] at hri
    rw [rank_of_global hgy] at hrj
    cases hri
    cases hrj
    exact absurd hle (by decide)
  · rintro ⟨⟨hfx, hnx⟩, hfy⟩
    rw [rank_of_from_only hfx hnx] at hri
    rw [rank_of_future hfy] at hrj
    cases hri
    cases hrj
    exact absurd hle (by decide)
  · rintro (⟨hx, hy⟩ | ⟨hx, hy⟩ | ⟨⟨hx, hnx⟩, ⟨hy, hny⟩⟩)
    · rw [rank_of_future hx] at hri
      rw [rank_of_future hy] at hrj
      cases hri
      cases hrj
      exact hupper rfl
    · rw [rank_of_global hx] at hri
      rw [rank_of_global hy] at hrj
      cases hri
      cases hrj
      exact hupper rfl
    · rw [rank_of_from_only hx hnx] at hri
      rw [rank_of_from_only hy hny] at hrj
      cases hri
      cases hrj
      exact hupper rfl

/-- C5 witness: a closed instance of `c5_output_order` on the block
`from a import b / import os / from __future__ import x`. -/
theorem c5_witness :
    _fixed [("from a import b").data, ("import os").data,
        ("from __future__ import x").data] =
      some [("from __future__ import x").data, ("import os").data,
        ("from a import b").data] ∧
    (0 : Nat) < 3 ∧ (1 : Nat) < 3 ∧ (0 : Nat) < 1 ∧
    ¬(_is_global_import (("from __future__ import x").data) = true ∧
      _is_future_import (("import os").data) = true) := by
  refine ⟨by decide, by decide, by decide, by decide, ?_⟩
  exact (c5_output_order
    [("from a import b").data, ("import os").data, ("from __future__ import x").data]
    [("from __future__ import x").data, ("import os").data, ("from a import b").data]
    (by decide) 0 1 (by decide) (by decide) (by decide)).1

/-- C6, counterexample: the line `import os  # needed` (two spaces before the
comment) is **not** rendered unchanged by the repair step. -/
theorem c6_counterexample :
    _repair_any (("import os  # needed").data) ≠
      some (("import os  # needed").data) := by
  decide

/-- C6 (corrected): `import os  # needed` is rendered as `import os # needed`:
the indentation (empty) and the comment text are preserved, but the comment is
reattached with exactly one separating space, collapsing the original two
spaces. -/
theorem c6_amended :
    _repair_any (("import os  # needed").data) =
      some (("import os # needed").data) := by
  decide

/-- C4, counterexample: whole-document normalization is **not** idempotent.
Three independent failures: re-parsing `import (a, b)` (produced from
`import b), (a`) strips the parentheses that the first pass created;
`%`-formatting mangles `%%` in a trailing comment on the first pass and then
fails on the second; and a from-import that parses with an empty module
(`from  import import,import # c`) renders to a line that re-parses with
module `import` instead. -/
theorem c4_counterexample :
    ((_fix_safely [("import b), (a").data]).bind _fix_safely ≠
        _fix_safely [("import b), (a").data]) ∧
      ((_fix_safely [("import a # %%%%").data]).bind _fix_safely ≠
        _fix_safely [("import a # %%%%").data]) ∧
      ((_fix_safely [("from  import import,import # c").data]).bind _fix_safely ≠
        _fix_safely [("from  import import,import # c").data]) := by
  refine ⟨by decide, by decide, by decide⟩

/-- C7, counterexample: the semantic statement (kind, module, item set) is
**not** always preserved.  Two failures: the block `import b), (a` has item
set `{"(a", "b)"}` but is rendered as `import (a, b)`, whose parsed item set
is `{"a", "b"}` (the re-joined item list became parenthesized and is stripped
on re-parsing); and `from  import import,import # c` (module parsed empty,
item set `{"import"}`) renders to `from  import import # c`, which re-parses
with module `import` and item set `{""}`. -/
theorem c7_counterexample :
    (_fix_safely [("import b), (a").data] = some [("import (a, b)").data] ∧
      semStatement (("import b), (a").data) ≠
        semStatement (("import (a, b)").data)) ∧
    (_fix_safely [("from  import import,import # c").data] =
        some [("from  import import # c").data] ∧
      semStatement (("from  import import,import # c").data) ≠
        semStatement (("from  import import # c").data)) := by
  refine ⟨by decide, by decide⟩

/-- C10, counterexample: `_fix_safely` **can** raise: on the single-line
document `import a  # %d` the block is located, but rendering the line fails
inside Python `%`-formatting (the `%d` directive in the reattached comment has
no argument left), so the whole call raises.  The explicit `ValueError` branch
of `_repair_any` is still unreachable on this path; the failure is a
formatting `TypeError`. -/
theorem c10_counterexample :
    _fix_safely [("import a  # %d").data] = none := by
  decide

/-- C8 (confirmed): whole-document normalization only replaces the located
block's line range `[start, end)`: the first `start` lines of the output are
byte-identical to the first `start` lines of the input, and the lines after
the replaced block (the last `length - end` lines) are byte-identical to the
input lines from index `end` on. -/
theorem c8_frame (lines out : List Line) (hfix : _fix_safely lines = some out) :
    out.take (_get_lines lines).1 = lines.take (_get_lines lines).1 ∧
    out.drop (out.length - (lines.length - (_get_lines lines).2)) =
      lines.drop (_get_lines lines).2 := by
  obtain ⟨hse, hel, _, _⟩ := get_lines_spec lines
  simp only [_fix_safely] at hfix
  cases hF : _fixed ((lines.drop (_get_lines lines).1).take
      ((_get_lines lines).2 - (_get_lines lines).1)) with
  | none => rw [hF] at hfix; cases hfix
  | some F =>
    rw [hF] at hfix
    simp only [Option.map_some', Option.some.injEq] at hfix
    subst hfix
    have hlen1 : (lines.take (_get_lines lines).1).length = (_get_lines lines).1 := by
      rw [List.length_take]
      omega
    constructor
    · rw [List.append_assoc, List.take_append_of_le_length (by omega), List.take_take,
        Nat.min_self]
    · have hlen : (lines.take (_get_lines lines).1 ++ F ++
          lines.drop (_get_lines lines).2).length =
          (_get_lines lines).1 + F.length + (lines.length - (_get_lines lines).2) := by
        simp only [List.length_append, hlen1, List.length_drop]
      rw [hlen]
      have harith : (_get_lines lines).1 + F.length +
          (lines.length - (_get_lines lines).2) -
          (lines.length - (_get_lines lines).2) =
          (lines.take (_get_lines lines).1 ++ F).length := by
        rw [List.length_append, hlen1]
        omega
      rw [harith, List.drop_left]

/-- C8 witness: a closed instance on `x = 1 / import b / import a / y = 2`
(block `[1, 3)`). -/
theorem c8_witness :
    _fix_safely [("x = 1").data, ("import b").data, ("import a").data, ("y = 2").data] =
        some [("x = 1").data, ("import a").data, ("import b").data, ("y = 2").data] ∧
      [("x = 1").data, ("import a").data, ("import b").data, ("y = 2").data].take 1 =
        [("x = 1").data, ("import b").data, ("import a").data, ("y = 2").data].take 1 := by
  refine ⟨by decide, ?_⟩
  have h := c8_frame
    [("x = 1").data, ("import b").data, ("import a").data, ("y = 2").data]
    [("x = 1").data, ("import a").data, ("import b").data, ("y = 2").data]
    (by decide)
  exact h.1

/-- C9 (confirmed, spec-modelled): if normalizing the caller-selected slice
fails on any line (`_fixed` raises), the range command aborts and the document
lines are completely unchanged — the replacement is computed entirely before
the splice, so no partial write occurs. -/
theorem c9_error_leaves_lines_unchanged (lines : List Line) (s e : Nat)
    (h : _fixed ((lines.drop s).take (e - s)) = none) :
    run_range_command lines s e = lines := by
  unfold run_range_command normalize_given_range
  rw [h]
  rfl

/-- C9 witness: the slice `x = 1` of the one-line document fails to render and
the document is returned unchanged. -/
theorem c9_witness :
    _fixed (([("x = 1").data].drop 0).take (1 - 0)) = none ∧
      run_range_command [("x = 1").data] 0 1 = [("x = 1").data] := by
  refine ⟨by decide, ?_⟩
  exact c9_error_leaves_lines_unchanged [("x = 1").data] 0 1 (by decide)

/-- C10 (corrected): the first half of the claim holds: every line whose index
lies in the range `[start, end)` returned by `_get_lines` is an unindented
statement line or a boring line.  The second half is false in general
(`c10_counterexample`): `_fix_safely` can raise inside `%`-formatting when a
comment carries a conversion directive; it never raises on `%`-free documents,
where the explicit `ValueError` branch and every formatting error are
unreachable. -/
theorem c10_amended (lines : List Line) :
    (∀ k, (_get_lines lines).1 ≤ k → k < (_get_lines lines).2 →
      _is_unindented_import (lines.getD k []) = true ∨
        _is_boring (lines.getD k []) = true) ∧
    ((∀ l ∈ lines, ('%' : Char) ∉ l) → (_fix_safely lines).isSome = true) := by
  obtain ⟨hse, hel, hz, hnz⟩ := get_lines_spec lines
  have hblock : ∀ k, (_get_lines lines).1 ≤ k → k < (_get_lines lines).2 →
      _is_unindented_import (lines.getD k []) = true ∨
        _is_boring (lines.getD k []) = true := by
    intro k hk1 hk2
    by_cases he : (_get_lines lines).2 = 0
    · rw [he] at hk2
      exact absurd hk2 (Nat.not_lt_zero k)
    · exact (hnz he).2.2.2.1 k hk1 hk2
  refine ⟨hblock, ?_⟩
  intro hp
  simp only [_fix_safely]
  rw [Option.isSome_map']
  apply fixed_isSome
  · intro l hl
    obtain ⟨i, hi, hieq⟩ := List.mem_iff_getElem.mp hl
    have hlen1 : ((lines.drop (_get_lines lines).1).take
        ((_get_lines lines).2 - (_get_lines lines).1)).length ≤
        (_get_lines lines).2 - (_get_lines lines).1 := by
      rw [List.length_take]
      exact Nat.min_le_left _ _
    have hlen2 : ((lines.drop (_get_lines lines).1).take
        ((_get_lines lines).2 - (_get_lines lines).1)).length ≤
        lines.length - (_get_lines lines).1 := by
      rw [List.length_take, List.length_drop]
      exact Nat.min_le_right _ _
    have hik : (_get_lines lines).1 + i < (_get_lines lines).2 := by omega
    have hibound : (_get_lines lines).1 + i < lines.length := by omega
    have hel2 : ((lines.drop (_get_lines lines).1).take
        ((_get_lines lines).2 - (_get_lines lines).1))[i] =
        lines[(_get_lines lines).1 + i] := by
      rw [List.getElem_take, List.getElem_drop]
    have hspec2 : _is_unindented_import (lines[(_get_lines lines).1 + i]) = true ∨
        _is_boring (lines[(_get_lines lines).1 + i]) = true := by
      rw [← List.getD_eq_getElem lines [] hibound]
      exact hblock ((_get_lines lines).1 + i) (Nat.le_add_right _ _) hik
    rw [hieq.symm.trans hel2]
    exact hspec2.symm
  · intro l hl
    exact hp l (((List.take_sublist _ _).trans (List.drop_sublist _ _)).subset hl)

/-- C7 (corrected): the semantic multiset IS preserved on the guarded
fragment: if every block line is `(`-free and (when it parses as a
from-import) has a nonempty module group, then the multiset of semantic
statements (classification kind, module for from-imports, set of trimmed item
names) of the normalized block equals that of the non-boring lines of the
input block.  Without the guard the claim is false (`c7_counterexample`):
parenthesis stripping changes the item set on re-rendering, and the
empty-module backtracking parse flips a statement's module and item set. -/
theorem c7_amended (bl out : List Line) (hfix : _fixed bl = some out)
    (hstable : ∀ l ∈ bl, semStableLine l = true) :
    List.Perm (out.filterMap semStatement)
      ((bl.filter (fun l => !(_is_boring l))).filterMap semStatement) := by
  obtain ⟨repaired, pairs, h1, h2, hout⟩ := fixed_elim hfix
  have hperm : List.Perm out (pairs.map (fun p => p.2)) := by
    rw [hout]
    exact (List.perm_insertionSort fixRel pairs).map _
  have hsnd : pairs.map (fun p => p.2) = repaired :=
    forall₂_map_snd (mapM_eq_some_iff.mp h2)
  have hperm2 : List.Perm out repaired := hsnd ▸ hperm
  have hp1 : List.Perm (out.filterMap semStatement)
      (repaired.filterMap semStatement) := hperm2.filterMap _
  have heq1 : repaired.filterMap semStatement =
      (bl.filter (fun l => !(strip l).isEmpty)).filterMap semStatement :=
    filterMap_sem_of_repair (mapM_eq_some_iff.mp h1)
      (fun x hx => hstable x (List.mem_filter.mp hx).1)
  have hPblank : ∀ l : Line, (!(strip l).isEmpty) = false →
      semStatement l = none := by
    intro l hl
    exact sem_none_of_boring (blank_boring (by simpa using hl))
  have hPboring : ∀ l : Line, (!(_is_boring l)) = false →
      semStatement l = none := by
    intro l hl
    exact sem_none_of_boring (by simpa using hl)
  have heqAll : repaired.filterMap semStatement =
      (bl.filter (fun l => !(_is_boring l))).filterMap semStatement := by
    rw [heq1, filterMap_filter_none hPblank bl, filterMap_filter_none hPboring bl]
  exact hp1.trans (heqAll ▸ List.Perm.refl _)

/-- C7 witness: a closed instance of `c7_amended` on the guarded block
`import b / # note / import a`. -/
theorem c7_witness :
    _fixed [("import b").data, ("# note").data, ("import a").data] =
      some [("import a").data, ("import b").data, ("# note").data] ∧
    List.Perm
      ([("import a").data, ("import b").data,
        ("# note").data].filterMap semStatement)
      (([("import b").data, ("# note").data, ("import a").data].filter
        (fun l => !(_is_boring l))).filterMap semStatement) := by
  refine ⟨by decide, ?_⟩
  exact c7_amended [("import b").data, ("# note").data, ("import a").data]
    [("import a").data, ("import b").data, ("# note").data] (by decide) (by decide)

/-- C10 witness: a closed instance of `c10_amended` on the `%`-free document
`import b / import a`: the located block is `[0, 2)`, line 0 holds an
unindented statement, and normalization succeeds. -/
theorem c10_witness :
    (_get_lines [("import b").data, ("import a").data]).1 = 0 ∧
    (_get_lines [("import b").data, ("import a").data]).2 = 2 ∧
    _is_unindented_import ([("import b").data, ("import a").data].getD 0 []) =
      true ∧
    (_fix_safely [("import b").data, ("import a").data]).isSome = true := by
  refine ⟨by decide, by decide, ?_, ?_⟩
  · exact ((c10_amended [("import b").data, ("import a").data]).1 0 (by decide)
      (by decide)).resolve_right (by decide)
  · exact (c10_amended [("import b").data, ("import a").data]).2 (by decide)

/-- C4 (corrected): whole-document normalization is idempotent on tame
documents — documents whose lines contain neither `(` nor `%`, and whose
from-import lines parse with a nonempty module group.  If `_fix_safely`
succeeds on such a document, running it again on the output succeeds and
returns the output unchanged. -/
theorem c4_amended (lines out : List Line)
    (ht : ∀ l ∈ lines, tameLine l = true)
    (hfix : _fix_safely lines = some out) :
    _fix_safely out = some out := by
  obtain ⟨hse, helen, hzero, hpos⟩ := get_lines_spec lines
  simp only [_fix_safely] at hfix
  by_cases he0 : (_get_lines lines).2 = 0
  · obtain ⟨hs0, hnone⟩ := hzero he0
    rw [hs0, he0] at hfix
    rw [show ((lines.drop 0).take (0 - 0)) = ([] : List Line) from by simp] at hfix
    rw [show _fixed ([] : List Line) = some [] from rfl] at hfix
    simp only [Option.map_some', Option.some.injEq] at hfix
    have hout : out = lines := by
      rw [← hfix]
      simp
    rw [hout]
    show _fix_safely lines = some lines
    simp only [_fix_safely]
    rw [hs0, he0]
    rw [show ((lines.drop 0).take (0 - 0)) = ([] : List Line) from by simp]
    rw [show _fixed ([] : List Line) = some [] from rfl]
    simp only [Option.map_some', Option.some.injEq]
    simp
  · obtain ⟨hlt, hfirst, hprefix, hblock, hafter⟩ := hpos he0
    set s := (_get_lines lines).1 with hsdef
    set e := (_get_lines lines).2 with hedef
    cases hfx : _fixed ((lines.drop s).take (e - s)) with
    | none =>
      rw [hfx] at hfix
      simp at hfix
    | some F =>
      rw [hfx] at hfix
      simp only [Option.map_some', Option.some.injEq] at hfix
      have hPlen : (lines.take s).length = s := by
        rw [List.length_take]
        omega
      have hBmem : ∀ l ∈ (lines.drop s).take (e - s),
          _is_boring l = true ∨ _is_unindented_import l = true := by
        intro l hl
        obtain ⟨k, hk, hkeq⟩ := mem_getD hl
        have hkl : k < e - s := by
          rw [List.length_take] at hk
          omega
        have htr : ((lines.drop s).take (e - s)).getD k [] =
            lines.getD (s + k) [] := by
          rw [getD_take hkl, getD_drop]
        have hle : lines.getD (s + k) [] = l := htr.symm.trans hkeq
        have hcl := hblock (s + k) (by omega) (by omega)
        rw [hle] at hcl
        rcases hcl with h | h
        · exact Or.inr h
        · exact Or.inl h
      have hBtame : ∀ l ∈ (lines.drop s).take (e - s), tameLine l = true :=
        fun l hl => ht l
          (((List.take_sublist _ _).trans (List.drop_sublist _ _)).subset hl)
      have hBperc : ∀ l ∈ (lines.drop s).take (e - s), ('%' : Char) ∉ l := by
        intro l hl hm
        have h2 := hBtame l hl
        simp only [tameLine, Bool.and_eq_true] at h2
        have h3 := List.all_eq_true.mp h2.1 '%' hm
        simp at h3
      obtain ⟨repaired, pairs, h1, h2, houtF⟩ := fixed_elim hfx
      have hsortP : List.Pairwise fixRel (pairs.insertionSort fixRel) :=
        List.sorted_insertionSort fixRel pairs
      have hpermP : List.Perm (pairs.insertionSort fixRel) pairs :=
        List.perm_insertionSort fixRel pairs
      have hcoh := pairs_coherent h2
      have hsndP : pairs.map (fun q => q.2) = repaired :=
        forall₂_map_snd (mapM_eq_some_iff.mp h2)
      have hpfacts : ∀ p ∈ pairs.insertionSort fixRel,
          _repair_any p.2 = some p.2 ∧ (!(strip p.2).isEmpty) = true ∧
          ((_is_unindented_import p.2 = true ∧ p.1.1 < 0) ∨
            (_is_boring p.2 = true ∧ p.1.1 = 0)) := by
        intro p hp
        have hpP : p ∈ pairs := hpermP.mem_iff.mp hp
        obtain ⟨rp, hrank, hkey⟩ := hcoh p hpP
        have hp2mem : p.2 ∈ repaired := by
          rw [← hsndP]
          exact List.mem_map.mpr ⟨p, hpP, rfl⟩
        obtain ⟨l0, hl0mem, hl0⟩ := forall₂_mem_right (mapM_eq_some_iff.mp h1)
          hp2mem
        have hl0B : l0 ∈ (lines.drop s).take (e - s) :=
          (List.mem_filter.mp hl0mem).1
        have hl0strip : (!(strip l0).isEmpty) = true :=
          (List.mem_filter.mp hl0mem).2
        have hperc0 := hBperc l0 hl0B
        have hok0 := hBmem l0 hl0B
        have htame0 := hBtame l0 hl0B
        refine ⟨repair_idem htame0 hl0,
          repaired_strip hperc0 hok0 hl0 hl0strip, ?_⟩
        rcases repaired_classify hperc0 hok0 hl0 with
          ⟨hun, k2, hk2, hk2ge⟩ | ⟨hrl, hbor, hr0⟩
        · left
          refine ⟨hun, ?_⟩
          rw [hrank] at hk2
          injection hk2 with hk2e
          rw [hkey]
          show -(Int.ofNat rp) < 0
          rw [neg_lt_zero]
          exact Int.ofNat_pos.mpr (by omega)
        · right
          refine ⟨hbor, ?_⟩
          rw [hrank] at hr0
          injection hr0 with hr0e
          rw [hkey]
          show -(Int.ofNat rp) = 0
          rw [hr0e]
          rfl
      obtain ⟨I, hImps, hBors⟩ :=
        sorted_partition hsortP (fun p hp => (hpfacts p hp).2.2)
      set IMPS := ((pairs.insertionSort fixRel).take I).map (fun p => p.2)
        with hIMPSdef
      set BORS := ((pairs.insertionSort fixRel).drop I).map (fun p => p.2)
        with hBORSdef
      have hFsplit : F = IMPS ++ BORS := by
        rw [houtF, hIMPSdef, hBORSdef]
        conv_lhs => rw [← List.take_append_drop I (pairs.insertionSort fixRel)]
        rw [List.map_append]
      have hs_in_B : lines.getD s [] ∈ (lines.drop s).take (e - s) := by
        have htr0 : ((lines.drop s).take (e - s)).getD 0 [] =
            lines.getD (s + 0) [] := by
          rw [getD_take (by omega), getD_drop]
        rw [Nat.add_zero] at htr0
        rw [← htr0]
        apply getD_mem
        rw [List.length_take, List.length_drop]
        omega
      have hl0un : _is_unindented_import (lines.getD s []) = true := hfirst
      have hl0strip : (!(strip (lines.getD s [])).isEmpty) = true := by
        cases hx : (strip (lines.getD s [])).isEmpty with
        | false => rfl
        | true =>
          have hbor := blank_boring hx
          rw [boring_not_unind hbor] at hl0un
          exact absurd hl0un (by decide)
      have hl0kept : lines.getD s [] ∈
          ((lines.drop s).take (e - s)).filter (fun l => !(strip l).isEmpty) :=
        List.mem_filter.mpr ⟨hs_in_B, hl0strip⟩
      obtain ⟨r0, hr0mem, hr0⟩ := forall₂_mem_left (mapM_eq_some_iff.mp h1)
        hl0kept
      have hr0un : _is_unindented_import r0 = true := by
        rcases repaired_classify (hBperc _ hs_in_B) (Or.inr hl0un) hr0 with
          ⟨h, _⟩ | ⟨hrl, hbor, _⟩
        · exact h
        · exfalso
          have hf := boring_not_unind hbor
          rw [hrl] at hf
          rw [hf] at hl0un
          cases hl0un
      have hFperm : List.Perm F repaired := by
        rw [houtF, ← hsndP]
        exact hpermP.map (fun p => p.2)
      have hr0F : r0 ∈ F := hFperm.mem_iff.mpr hr0mem
      rw [hFsplit] at hr0F
      have hr0imps : r0 ∈ IMPS := by
        rcases List.mem_append.mp hr0F with h | h
        · exact h
        · exfalso
          have hbor := hBors r0 h
          have hf := boring_not_unind hbor
          rw [hf] at hr0un
          cases hr0un
      have himpsne : IMPS ≠ [] := by
        intro hnil
        rw [hnil] at hr0imps
        cases hr0imps
      have himpslen : 0 < IMPS.length := List.length_pos.mpr himpsne
      have houteq : out =
          lines.take s ++ (IMPS ++ BORS) ++ lines.drop e := by
        rw [← hfix, hFsplit]
      have houteq2 : out =
          lines.take s ++ (IMPS ++ (BORS ++ lines.drop e)) := by
        rw [houteq]
        simp [List.append_assoc]
      have houteq3 : out =
          (lines.take s ++ IMPS) ++ (BORS ++ lines.drop e) := by
        rw [houteq]
        simp [List.append_assoc]
      have hPnotun : ∀ l ∈ lines.take s, _is_unindented_import l = false := by
        intro l hl
        obtain ⟨k, hk, hkeq⟩ := mem_getD hl
        have hks : k < s := by
          rw [List.length_take] at hk
          omega
        have htr : (lines.take s).getD k [] = lines.getD k [] := getD_take hks
        have hle : lines.getD k [] = l := htr.symm.trans hkeq
        have h3 := hprefix k hks
        rw [hle] at h3
        exact h3
      have hTailprop : ∀ k, k < (BORS ++ lines.drop e).length →
          (∀ m, m < k → _is_boring ((BORS ++ lines.drop e).getD m []) = true) →
          _is_unindented_import ((BORS ++ lines.drop e).getD k []) = false := by
        intro k hk hgap
        by_cases hkB : k < BORS.length
        · rw [getD_append_lt hkB]
          exact boring_not_unind (hBors _ (getD_mem hkB))
        · push_neg at hkB
          rw [getD_append_ge hkB, getD_drop]
          apply hafter (e + (k - BORS.length)) (by omega)
          intro m hm1 hm2
          have hj : BORS.length + (m - e) < k := by omega
          have hgj := hgap (BORS.length + (m - e)) hj
          rw [getD_append_ge (by omega), getD_drop] at hgj
          rw [show BORS.length + (m - e) - BORS.length = m - e from by omega]
            at hgj
          rw [show e + (m - e) = m from by omega] at hgj
          exact hgj
      have hglout : _get_lines out = (s, s + IMPS.length) := by
        rw [houteq2]
        unfold _get_lines
        rw [gl_skip _ 0 0 hPnotun]
        rw [show 0 + (lines.take s).length = s from by rw [Nat.zero_add, hPlen]]
        rw [gl_start hImps himpsne _ s 0]
        exact gl_tail _ s (s + IMPS.length) (by omega) hTailprop
      have hout1 : (_get_lines out).1 = s := by
        rw [hglout]
      have hout2 : (_get_lines out).2 = s + IMPS.length := by
        rw [hglout]
      have hdropS : out.drop s = IMPS ++ (BORS ++ lines.drop e) := by
        rw [houteq2]
        exact drop_append_len hPlen
      have htakeS : out.take s = lines.take s := by
        rw [houteq2]
        exact take_append_len hPlen
      have hslice : (out.drop s).take IMPS.length = IMPS := by
        rw [hdropS]
        exact take_append_len rfl
      have hdropSI : out.drop (s + IMPS.length) = BORS ++ lines.drop e := by
        rw [houteq3]
        exact drop_append_len (by rw [List.length_append, hPlen])
      have hfixedImps : _fixed IMPS = some IMPS := by
        have hstripI : ∀ x ∈ IMPS, (!(strip x).isEmpty) = true := by
          intro x hx
          obtain ⟨p, hp, hpx⟩ := List.mem_map.mp hx
          have hpS : p ∈ pairs.insertionSort fixRel :=
            (List.take_sublist _ _).subset hp
          rw [← hpx]
          exact (hpfacts p hpS).2.1
        have hrepI : ∀ x ∈ IMPS, _repair_any x = some x := by
          intro x hx
          obtain ⟨p, hp, hpx⟩ := List.mem_map.mp hx
          have hpS : p ∈ pairs.insertionSort fixRel :=
            (List.take_sublist _ _).subset hp
          rw [← hpx]
          exact (hpfacts p hpS).1
        have hP2I : IMPS.mapM (fun x => (rank x).map
            (fun k => ((-(Int.ofNat k), upper x), x))) =
            some ((pairs.insertionSort fixRel).take I) := by
          rw [hIMPSdef]
          apply mapM_map_section
          intro p hp
          have hpS : p ∈ pairs.insertionSort fixRel :=
            (List.take_sublist _ _).subset hp
          obtain ⟨rp, hrank, hkey⟩ := hcoh p (hpermP.mem_iff.mp hpS)
          obtain ⟨pk, px⟩ := p
          have hkey2 : pk = (-(Int.ofNat rp), upper px) := hkey
          have hrank2 : rank px = some rp := hrank
          rw [hrank2]
          simp only [Option.map_some', Option.some.injEq]
          rw [hkey2]
        have hsortI : List.Pairwise fixRel ((pairs.insertionSort fixRel).take I) :=
          List.Pairwise.sublist (List.take_sublist _ _) hsortP
        exact fixed_of_fixpoints hstripI hrepI hP2I hsortI
      show _fix_safely out = some out
      simp only [_fix_safely]
      rw [hout1, hout2]
      rw [show s + IMPS.length - s = IMPS.length from by omega]
      rw [hslice, hfixedImps]
      simp only [Option.map_some', Option.some.injEq]
      rw [htakeS, hdropSI]
      rw [houteq]
      simp [List.append_assoc]

/-- C4 witness: a closed instance of `c4_amended` on the tame document
`import b / import a`: the first pass returns `import a / import b`, and the
second pass returns it unchanged. -/
theorem c4_witness :
    (∀ l ∈ [("import b").data, ("import a").data], tameLine l = true) ∧
    _fix_safely [("import b").data, ("import a").data] =
      some [("import a").data, ("import b").data] ∧
    _fix_safely [("import a").data, ("import b").data] =
      some [("import a").data, ("import b").data] :=
  ⟨by decide, by decide,
    c4_amended [("import b").data, ("import a").data]
      [("import a").data, ("import b").data] (by decide) (by decide)⟩

end SortPy
